import Mathlib

/-!
# Glicko-2 rating period (`period.go`)

A shallow embedding of `period.go`: the registration calls of a rating period
(`NewRatingPeriod`, `AddPlayer`, `AddMatch`), the batch update `Calculate`, and the
numeric steps it is built from (`v`, `g`, `e`, `delta`, `sigmaP`, `phiA`, `phiP`, `muP`).

Conventions of the embedding:

* `*Player` pointers are natural numbers (`PlayerRef`); the Go heap of players is a
  function `Heap` from pointers to player records, threaded explicitly through every
  call that mutates a player.
* `float64` is idealised as `ℝ`; `math.Pow x 2` is `x ^ 2`, `math.Exp`, `math.Log`,
  `math.Sqrt`, `math.Abs`, `math.Pi` are the real functions of the same name. The
  statements of this file are about the formulas of `period.go` in exact arithmetic;
  rounding, overflow, underflow and NaN of `float64` are not represented.
* The two `for` loops of `sigmaP` have no bound in the source, so they are embedded with
  an explicit iteration budget and return `none` when the budget is used up.
* `*match` pointers are never compared in `period.go`, so a match is embedded by value.
-/

namespace Glicko

/-! ## Data model -/

/-- A `*Player` pointer. `AddPlayer` compares players by pointer identity. -/
abbrev PlayerRef := Nat

/-- Modelled from the spec: the `Rating` struct is declared outside `period.go`; §3 gives
it as the triple (rating μ, deviation φ, volatility σ) on the internal scale, which are
the fields `mu`, `phi`, `sigma` that `Calculate` reads. -/
structure Rating where
  mu : ℝ
  phi : ℝ
  sigma : ℝ

/-- Modelled from the spec: the `MatchResult` type is declared outside `period.go`; §3
gives it as the enumeration WIN = 1.0, DRAW = 0.5, LOSS = 0.0 seen from player1. -/
inductive MatchResult where
  | WIN
  | DRAW
  | LOSS
  deriving DecidableEq, Repr

/-- Modelled from the spec: the numeric value of a `MatchResult`, the conversion
`float64(...)` applied in `delta` (WIN = 1.0, DRAW = 0.5, LOSS = 0.0, §3). -/
noncomputable def MatchResult.toReal : MatchResult → ℝ
  | MatchResult.WIN => 1
  | MatchResult.DRAW => 1 / 2
  | MatchResult.LOSS => 0

/-- Modelled from the spec: the outcome seen from the other side, `1 - score` (§3:
`resultFor(player2) == 1 - resultFor(player1)`). -/
def MatchResult.flip : MatchResult → MatchResult
  | MatchResult.WIN => MatchResult.LOSS
  | MatchResult.DRAW => MatchResult.DRAW
  | MatchResult.LOSS => MatchResult.WIN

/-- The `match` struct built by `AddMatch` (`match` is a Lean keyword, hence the
capital): the two participants and the score from `player1`'s side. -/
structure Match where
  player1 : PlayerRef
  player2 : PlayerRef
  score : MatchResult
  deriving DecidableEq, Repr

/-- Modelled from the spec: the `Player` struct is declared outside `period.go`; §3 gives
its fields `pre`, `post` and the ordered `matches` list, the three that `period.go`
reads and writes (`matches` is a Lean keyword, hence the underscore). -/
structure Player where
  pre : Rating
  post : Rating
  matches_ : List Match

/-- The Go heap restricted to players: what each `*Player` points to. -/
abbrev Heap := PlayerRef → Player

/-- The `RatingPeriod` struct. -/
structure RatingPeriod where
  tau : ℝ
  players : List PlayerRef

/-! ## Registration -/

/-- `NewRatingPeriod(tau)`: the given constant and an empty player list. -/
def NewRatingPeriod (tau : ℝ) : RatingPeriod :=
  { tau := tau, players := [] }

/-- `period.AddPlayer(player)`: scan the list for the pointer and return on a hit,
otherwise append. -/
def RatingPeriod.AddPlayer (period : RatingPeriod) (player : PlayerRef) : RatingPeriod :=
  if period.players.any (fun p => p == player) then period
  else { period with players := period.players ++ [player] }

/-- Modelled from the spec: `Player.addMatch` is declared outside `period.go`; §4.1 says
the match is appended to the player's match list. -/
def Player.addMatch (heap : Heap) (player : PlayerRef) (m : Match) : Heap :=
  Function.update heap player
    { heap player with matches_ := (heap player).matches_ ++ [m] }

/-- `period.AddMatch(player1, player2, score)`: register both players, build the match
and add it to both players. -/
def RatingPeriod.AddMatch (period : RatingPeriod) (heap : Heap)
    (player1 player2 : PlayerRef) (score : MatchResult) : RatingPeriod × Heap :=
  let period1 := period.AddPlayer player1
  let period2 := period1.AddPlayer player2
  let m : Match := { player1 := player1, player2 := player2, score := score }
  let heap1 := Player.addMatch heap player1 m
  let heap2 := Player.addMatch heap1 player2 m
  (period2, heap2)

/-- One registration call made by a client of the package. -/
inductive Call where
  | addPlayer (player : PlayerRef)
  | addMatch (player1 player2 : PlayerRef) (score : MatchResult)

/-- The effect of one registration call on the period and the heap. -/
def Call.apply (st : RatingPeriod × Heap) : Call → RatingPeriod × Heap
  | Call.addPlayer player => (st.1.AddPlayer player, st.2)
  | Call.addMatch player1 player2 score => st.1.AddMatch st.2 player1 player2 score

/-- The period and heap after a sequence of registration calls on a fresh period. -/
def runCalls (tau : ℝ) (heap : Heap) (calls : List Call) : RatingPeriod × Heap :=
  calls.foldl Call.apply (NewRatingPeriod tau, heap)

/-! ## The rating update -/

/-- Modelled from the spec: `match.opponentFor` is declared outside `period.go`; §3 and
§4.2 use it for the other participant of the match. -/
def Match.opponentFor (m : Match) (player : PlayerRef) : PlayerRef :=
  if m.player1 = player then m.player2 else m.player1

/-- Modelled from the spec: `match.resultFor` is declared outside `period.go`; §3 says
the score is stored from player1's side and the other side sees `1 - score`. -/
def Match.resultFor (m : Match) (player : PlayerRef) : MatchResult :=
  if m.player1 = player then m.score else m.score.flip

/-- Modelled from the spec: `Rating.Update` is declared outside `period.go`; §4.2 step h
says the post state becomes the triple (μ', φ', σ'). -/
def Rating.Update (_post : Rating) (mu phi sigma : ℝ) : Rating :=
  { mu := mu, phi := phi, sigma := sigma }

/-- Modelled from the spec: `Rating.Touch` is declared outside `period.go`, which calls
it with no argument on the post state, `player.post.Touch()`. §4.2 step 1 gives its
effect on a state as the same rating and volatility with the deviation replaced by
`sqrt(φ² + σ²)`; the method has only its receiver to read, so it is modelled on the
fields of the receiver. -/
noncomputable def Rating.Touch (post : Rating) : Rating :=
  { mu := post.mu, phi := Real.sqrt (post.phi ^ 2 + post.sigma ^ 2), sigma := post.sigma }

/-- `g(phiJ)`. -/
noncomputable def g (phiJ : ℝ) : ℝ :=
  1 / Real.sqrt (1 + 3 * phiJ ^ 2 / Real.pi ^ 2)

/-- `e(mu, muJ, phiJ)`. -/
noncomputable def e (mu muJ phiJ : ℝ) : ℝ :=
  1 / (1 + Real.exp (-g phiJ * (mu - muJ)))

/-- Step 3, `v(player)`: the loop adds `g*g*E*(1-E)` per match to an accumulator that
starts at 0, and the reciprocal of the accumulator is returned. -/
noncomputable def v (heap : Heap) (player : PlayerRef) : ℝ :=
  1 / (heap player).matches_.foldl
    (fun acc m =>
      let opponent := heap (m.opponentFor player)
      let gj := g opponent.pre.phi
      let E := e (heap player).pre.mu opponent.pre.mu opponent.pre.phi
      let vj := gj * gj * E * (1 - E)
      acc + vj)
    0

/-- Step 4, `delta(player)`: the loop adds `g*(sc - e)` per match to an accumulator that
starts at 0. -/
noncomputable def delta (heap : Heap) (player : PlayerRef) : ℝ :=
  (heap player).matches_.foldl
    (fun outcomeBasedRating m =>
      let opponent := heap (m.opponentFor player)
      let ophi := g opponent.pre.phi
      let sc := (m.resultFor player).toReal
      let ej := e (heap player).pre.mu opponent.pre.mu opponent.pre.phi
      outcomeBasedRating + ophi * (sc - ej))
    0

/-- The closure `fX` of `sigmaP`. -/
noncomputable def fX (x delta phi v a tau : ℝ) : ℝ :=
  (Real.exp x * (delta ^ 2 - phi ^ 2 - v - Real.exp x))
      / (2 * (phi ^ 2 + v + Real.exp x) ^ 2)
    - (x - a) / tau ^ 2

/-- The constant `epsilon` of `sigmaP`. -/
noncomputable def epsilon : ℝ := 0.000001

/-- The bracket search of `sigmaP`, `for fX(a-k*tau, ...) < 0 { k++ }`, started at `k`
and allowed `fuel` executions of its body; the value is the `k` at which the loop
exits. -/
noncomputable def searchK (delta phi v a tau : ℝ) : Nat → ℝ → Option ℝ
  | 0, k => if fX (a - k * tau) delta phi v a tau < 0 then none else some k
  | fuel + 1, k =>
    if fX (a - k * tau) delta phi v a tau < 0 then searchK delta phi v a tau fuel (k + 1)
    else some k

/-- The main loop of `sigmaP`, `for math.Abs(B-A) > epsilon { ... }`, started in the
state `(A, B, fA, fB)` and allowed `fuel` executions of its body; the value is the `A`
at which the loop exits. -/
noncomputable def illinois (delta phi v a tau : ℝ) : Nat → ℝ → ℝ → ℝ → ℝ → Option ℝ
  | 0, A, B, _, _ => if |B - A| > epsilon then none else some A
  | fuel + 1, A, B, fA, fB =>
    if |B - A| > epsilon then
      let C := A + fA * (A - B) / (fB - fA)
      let fC := fX C delta phi v a tau
      if fC * fB < 0 then illinois delta phi v a tau fuel B C fB fC
      else illinois delta phi v a tau fuel A C (fA / 2) fC
    else some A

/-- The choice of `B` in `sigmaP`: the logarithm when `delta² > phi² + v`, the bracket
search from `k = 1` otherwise. -/
noncomputable def chooseB (fuel : Nat) (delta phi v a tau : ℝ) : Option ℝ :=
  if delta ^ 2 > phi ^ 2 + v then some (Real.log (delta ^ 2 - phi ^ 2 - v))
  else (searchK delta phi v a tau fuel 1).map (fun k => a - k * tau)

/-- Step 5, `sigmaP(delta, sigma, phi, v, tau)`, each of its two loops allowed `fuel`
executions of its body; `none` when a loop uses up its budget. -/
noncomputable def sigmaP (fuel : Nat) (delta sigma phi v tau : ℝ) : Option ℝ :=
  let a := Real.log (sigma ^ 2)
  let A := a
  match chooseB fuel delta phi v a tau with
  | none => none
  | some B =>
    let fA := fX A delta phi v a tau
    let fB := fX B delta phi v a tau
    (illinois delta phi v a tau fuel A B fA fB).map (fun A => Real.exp (A / 2))

/-- Step 6, `phiA(phi, sigmaP)`. -/
noncomputable def phiA (phi sigmaP : ℝ) : ℝ :=
  Real.sqrt (phi ^ 2 + sigmaP ^ 2)

/-- Step 7, `phiP(phiS, v)`. -/
noncomputable def phiP (phiS v : ℝ) : ℝ :=
  1 / Real.sqrt (1 / phiS ^ 2 + 1 / v)

/-- `muP(mu, phiP, delta)`. -/
noncomputable def muP (mu phiP delta : ℝ) : ℝ :=
  mu + phiP ^ 2 * delta

/-- The body of the loop of `Calculate` for one player. -/
noncomputable def calculatePlayer (fuel : Nat) (tau : ℝ) (heap : Heap) (player : PlayerRef) :
    Option Heap :=
  if (heap player).matches_.length > 0 then
    let v := v heap player
    let dp := delta heap player
    let delta := v * dp
    match sigmaP fuel delta (heap player).pre.sigma (heap player).pre.phi v tau with
    | none => none
    | some sigmaP =>
      let phiS := phiA (heap player).pre.phi sigmaP
      let phiP := phiP phiS v
      let muP := muP (heap player).pre.mu phiP dp
      some (Function.update heap player
        { heap player with post := (heap player).post.Update muP phiP sigmaP })
  else
    some (Function.update heap player
      { heap player with post := (heap player).post.Touch })

/-- `period.Calculate()`: the loop body run over the registered players in order. -/
noncomputable def RatingPeriod.Calculate (fuel : Nat) (period : RatingPeriod) (heap : Heap) :
    Option Heap :=
  period.players.foldlM (calculatePlayer fuel period.tau) heap

/-! ## The main loop of `sigmaP`, one execution of its body at a time -/

/-- One execution of the body of the main loop of `sigmaP` on the state
`(A, B, fA, fB)`: the secant point `C`, then `A, fA ← B, fB` when `fC * fB < 0` and
`fA ← fA / 2` otherwise, then `B, fB ← C, fC`. -/
noncomputable def illinoisStep (delta phi v a tau : ℝ) (st : ℝ × ℝ × ℝ × ℝ) :
    ℝ × ℝ × ℝ × ℝ :=
  let A := st.1
  let B := st.2.1
  let fA := st.2.2.1
  let fB := st.2.2.2
  let C := A + fA * (A - B) / (fB - fA)
  let fC := fX C delta phi v a tau
  if fC * fB < 0 then (B, C, fB, fC) else (A, C, fA / 2, fC)

/-! ## Notions used in the statements about `Calculate` -/

/-- Two heaps hold the same pre states and match lists: every player has the same pre
state and the same match list in both (the post states may differ). -/
def SameInputs (heap1 heap2 : Heap) : Prop :=
  ∀ q, (heap1 q).pre = (heap2 q).pre ∧ (heap1 q).matches_ = (heap2 q).matches_

/-- The post state that the body of the loop of `Calculate` writes for one player, read
off `calculatePlayer` (see `calculatePlayer_eq`): the `Update` of the first branch, the
`Touch` of the post state held before in the second. -/
noncomputable def postState (fuel : Nat) (tau : ℝ) (heap : Heap) (player : PlayerRef) :
    Option Rating :=
  if (heap player).matches_.length > 0 then
    (sigmaP fuel (v heap player * delta heap player) (heap player).pre.sigma
        (heap player).pre.phi (v heap player) tau).map
      (fun s => (heap player).post.Update
        (muP (heap player).pre.mu (phiP (phiA (heap player).pre.phi s) (v heap player))
          (delta heap player))
        (phiP (phiA (heap player).pre.phi s) (v heap player)) s)
  else some (heap player).post.Touch

/-! ## Concrete inputs -/

/-- A heap in which every player has the rating `r` as pre and post state and no match. -/
def freshHeap (r : Rating) : Heap :=
  fun _ => { pre := r, post := r, matches_ := [] }

/-- The rating (0, 1, 1). -/
noncomputable def unitRating : Rating :=
  { mu := 0, phi := 1, sigma := 1 }

/-- The state after `AddMatch(0, 1, WIN)` is called twice on a fresh period with
`tau = 0.5`, players 0 and 1 having no match before. -/
noncomputable def winTwice : RatingPeriod × Heap :=
  ((NewRatingPeriod (1 / 2)).AddMatch (freshHeap unitRating) 0 1 MatchResult.WIN).1.AddMatch
    ((NewRatingPeriod (1 / 2)).AddMatch (freshHeap unitRating) 0 1 MatchResult.WIN).2
    0 1 MatchResult.WIN

/-- Player 0 with pre state (0, 1, 1), every other player with pre state (0, 0, 1), no
match registered. -/
noncomputable def duelHeap : Heap :=
  fun p =>
    if p = 0 then { pre := unitRating, post := unitRating, matches_ := [] }
    else { pre := { mu := 0, phi := 0, sigma := 1 }, post := { mu := 0, phi := 0, sigma := 1 },
           matches_ := [] }

/-- The period with `tau = 1e-6` and the heap after `AddMatch(0, 1, WIN)` on `duelHeap`. -/
noncomputable def duel : RatingPeriod × Heap :=
  (NewRatingPeriod (1 / 1000000)).AddMatch duelHeap 0 1 MatchResult.WIN

/-- The period with `tau = 0.5` and the heap after `AddPlayer(0)` alone: player 0, with
pre and post state (0, 1, 1), is registered and has no match. -/
noncomputable def idle : RatingPeriod × Heap :=
  ((NewRatingPeriod (1 / 2)).AddPlayer 0, freshHeap unitRating)

/-- A second run on the inputs of `duel`: the same `tau`, the two players registered in
the other order, and every post state overwritten by (5, 5, 5) beforehand. -/
noncomputable def duelAgain : RatingPeriod × Heap :=
  ({ tau := 1 / 1000000, players := [1, 0] },
    fun q => { duel.2 q with post := { mu := 5, phi := 5, sigma := 5 } })

/-- The players of the worked example before any match is registered: player 0 with pre
state (0, 1.1513, 0.06), players 1, 2 and 3 with rating and deviation
(-0.5756, 0.1727), (0.2878, 0.2398) and (1.1513, 0.1727); the example gives no
volatility for the opponents, 0.06 is taken. -/
noncomputable def workedHeap : Heap :=
  fun p =>
    if p = 0 then
      { pre := { mu := 0, phi := 1.1513, sigma := 0.06 },
        post := { mu := 0, phi := 1.1513, sigma := 0.06 }, matches_ := [] }
    else if p = 1 then
      { pre := { mu := -0.5756, phi := 0.1727, sigma := 0.06 },
        post := { mu := -0.5756, phi := 0.1727, sigma := 0.06 }, matches_ := [] }
    else if p = 2 then
      { pre := { mu := 0.2878, phi := 0.2398, sigma := 0.06 },
        post := { mu := 0.2878, phi := 0.2398, sigma := 0.06 }, matches_ := [] }
    else
      { pre := { mu := 1.1513, phi := 0.1727, sigma := 0.06 },
        post := { mu := 1.1513, phi := 0.1727, sigma := 0.06 }, matches_ := [] }

/-- The worked example: the period with `tau = 0.5` and the heap after
`AddMatch(0, 1, WIN)`, `AddMatch(0, 2, LOSS)`, `AddMatch(0, 3, LOSS)` on `workedHeap`. -/
noncomputable def worked : RatingPeriod × Heap :=
  runCalls (1 / 2) workedHeap
    [Call.addMatch 0 1 MatchResult.WIN, Call.addMatch 0 2 MatchResult.LOSS,
      Call.addMatch 0 3 MatchResult.LOSS]

/-- The worked example with a fifth player registered by `AddPlayer(4)`: player 4, with
pre and post state (1.1513, 0.1727, 0.06), has no match. -/
noncomputable def workedIdle : RatingPeriod × Heap :=
  runCalls (1 / 2) workedHeap
    [Call.addMatch 0 1 MatchResult.WIN, Call.addMatch 0 2 MatchResult.LOSS,
      Call.addMatch 0 3 MatchResult.LOSS, Call.addPlayer 4]

/-! ## Registration: the player list -/

theorem AddPlayer_players (period : RatingPeriod) (player : PlayerRef) :
    (period.AddPlayer player).players =
      if player ∈ period.players then period.players else period.players ++ [player] := by
  unfold RatingPeriod.AddPlayer
  by_cases h : player ∈ period.players
  · have hany : period.players.any (fun p => p == player) = true := by
      rw [List.any_eq_true]
      exact ⟨player, h, by simp⟩
    simp [hany, h]
  · have hany : period.players.any (fun p => p == player) = false := by
      rw [List.any_eq_false]
      intro x hx hxp
      have : x = player := by simpa using hxp
      exact h (this ▸ hx)
    simp [hany, h]

theorem AddPlayer_tau (period : RatingPeriod) (player : PlayerRef) :
    (period.AddPlayer player).tau = period.tau := by
  unfold RatingPeriod.AddPlayer
  split <;> rfl

theorem AddPlayer_of_mem (period : RatingPeriod) (player : PlayerRef)
    (h : player ∈ period.players) : period.AddPlayer player = period := by
  unfold RatingPeriod.AddPlayer
  have hany : period.players.any (fun p => p == player) = true := by
    rw [List.any_eq_true]
    exact ⟨player, h, by simp⟩
  simp [hany]

theorem AddPlayer_nodup (period : RatingPeriod) (player : PlayerRef)
    (h : period.players.Nodup) : (period.AddPlayer player).players.Nodup := by
  rw [AddPlayer_players]
  by_cases hp : player ∈ period.players
  · simpa [hp] using h
  · simp only [hp, if_false]
    rw [List.nodup_append]
    refine ⟨h, List.nodup_singleton _, ?_⟩
    intro x hx hx1
    have : x = player := by simpa using hx1
    exact hp (this ▸ hx)

theorem AddPlayer_mem (period : RatingPeriod) (player : PlayerRef) :
    player ∈ (period.AddPlayer player).players := by
  rw [AddPlayer_players]
  by_cases hp : player ∈ period.players <;> simp [hp]

theorem AddMatch_players (period : RatingPeriod) (heap : Heap) (player1 player2 : PlayerRef)
    (score : MatchResult) :
    (period.AddMatch heap player1 player2 score).1 =
      (period.AddPlayer player1).AddPlayer player2 := rfl

theorem Call_apply_nodup (st : RatingPeriod × Heap) (c : Call) (h : st.1.players.Nodup) :
    (Call.apply st c).1.players.Nodup := by
  cases c with
  | addPlayer player => exact AddPlayer_nodup _ _ h
  | addMatch player1 player2 score =>
    show ((st.1.AddPlayer player1).AddPlayer player2).players.Nodup
    exact AddPlayer_nodup _ _ (AddPlayer_nodup _ _ h)

theorem foldl_apply_nodup (calls : List Call) (st : RatingPeriod × Heap)
    (h : st.1.players.Nodup) : (calls.foldl Call.apply st).1.players.Nodup := by
  induction calls generalizing st with
  | nil => simpa using h
  | cons c cs ih =>
    rw [List.foldl_cons]
    exact ih _ (Call_apply_nodup st c h)

/-- C9: starting from `NewRatingPeriod`, every sequence of `AddPlayer` and `AddMatch`
calls leaves the player list of the period free of duplicates; on the period so reached,
`AddPlayer` of a registered player changes nothing, and `AddPlayer` of any player keeps
the players registered so far as an initial segment, in their order (a new player goes
to the end). -/
theorem C9_players_nodup (tau : ℝ) (heap : Heap) (calls : List Call) :
    (runCalls tau heap calls).1.players.Nodup ∧
    (∀ player, player ∈ (runCalls tau heap calls).1.players →
      (runCalls tau heap calls).1.AddPlayer player = (runCalls tau heap calls).1) ∧
    (∀ player, ∃ rest, ((runCalls tau heap calls).1.AddPlayer player).players =
      (runCalls tau heap calls).1.players ++ rest ∧ (rest = [] ∨ rest = [player])) := by
  refine ⟨?_, ?_, ?_⟩
  · exact foldl_apply_nodup calls _ (by simp [NewRatingPeriod])
  · intro player hp
    exact AddPlayer_of_mem _ _ hp
  · intro player
    rw [AddPlayer_players]
    by_cases hp : player ∈ (runCalls tau heap calls).1.players
    · exact ⟨[], by simp [hp], Or.inl rfl⟩
    · exact ⟨[player], by simp [hp], Or.inr rfl⟩

/-! ## Registration: the match lists -/

theorem addMatch_same (heap : Heap) (player : PlayerRef) (m : Match) :
    (Player.addMatch heap player m player).matches_ = (heap player).matches_ ++ [m] := by
  simp [Player.addMatch]

theorem addMatch_other (heap : Heap) (player other : PlayerRef) (m : Match)
    (h : other ≠ player) : Player.addMatch heap player m other = heap other := by
  simp [Player.addMatch, Function.update_noteq h]

theorem AddMatch_matches_player1 (period : RatingPeriod) (heap : Heap)
    (player1 player2 : PlayerRef) (score : MatchResult) (h : player1 ≠ player2) :
    ((period.AddMatch heap player1 player2 score).2 player1).matches_ =
      (heap player1).matches_ ++ [⟨player1, player2, score⟩] := by
  show (Player.addMatch (Player.addMatch heap player1 _) player2 _ player1).matches_ = _
  rw [addMatch_other _ _ _ _ h, addMatch_same]

theorem AddMatch_matches_player2 (period : RatingPeriod) (heap : Heap)
    (player1 player2 : PlayerRef) (score : MatchResult) (h : player1 ≠ player2) :
    ((period.AddMatch heap player1 player2 score).2 player2).matches_ =
      (heap player2).matches_ ++ [⟨player1, player2, score⟩] := by
  show (Player.addMatch (Player.addMatch heap player1 _) player2 _ player2).matches_ = _
  rw [addMatch_same, addMatch_other _ _ _ _ (Ne.symm h)]

/-- C10, as the code has it: `AddMatch` registers players once but never looks for an
earlier match. Called twice with the same two distinct players and the same score, the
second call leaves the player list as the first call left it, and each participant's
match list is the list it had before followed by two equal entries for the match. -/
theorem C10_AddMatch_twice (period : RatingPeriod) (heap : Heap)
    (player1 player2 : PlayerRef) (score : MatchResult) (h : player1 ≠ player2) :
    ((period.AddMatch heap player1 player2 score).1.AddMatch
        (period.AddMatch heap player1 player2 score).2 player1 player2 score).1 =
      (period.AddMatch heap player1 player2 score).1 ∧
    (((period.AddMatch heap player1 player2 score).1.AddMatch
        (period.AddMatch heap player1 player2 score).2 player1 player2 score).2
          player1).matches_ =
      (heap player1).matches_ ++ [⟨player1, player2, score⟩, ⟨player1, player2, score⟩] ∧
    (((period.AddMatch heap player1 player2 score).1.AddMatch
        (period.AddMatch heap player1 player2 score).2 player1 player2 score).2
          player2).matches_ =
      (heap player2).matches_ ++ [⟨player1, player2, score⟩, ⟨player1, player2, score⟩] := by
  refine ⟨?_, ?_, ?_⟩
  · rw [AddMatch_players, AddMatch_players]
    have h2 : player2 ∈ ((period.AddPlayer player1).AddPlayer player2).players :=
      AddPlayer_mem _ _
    have h1 : player1 ∈ ((period.AddPlayer player1).AddPlayer player2).players := by
      rw [AddPlayer_players]
      have := AddPlayer_mem period player1
      by_cases hp : player2 ∈ (period.AddPlayer player1).players <;> simp [hp, this]
    rw [AddPlayer_of_mem _ _ h1, AddPlayer_of_mem _ _ h2]
  · rw [AddMatch_matches_player1 _ _ _ _ _ h, AddMatch_matches_player1 _ _ _ _ _ h]
    simp
  · rw [AddMatch_matches_player2 _ _ _ _ _ h, AddMatch_matches_player2 _ _ _ _ _ h]
    simp

/-- C10, witness: players 0 and 1 on a fresh period. -/
theorem C10_AddMatch_twice_witness :
    winTwice.1 = ((NewRatingPeriod (1 / 2)).AddMatch (freshHeap unitRating) 0 1
      MatchResult.WIN).1 ∧
    (winTwice.2 0).matches_ =
      ((freshHeap unitRating) 0).matches_ ++ [⟨0, 1, MatchResult.WIN⟩, ⟨0, 1, MatchResult.WIN⟩] ∧
    (winTwice.2 1).matches_ =
      ((freshHeap unitRating) 1).matches_ ++ [⟨0, 1, MatchResult.WIN⟩, ⟨0, 1, MatchResult.WIN⟩] :=
  C10_AddMatch_twice (NewRatingPeriod (1 / 2)) (freshHeap unitRating) 0 1 MatchResult.WIN
    (by decide)

/-- C10, counterexample: after `AddMatch(0, 1, WIN)` is called twice on a fresh period,
the match is held twice, not once, by the match list of player 0 and by that of
player 1. -/
theorem C10_counterexample :
    (winTwice.2 0).matches_ = [⟨0, 1, MatchResult.WIN⟩, ⟨0, 1, MatchResult.WIN⟩] ∧
    (winTwice.2 1).matches_ = [⟨0, 1, MatchResult.WIN⟩, ⟨0, 1, MatchResult.WIN⟩] ∧
    ¬ ((winTwice.2 0).matches_.count ⟨0, 1, MatchResult.WIN⟩ = 1) ∧
    ¬ ((winTwice.2 1).matches_.count ⟨0, 1, MatchResult.WIN⟩ = 1) := by
  have h0 : (winTwice.2 0).matches_ = [⟨0, 1, MatchResult.WIN⟩, ⟨0, 1, MatchResult.WIN⟩] := by
    simp [winTwice, RatingPeriod.AddMatch, Player.addMatch, freshHeap, Function.update]
  have h1 : (winTwice.2 1).matches_ = [⟨0, 1, MatchResult.WIN⟩, ⟨0, 1, MatchResult.WIN⟩] := by
    simp [winTwice, RatingPeriod.AddMatch, Player.addMatch, freshHeap, Function.update]
  refine ⟨h0, h1, ?_, ?_⟩
  · rw [h0]; decide
  · rw [h1]; decide

/-! ## Steps 3 and 4: `g`, `e`, `v`, `delta` -/

theorem foldl_add_eq_sum {α : Type} (f : α → ℝ) (l : List α) (init : ℝ) :
    l.foldl (fun acc m => acc + f m) init = init + (l.map f).sum := by
  induction l generalizing init with
  | nil => simp
  | cons x xs ih =>
    rw [List.foldl_cons, ih, List.map_cons, List.sum_cons]
    ring

theorem g_pos (phiJ : ℝ) : 0 < g phiJ := by
  unfold g
  have h : 0 < 1 + 3 * phiJ ^ 2 / Real.pi ^ 2 := by positivity
  exact one_div_pos.mpr (Real.sqrt_pos.mpr h)

theorem g_zero : g 0 = 1 := by
  simp [g]

theorem e_pos (mu muJ phiJ : ℝ) : 0 < e mu muJ phiJ := by
  unfold e
  have := Real.exp_pos (-g phiJ * (mu - muJ))
  positivity

theorem e_lt_one (mu muJ phiJ : ℝ) : e mu muJ phiJ < 1 := by
  unfold e
  have h := Real.exp_pos (-g phiJ * (mu - muJ))
  rw [div_lt_one (by linarith)]
  linarith

theorem e_self (mu phiJ : ℝ) : e mu mu phiJ = 1 / 2 := by
  unfold e
  norm_num

theorem v_eq_sum (heap : Heap) (player : PlayerRef) :
    v heap player = 1 / ((heap player).matches_.map (fun m =>
      g (heap (m.opponentFor player)).pre.phi * g (heap (m.opponentFor player)).pre.phi *
        e (heap player).pre.mu (heap (m.opponentFor player)).pre.mu
          (heap (m.opponentFor player)).pre.phi *
        (1 - e (heap player).pre.mu (heap (m.opponentFor player)).pre.mu
          (heap (m.opponentFor player)).pre.phi))).sum := by
  unfold v
  have h := foldl_add_eq_sum (fun m : Match =>
      g (heap (m.opponentFor player)).pre.phi * g (heap (m.opponentFor player)).pre.phi *
        e (heap player).pre.mu (heap (m.opponentFor player)).pre.mu
          (heap (m.opponentFor player)).pre.phi *
        (1 - e (heap player).pre.mu (heap (m.opponentFor player)).pre.mu
          (heap (m.opponentFor player)).pre.phi)) (heap player).matches_ 0
  rw [zero_add] at h
  exact congrArg (fun x => 1 / x) h

theorem delta_eq_sum (heap : Heap) (player : PlayerRef) :
    delta heap player = ((heap player).matches_.map (fun m =>
      g (heap (m.opponentFor player)).pre.phi *
        ((m.resultFor player).toReal -
          e (heap player).pre.mu (heap (m.opponentFor player)).pre.mu
            (heap (m.opponentFor player)).pre.phi))).sum := by
  unfold delta
  have h := foldl_add_eq_sum (fun m : Match =>
      g (heap (m.opponentFor player)).pre.phi *
        ((m.resultFor player).toReal -
          e (heap player).pre.mu (heap (m.opponentFor player)).pre.mu
            (heap (m.opponentFor player)).pre.phi)) (heap player).matches_ 0
  rw [zero_add] at h
  exact h

theorem v_pos (heap : Heap) (player : PlayerRef) (h : (heap player).matches_ ≠ []) :
    0 < v heap player := by
  rw [v_eq_sum]
  apply one_div_pos.mpr
  cases hm : (heap player).matches_ with
  | nil => exact absurd hm h
  | cons m ms =>
    rw [List.map_cons, List.sum_cons]
    have hterm : ∀ m : Match, 0 <
        g (heap (m.opponentFor player)).pre.phi * g (heap (m.opponentFor player)).pre.phi *
          e (heap player).pre.mu (heap (m.opponentFor player)).pre.mu
            (heap (m.opponentFor player)).pre.phi *
          (1 - e (heap player).pre.mu (heap (m.opponentFor player)).pre.mu
            (heap (m.opponentFor player)).pre.phi) := by
      intro m
      have h1 := g_pos (heap (m.opponentFor player)).pre.phi
      have h2 := e_pos (heap player).pre.mu (heap (m.opponentFor player)).pre.mu
        (heap (m.opponentFor player)).pre.phi
      have h3 := e_lt_one (heap player).pre.mu (heap (m.opponentFor player)).pre.mu
        (heap (m.opponentFor player)).pre.phi
      have h4 : 0 < 1 - e (heap player).pre.mu (heap (m.opponentFor player)).pre.mu
        (heap (m.opponentFor player)).pre.phi := by linarith
      positivity
    have hrest : 0 ≤ (ms.map (fun m =>
        g (heap (m.opponentFor player)).pre.phi * g (heap (m.opponentFor player)).pre.phi *
          e (heap player).pre.mu (heap (m.opponentFor player)).pre.mu
            (heap (m.opponentFor player)).pre.phi *
          (1 - e (heap player).pre.mu (heap (m.opponentFor player)).pre.mu
            (heap (m.opponentFor player)).pre.phi))).sum := by
      apply List.sum_nonneg
      intro x hx
      rw [List.mem_map] at hx
      obtain ⟨m', _, rfl⟩ := hx
      exact le_of_lt (hterm m')
    have := hterm m
    linarith

theorem v_congr (heap1 heap2 : Heap) (player : PlayerRef) (h : SameInputs heap1 heap2) :
    v heap1 player = v heap2 player := by
  rw [v_eq_sum, v_eq_sum, (h player).1, (h player).2]
  congr 2
  apply List.map_congr_left
  intro m _
  rw [(h (m.opponentFor player)).1]

theorem delta_congr (heap1 heap2 : Heap) (player : PlayerRef) (h : SameInputs heap1 heap2) :
    delta heap1 player = delta heap2 player := by
  rw [delta_eq_sum, delta_eq_sum, (h player).1, (h player).2]
  congr 1
  apply List.map_congr_left
  intro m _
  rw [(h (m.opponentFor player)).1]

/-! ## Step 5: the function `fX` and the bracket search -/

theorem fX_lower (x delta phi v a tau : ℝ) (hv : 0 < v) :
    -(1 / 2) - (x - a) / tau ^ 2 ≤ fX x delta phi v a tau := by
  have hE := Real.exp_pos x
  have hS : 0 < phi ^ 2 + v + Real.exp x := by positivity
  have key : fX x delta phi v a tau - (-(1 / 2) - (x - a) / tau ^ 2) =
      (Real.exp x * delta ^ 2 + (phi ^ 2 + v + Real.exp x) * (phi ^ 2 + v)) /
        (2 * (phi ^ 2 + v + Real.exp x) ^ 2) := by
    unfold fX
    field_simp
    ring
  have hnn : 0 ≤ (Real.exp x * delta ^ 2 + (phi ^ 2 + v + Real.exp x) * (phi ^ 2 + v)) /
        (2 * (phi ^ 2 + v + Real.exp x) ^ 2) := by positivity
  linarith

theorem fX_step_nonneg (k delta phi v a tau : ℝ) (hv : 0 < v) (htau : 0 < tau)
    (hk : tau / 2 ≤ k) : 0 ≤ fX (a - k * tau) delta phi v a tau := by
  have h := fX_lower (a - k * tau) delta phi v a tau hv
  have h2 : -(1 / 2) - (a - k * tau - a) / tau ^ 2 = k / tau - 1 / 2 := by
    field_simp
    ring
  rw [h2] at h
  have h3 : 1 / 2 ≤ k / tau := by
    rw [le_div_iff₀ htau]
    linarith
  linarith

theorem searchK_some_iff (delta phi v a tau : ℝ) (fuel : Nat) (k k1 : ℝ) :
    searchK delta phi v a tau fuel k = some k1 ↔
      ∃ n : Nat, n ≤ fuel ∧ k1 = k + n ∧ ¬ fX (a - (k + n) * tau) delta phi v a tau < 0 ∧
        ∀ m : Nat, m < n → fX (a - (k + m) * tau) delta phi v a tau < 0 := by
  induction fuel generalizing k with
  | zero =>
    unfold searchK
    constructor
    · intro h
      by_cases hlt : fX (a - k * tau) delta phi v a tau < 0
      · simp [hlt] at h
      · simp only [hlt, if_false, Option.some.injEq] at h
        exact ⟨0, le_refl _, by simp [h], by simpa using hlt, by intro m hm; omega⟩
    · rintro ⟨n, hn, hk1, hnot, _⟩
      have hn0 : n = 0 := by omega
      subst hn0
      simp only [Nat.cast_zero, add_zero] at hk1 hnot
      simp [hnot, hk1]
  | succ fuel ih =>
    unfold searchK
    constructor
    · intro h
      by_cases hlt : fX (a - k * tau) delta phi v a tau < 0
      · simp only [hlt, if_true] at h
        obtain ⟨n, hn, hk1, hnot, hall⟩ := (ih (k + 1)).mp h
        refine ⟨n + 1, by omega, ?_, ?_, ?_⟩
        · rw [hk1]; push_cast; ring
        · have e1 : k + ((n + 1 : Nat) : ℝ) = k + 1 + n := by push_cast; ring
          rw [e1]; exact hnot
        · intro m hm
          cases m with
          | zero => simpa using hlt
          | succ m =>
            have e1 : k + ((m + 1 : Nat) : ℝ) = k + 1 + m := by push_cast; ring
            rw [e1]; exact hall m (by omega)
      · simp only [hlt, if_false, Option.some.injEq] at h
        exact ⟨0, by omega, by simp [h], by simpa using hlt, by intro m hm; omega⟩
    · rintro ⟨n, hn, hk1, hnot, hall⟩
      cases n with
      | zero =>
        simp only [Nat.cast_zero, add_zero] at hk1 hnot
        simp [hnot, hk1]
      | succ n =>
        have hlt : fX (a - k * tau) delta phi v a tau < 0 := by simpa using hall 0 (by omega)
        simp only [hlt, if_true]
        apply (ih (k + 1)).mpr
        refine ⟨n, by omega, ?_, ?_, ?_⟩
        · rw [hk1]; push_cast; ring
        · have e1 : k + ((n + 1 : Nat) : ℝ) = k + 1 + n := by push_cast; ring
          rw [← e1]; exact hnot
        · intro m hm
          have e1 : k + ((m + 1 : Nat) : ℝ) = k + 1 + m := by push_cast; ring
          rw [← e1]; exact hall (m + 1) (by omega)

theorem exists_first_nonneg (delta phi v a tau : ℝ) (hv : 0 < v) (htau : 0 < tau) :
    ∃ n : Nat, ¬ fX (a - (1 + n) * tau) delta phi v a tau < 0 ∧
      ∀ m : Nat, m < n → fX (a - (1 + m) * tau) delta phi v a tau < 0 := by
  classical
  have hex : ∃ n : Nat, ¬ fX (a - (1 + n) * tau) delta phi v a tau < 0 := by
    obtain ⟨N, hN⟩ := exists_nat_ge (tau / 2)
    refine ⟨N, not_lt.mpr (fX_step_nonneg _ delta phi v a tau hv htau ?_)⟩
    linarith
  refine ⟨Nat.find hex, Nat.find_spec hex, ?_⟩
  intro m hm
  exact not_not.mp (Nat.find_min hex hm)

theorem searchK_unique (delta phi v a tau : ℝ) (n : Nat)
    (hnot : ¬ fX (a - (1 + n) * tau) delta phi v a tau < 0)
    (hall : ∀ m : Nat, m < n → fX (a - (1 + m) * tau) delta phi v a tau < 0)
    (fuel : Nat) (k1 : ℝ) (h : searchK delta phi v a tau fuel 1 = some k1) :
    k1 = 1 + n := by
  obtain ⟨n1, _, hk1, hnot1, hall1⟩ := (searchK_some_iff delta phi v a tau fuel 1 k1).mp h
  have hn : n1 = n := by
    rcases Nat.lt_trichotomy n1 n with hlt | heq | hgt
    · exact absurd (hall n1 hlt) hnot1
    · exact heq
    · exact absurd (hall1 n hgt) hnot
  rw [hk1, hn]

theorem searchK_enough (delta phi v a tau : ℝ) (n : Nat)
    (hnot : ¬ fX (a - (1 + n) * tau) delta phi v a tau < 0)
    (hall : ∀ m : Nat, m < n → fX (a - (1 + m) * tau) delta phi v a tau < 0)
    (fuel : Nat) (hfuel : n ≤ fuel) :
    searchK delta phi v a tau fuel 1 = some ((1 : ℝ) + (n : ℝ)) :=
  (searchK_some_iff delta phi v a tau fuel 1 ((1 : ℝ) + (n : ℝ))).mpr
    ⟨n, hfuel, rfl, hnot, hall⟩

theorem chooseB_else (fuel : Nat) (delta phi v a tau : ℝ) (h : delta ^ 2 ≤ phi ^ 2 + v) :
    chooseB fuel delta phi v a tau =
      (searchK delta phi v a tau fuel 1).map (fun k => a - k * tau) := by
  unfold chooseB
  rw [if_neg (not_lt.mpr h)]

/-- C2, as the code has it: when `Δ² ≤ φ² + v` (and `v > 0`, `τ > 0`) the bracket search
walks `B = a - k·τ` for `k = 1, 2, ...` while `fX(a - k·τ) < 0` and stops at the first
`k` for which `fX(a - k·τ) ≥ 0`: some budget suffices for `B = a - k·τ` to be chosen,
no budget gives another `B`, the chosen `B` has `fX(B) ≥ 0`, and `fX(a - j·τ) < 0` for
every `1 ≤ j < k`. -/
theorem C2_bracket_search_selects (delta phi v a tau : ℝ) (hv : 0 < v) (htau : 0 < tau)
    (h : delta ^ 2 ≤ phi ^ 2 + v) :
    ∃ k : Nat, 1 ≤ k ∧
      (∃ fuel : Nat, chooseB fuel delta phi v a tau = some (a - k * tau)) ∧
      (∀ (fuel : Nat) (B : ℝ), chooseB fuel delta phi v a tau = some B → B = a - k * tau) ∧
      0 ≤ fX (a - k * tau) delta phi v a tau ∧
      ∀ j : Nat, 1 ≤ j → j < k → fX (a - j * tau) delta phi v a tau < 0 := by
  obtain ⟨n, hnot, hall⟩ := exists_first_nonneg delta phi v a tau hv htau
  have hcast : ((1 + n : Nat) : ℝ) = 1 + (n : ℝ) := by push_cast; ring
  refine ⟨1 + n, by omega, ⟨n, ?_⟩, ?_, ?_, ?_⟩
  · rw [chooseB_else n delta phi v a tau h,
      searchK_enough delta phi v a tau n hnot hall n (le_refl _), hcast]
    rfl
  · intro fuel B hB
    rw [chooseB_else fuel delta phi v a tau h] at hB
    cases hs : searchK delta phi v a tau fuel 1 with
    | none => rw [hs] at hB; simp at hB
    | some k1 =>
      rw [hs] at hB
      have hk1 := searchK_unique delta phi v a tau n hnot hall fuel k1 hs
      simp only [Option.map_some', Option.some.injEq] at hB
      rw [← hB, hk1, hcast]
  · rw [hcast]; exact not_lt.mp hnot
  · intro j hj1 hjk
    obtain ⟨m, rfl⟩ : ∃ m, j = 1 + m := ⟨j - 1, by omega⟩
    have hm : m < n := by omega
    have hcm : ((1 + m : Nat) : ℝ) = 1 + (m : ℝ) := by push_cast; ring
    rw [hcm]; exact hall m hm

/-- C2, witness: `Δ = 0`, `φ = 0`, `v = 1`, `a = 0`, `τ = 1`. -/
theorem C2_bracket_search_selects_witness :
    ∃ k : Nat, 1 ≤ k ∧
      (∃ fuel : Nat, chooseB fuel 0 0 1 0 1 = some ((0 : ℝ) - k * 1)) ∧
      (∀ (fuel : Nat) (B : ℝ), chooseB fuel 0 0 1 0 1 = some B → B = (0 : ℝ) - k * 1) ∧
      0 ≤ fX ((0 : ℝ) - k * 1) 0 0 1 0 1 ∧
      ∀ j : Nat, 1 ≤ j → j < k → fX ((0 : ℝ) - j * 1) 0 0 1 0 1 < 0 :=
  C2_bracket_search_selects 0 0 1 0 1 (by norm_num) (by norm_num) (by norm_num)

/-- C2, counterexample: for `Δ = 0`, `φ = 0`, `v = 1`, `a = 0`, `τ = 1` the search stops
at `k = 1` with any budget and chooses `B = 0 - 1·1`, and `fX(B) < 0` does not hold
there (`fX(B) ≥ 1/2`). -/
theorem C2_counterexample :
    (∀ fuel : Nat, chooseB fuel 0 0 1 0 1 = some ((0 : ℝ) - 1 * 1)) ∧
    ¬ fX ((0 : ℝ) - 1 * 1) 0 0 1 0 1 < 0 ∧
    1 / 2 ≤ fX ((0 : ℝ) - 1 * 1) 0 0 1 0 1 := by
  have hlow := fX_lower ((0 : ℝ) - 1 * 1) 0 0 1 0 1 (by norm_num)
  have hval : -(1 / 2) - ((0 : ℝ) - 1 * 1 - 0) / 1 ^ 2 = 1 / 2 := by norm_num
  rw [hval] at hlow
  have hhalf : 1 / 2 ≤ fX ((0 : ℝ) - 1 * 1) 0 0 1 0 1 := hlow
  have hnot : ¬ fX ((0 : ℝ) - 1 * 1) 0 0 1 0 1 < 0 :=
    not_lt.mpr (le_trans (by norm_num) hhalf)
  refine ⟨?_, hnot, hhalf⟩
  intro fuel
  rw [chooseB_else fuel 0 0 1 0 1 (by norm_num)]
  have hs : searchK 0 0 1 0 1 fuel 1 = some 1 := by
    cases fuel with
    | zero => unfold searchK; rw [if_neg hnot]
    | succ fuel => unfold searchK; rw [if_neg hnot]
  rw [hs]
  rfl

/-! ## Step 5: the main loop -/

theorem fX_continuous (delta phi v a tau : ℝ) (hv : 0 < v) :
    Continuous (fun x => fX x delta phi v a tau) := by
  unfold fX
  have hden : ∀ x : ℝ, 2 * (phi ^ 2 + v + Real.exp x) ^ 2 ≠ 0 := by
    intro x
    have := Real.exp_pos x
    positivity
  apply Continuous.sub
  · apply Continuous.div
    · exact Real.continuous_exp.mul (continuous_const.sub Real.continuous_exp)
    · exact continuous_const.mul ((continuous_const.add Real.continuous_exp).pow 2)
    · exact hden
  · exact (continuous_id.sub continuous_const).div_const _

theorem sigmaP_some (fuel : Nat) (delta sigma phi v tau s : ℝ)
    (h : sigmaP fuel delta sigma phi v tau = some s) :
    ∃ B A : ℝ, chooseB fuel delta phi v (Real.log (sigma ^ 2)) tau = some B ∧
      illinois delta phi v (Real.log (sigma ^ 2)) tau fuel (Real.log (sigma ^ 2)) B
        (fX (Real.log (sigma ^ 2)) delta phi v (Real.log (sigma ^ 2)) tau)
        (fX B delta phi v (Real.log (sigma ^ 2)) tau) = some A ∧
      s = Real.exp (A / 2) := by
  unfold sigmaP at h
  dsimp only at h
  cases hB : chooseB fuel delta phi v (Real.log (sigma ^ 2)) tau with
  | none =>
    rw [hB] at h
    exact Option.noConfusion h
  | some B =>
    rw [hB] at h
    dsimp only at h
    cases hA : illinois delta phi v (Real.log (sigma ^ 2)) tau fuel (Real.log (sigma ^ 2)) B
        (fX (Real.log (sigma ^ 2)) delta phi v (Real.log (sigma ^ 2)) tau)
        (fX B delta phi v (Real.log (sigma ^ 2)) tau) with
    | none =>
      rw [hA] at h
      exact Option.noConfusion h
    | some A =>
      rw [hA, Option.map_some', Option.some.injEq] at h
      exact ⟨B, A, rfl, hA, h.symm⟩

theorem exp_log_sq_half (sigma : ℝ) (hsigma : 0 < sigma) :
    Real.exp (Real.log (sigma ^ 2) / 2) = sigma := by
  rw [Real.log_pow]
  have : ((2 : Nat) : ℝ) * Real.log sigma / 2 = Real.log sigma := by
    push_cast
    ring
  rw [this, Real.exp_log hsigma]

theorem sigmaP_small_tau (fuel : Nat) (delta sigma phi v tau : ℝ) (hv : 0 < v)
    (hsigma : 0 < sigma) (htau : 0 < tau) (hsmall : tau ≤ epsilon)
    (h : delta ^ 2 ≤ phi ^ 2 + v) :
    sigmaP fuel delta sigma phi v tau = some sigma := by
  have heps : epsilon ≤ 2 := by unfold epsilon; norm_num
  have hnot : ¬ fX (Real.log (sigma ^ 2) - 1 * tau) delta phi v (Real.log (sigma ^ 2)) tau < 0 :=
    not_lt.mpr (fX_step_nonneg 1 delta phi v _ tau hv htau (by linarith))
  have hs : searchK delta phi v (Real.log (sigma ^ 2)) tau fuel 1 = some 1 := by
    cases fuel with
    | zero => unfold searchK; rw [if_neg hnot]
    | succ fuel => unfold searchK; rw [if_neg hnot]
  have hB : chooseB fuel delta phi v (Real.log (sigma ^ 2)) tau =
      some (Real.log (sigma ^ 2) - 1 * tau) := by
    rw [chooseB_else fuel delta phi v _ tau h, hs]
    rfl
  have hexit : ¬ |Real.log (sigma ^ 2) - 1 * tau - Real.log (sigma ^ 2)| > epsilon := by
    have : Real.log (sigma ^ 2) - 1 * tau - Real.log (sigma ^ 2) = -tau := by ring
    rw [this, abs_neg, abs_of_pos htau]
    exact not_lt.mpr hsmall
  unfold sigmaP
  simp only [hB]
  have hill : ∀ fA fB : ℝ, illinois delta phi v (Real.log (sigma ^ 2)) tau fuel
      (Real.log (sigma ^ 2)) (Real.log (sigma ^ 2) - 1 * tau) fA fB =
      some (Real.log (sigma ^ 2)) := by
    intro fA fB
    cases fuel with
    | zero => unfold illinois; rw [if_neg hexit]
    | succ fuel => unfold illinois; rw [if_neg hexit]
  rw [hill, Option.map_some', exp_log_sq_half sigma hsigma]

theorem fX_logistic (x delta phi v a tau : ℝ) (hv : 0 < v) :
    fX x delta phi v a tau =
      delta ^ 2 / (2 * (phi ^ 2 + v)) *
          (Real.exp x / (phi ^ 2 + v + Real.exp x) *
            (1 - Real.exp x / (phi ^ 2 + v + Real.exp x))) -
        Real.exp x / (phi ^ 2 + v + Real.exp x) / 2 - (x - a) / tau ^ 2 := by
  have hE := Real.exp_pos x
  have hP : 0 < phi ^ 2 + v := by positivity
  have hS : 0 < phi ^ 2 + v + Real.exp x := by positivity
  unfold fX
  congr 1
  field_simp
  ring

theorem logistic_step (P x y : ℝ) (hP : 0 < P) (hxy : y ≤ x) :
    0 ≤ Real.exp x / (P + Real.exp x) - Real.exp y / (P + Real.exp y) ∧
    Real.exp x / (P + Real.exp x) - Real.exp y / (P + Real.exp y) ≤ x - y := by
  have hEx := Real.exp_pos x
  have hEy := Real.exp_pos y
  have hle : Real.exp y ≤ Real.exp x := Real.exp_le_exp.mpr hxy
  have hSx : 0 < P + Real.exp x := by positivity
  have hSy : 0 < P + Real.exp y := by positivity
  have hdiff : Real.exp x / (P + Real.exp x) - Real.exp y / (P + Real.exp y) =
      P * (Real.exp x - Real.exp y) / ((P + Real.exp x) * (P + Real.exp y)) := by
    field_simp
    ring
  have hexp : Real.exp x - Real.exp y ≤ Real.exp x * (x - y) := by
    have h1 : y - x + 1 ≤ Real.exp (y - x) := Real.add_one_le_exp (y - x)
    have h2 : Real.exp y = Real.exp x * Real.exp (y - x) := by
      rw [← Real.exp_add]
      congr 1
      ring
    rw [h2]
    nlinarith
  rw [hdiff]
  constructor
  · apply div_nonneg
    · apply mul_nonneg hP.le
      linarith
    · positivity
  · rw [div_le_iff₀ (by positivity)]
    have hxy0 : 0 ≤ x - y := by linarith
    calc P * (Real.exp x - Real.exp y) ≤ P * (Real.exp x * (x - y)) :=
          mul_le_mul_of_nonneg_left hexp hP.le
      _ = (x - y) * (Real.exp x * P) := by ring
      _ ≤ (x - y) * ((P + Real.exp x) * (P + Real.exp y)) := by
          apply mul_le_mul_of_nonneg_left _ hxy0
          apply mul_le_mul (by linarith) (by linarith) hP.le hSx.le

/-! ## `Calculate` -/

theorem calculatePlayer_eq (fuel : Nat) (tau : ℝ) (heap : Heap) (player : PlayerRef) :
    calculatePlayer fuel tau heap player =
      (postState fuel tau heap player).map
        (fun r => Function.update heap player { heap player with post := r }) := by
  unfold calculatePlayer postState
  by_cases hlen : (heap player).matches_.length > 0
  · simp only [hlen, if_true]
    cases sigmaP fuel (v heap player * delta heap player) (heap player).pre.sigma
        (heap player).pre.phi (v heap player) tau with
    | none => rfl
    | some s => rfl
  · simp only [hlen, if_false]
    rfl

theorem postState_congr (fuel : Nat) (tau : ℝ) (heap1 heap2 : Heap) (player : PlayerRef)
    (h : SameInputs heap1 heap2) (hne : (heap2 player).matches_ ≠ []) :
    postState fuel tau heap1 player = postState fuel tau heap2 player := by
  have hlen : (heap2 player).matches_.length > 0 := List.length_pos.mpr hne
  unfold postState
  rw [v_congr heap1 heap2 player h, delta_congr heap1 heap2 player h, (h player).1,
    (h player).2, if_pos hlen, if_pos hlen]
  rfl

theorem postState_of_no_matches (fuel : Nat) (tau : ℝ) (heap : Heap) (player : PlayerRef)
    (hempty : (heap player).matches_ = []) :
    postState fuel tau heap player = some (heap player).post.Touch := by
  unfold postState
  rw [hempty]
  simp

theorem postState_isSome_congr (fuel : Nat) (tau : ℝ) (heap1 heap2 : Heap)
    (player : PlayerRef) (h : SameInputs heap1 heap2)
    (h2 : ∃ r, postState fuel tau heap2 player = some r) :
    ∃ r, postState fuel tau heap1 player = some r := by
  by_cases hne : (heap2 player).matches_ = []
  · have hempty : (heap1 player).matches_ = [] := by rw [(h player).2]; exact hne
    exact ⟨_, postState_of_no_matches fuel tau heap1 player hempty⟩
  · rw [postState_congr fuel tau heap1 heap2 player h hne]
    exact h2

theorem SameInputs_update_post (heap : Heap) (player : PlayerRef) (r : Rating) :
    SameInputs (Function.update heap player { heap player with post := r }) heap := by
  intro q
  by_cases hq : q = player
  · subst hq
    simp
  · simp [Function.update_noteq hq]

theorem foldlM_calculate (fuel : Nat) (tau : ℝ) (players : List PlayerRef)
    (heap0 heap heap1 : Heap) (hsame : SameInputs heap heap0)
    (h : players.foldlM (calculatePlayer fuel tau) heap = some heap1) :
    (∀ p, p ∈ players → (heap0 p).matches_ ≠ [] →
      ∃ r, postState fuel tau heap0 p = some r ∧ (heap1 p).post = r) ∧
    (∀ q, q ∉ players → heap1 q = heap q) ∧ SameInputs heap1 heap0 := by
  induction players generalizing heap with
  | nil =>
    simp only [List.foldlM_nil, Option.pure_def, Option.some.injEq] at h
    subst h
    exact ⟨by intro p hp; simp at hp, by intro q _; rfl, hsame⟩
  | cons p ps ih =>
    rw [List.foldlM_cons] at h
    rw [calculatePlayer_eq] at h
    cases hr : postState fuel tau heap p with
    | none => rw [hr] at h; simp at h
    | some r =>
      rw [hr] at h
      simp only [Option.map_some', Option.some_bind, Option.bind_eq_bind] at h
      have hsame1 : SameInputs (Function.update heap p { heap p with post := r }) heap0 := by
        intro q
        have h1 := SameInputs_update_post heap p r q
        have h2 := hsame q
        exact ⟨h1.1.trans h2.1, h1.2.trans h2.2⟩
      obtain ⟨ih1, ih2, ih3⟩ := ih _ hsame1 h
      refine ⟨?_, ?_, ih3⟩
      · intro q hq hne
        by_cases hqps : q ∈ ps
        · exact ih1 q hqps hne
        · have hqp : q = p := by
            rcases List.mem_cons.mp hq with h1 | h1
            · exact h1
            · exact absurd h1 hqps
          subst hqp
          rw [postState_congr fuel tau heap heap0 q hsame hne] at hr
          refine ⟨r, hr, ?_⟩
          rw [ih2 q hqps]
          simp
      · intro q hq
        have hqp : q ≠ p := fun hEq => hq (hEq ▸ List.mem_cons_self _ _)
        have hqps : q ∉ ps := fun hIn => hq (List.mem_cons_of_mem _ hIn)
        rw [ih2 q hqps, Function.update_noteq hqp]

theorem SameInputs_refl (heap : Heap) : SameInputs heap heap :=
  fun _ => ⟨rfl, rfl⟩

theorem Calculate_some (fuel : Nat) (period : RatingPeriod) (heap heap1 : Heap)
    (h : period.Calculate fuel heap = some heap1) :
    (∀ p, p ∈ period.players → (heap p).matches_ ≠ [] →
      ∃ r, postState fuel period.tau heap p = some r ∧ (heap1 p).post = r) ∧
    (∀ q, q ∉ period.players → heap1 q = heap q) ∧ SameInputs heap1 heap :=
  foldlM_calculate fuel period.tau period.players heap heap heap1 (SameInputs_refl heap) h

theorem foldlM_calculate_touch (fuel : Nat) (tau : ℝ) (players : List PlayerRef)
    (heap heap1 : Heap) (player : PlayerRef) (hnodup : players.Nodup)
    (hmem : player ∈ players) (hempty : (heap player).matches_ = [])
    (h : players.foldlM (calculatePlayer fuel tau) heap = some heap1) :
    (heap1 player).post = (heap player).post.Touch := by
  induction players generalizing heap with
  | nil => simp at hmem
  | cons p ps ih =>
    rw [List.foldlM_cons] at h
    rw [calculatePlayer_eq] at h
    cases hr : postState fuel tau heap p with
    | none => rw [hr] at h; simp at h
    | some r =>
      rw [hr] at h
      simp only [Option.map_some', Option.some_bind, Option.bind_eq_bind] at h
      have hnd := List.nodup_cons.mp hnodup
      by_cases hpp : player = p
      · subst hpp
        rw [postState_of_no_matches fuel tau heap player hempty] at hr
        obtain ⟨_, hother, _⟩ := foldlM_calculate fuel tau ps _ _ heap1
          (SameInputs_refl _) h
        rw [hother player hnd.1, ← Option.some.inj hr]
        simp
      · have hin : player ∈ ps := by
          rcases List.mem_cons.mp hmem with h1 | h1
          · exact absurd h1 hpp
          · exact h1
        have hkeep : Function.update heap p { heap p with post := r } player = heap player :=
          Function.update_noteq hpp _ _
        have := ih (Function.update heap p { heap p with post := r }) hnd.2 hin
          (by rw [hkeep]; exact hempty) h
        rw [this, hkeep]

theorem Calculate_touch (fuel : Nat) (period : RatingPeriod) (heap heap1 : Heap)
    (player : PlayerRef) (hnodup : period.players.Nodup) (hmem : player ∈ period.players)
    (hempty : (heap player).matches_ = [])
    (h : period.Calculate fuel heap = some heap1) :
    (heap1 player).post = (heap player).post.Touch :=
  foldlM_calculate_touch fuel period.tau period.players heap heap1 player hnodup hmem hempty h

theorem foldlM_calculate_isSome (fuel : Nat) (tau : ℝ) (players : List PlayerRef)
    (heap0 heap : Heap) (hsame : SameInputs heap heap0)
    (hall : ∀ p, p ∈ players → ∃ r, postState fuel tau heap0 p = some r) :
    ∃ heap1, players.foldlM (calculatePlayer fuel tau) heap = some heap1 := by
  induction players generalizing heap with
  | nil => exact ⟨heap, rfl⟩
  | cons p ps ih =>
    obtain ⟨r, hr⟩ := postState_isSome_congr fuel tau heap heap0 p hsame
      (hall p (List.mem_cons_self _ _))
    rw [List.foldlM_cons, calculatePlayer_eq, hr]
    simp only [Option.map_some', Option.some_bind, Option.bind_eq_bind]
    apply ih
    · intro q
      have h1 := SameInputs_update_post heap p r q
      have h2 := hsame q
      exact ⟨h1.1.trans h2.1, h1.2.trans h2.2⟩
    · intro q hq
      exact hall q (List.mem_cons_of_mem _ hq)

theorem Calculate_isSome (fuel : Nat) (period : RatingPeriod) (heap : Heap)
    (hall : ∀ p, p ∈ period.players → ∃ r, postState fuel period.tau heap p = some r) :
    ∃ heap1, period.Calculate fuel heap = some heap1 :=
  foldlM_calculate_isSome fuel period.tau period.players heap heap (SameInputs_refl heap) hall

/-! ## The post rating -/

theorem postState_of_matches (fuel : Nat) (tau : ℝ) (heap : Heap) (player : PlayerRef)
    (r : Rating) (hne : (heap player).matches_ ≠ [])
    (h : postState fuel tau heap player = some r) :
    ∃ s, sigmaP fuel (v heap player * delta heap player) (heap player).pre.sigma
        (heap player).pre.phi (v heap player) tau = some s ∧
      r.sigma = s ∧
      r.phi = phiP (phiA (heap player).pre.phi s) (v heap player) ∧
      r.mu = muP (heap player).pre.mu (phiP (phiA (heap player).pre.phi s) (v heap player))
        (delta heap player) := by
  unfold postState at h
  have hlen : (heap player).matches_.length > 0 := List.length_pos.mpr hne
  rw [if_pos hlen] at h
  cases hs : sigmaP fuel (v heap player * delta heap player) (heap player).pre.sigma
      (heap player).pre.phi (v heap player) tau with
  | none =>
    rw [hs] at h
    exact Option.noConfusion h
  | some s =>
    rw [hs, Option.map_some', Option.some.injEq] at h
    subst h
    exact ⟨s, rfl, rfl, rfl, rfl⟩

/-- C1, as the code has it: for every registered player with at least one match, a run
of `Calculate` that returns sets the post rating to `μ_P + φ'² · Δ_raw`, where `φ'` is
the new deviation it writes, `φ' = phiP(phiA(φ_P, σ'), v)`, and `Δ_raw = delta(player)`
is the outcome sum itself, not multiplied by `v`. -/
theorem C1_post_rating (fuel : Nat) (period : RatingPeriod) (heap heap1 : Heap)
    (player : PlayerRef) (hmem : player ∈ period.players)
    (hne : (heap player).matches_ ≠ [])
    (h : period.Calculate fuel heap = some heap1) :
    (heap1 player).post.mu =
      (heap player).pre.mu + (heap1 player).post.phi ^ 2 * delta heap player ∧
    (heap1 player).post.phi =
      phiP (phiA (heap player).pre.phi (heap1 player).post.sigma) (v heap player) := by
  obtain ⟨hposts, _, _⟩ := Calculate_some fuel period heap heap1 h
  obtain ⟨r, hr, hpost⟩ := hposts player hmem hne
  obtain ⟨s, _, hsig, hphi, hmu⟩ := postState_of_matches fuel period.tau heap player r hne hr
  rw [hpost, hmu, hphi, hsig]
  exact ⟨rfl, rfl⟩

theorem duel_players : duel.1.players = [0, 1] := by
  simp [duel, RatingPeriod.AddMatch, RatingPeriod.AddPlayer, NewRatingPeriod]

theorem duel_tau : duel.1.tau = 1 / 1000000 := by
  simp [duel, RatingPeriod.AddMatch, RatingPeriod.AddPlayer, NewRatingPeriod]

theorem duel_player0 : duel.2 0 =
    { pre := unitRating, post := unitRating, matches_ := [⟨0, 1, MatchResult.WIN⟩] } := by
  simp [duel, RatingPeriod.AddMatch, Player.addMatch, duelHeap, Function.update]

theorem duel_player1 : duel.2 1 =
    { pre := { mu := 0, phi := 0, sigma := 1 }, post := { mu := 0, phi := 0, sigma := 1 },
      matches_ := [⟨0, 1, MatchResult.WIN⟩] } := by
  simp [duel, RatingPeriod.AddMatch, Player.addMatch, duelHeap, Function.update]

theorem duel_v0 : v duel.2 0 = 4 := by
  rw [v_eq_sum, duel_player0]
  simp only [List.map_cons, List.map_nil, List.sum_cons, List.sum_nil, Match.opponentFor,
    if_true, duel_player1, unitRating, g_zero, e_self]
  norm_num

theorem duel_delta0 : delta duel.2 0 = 1 / 2 := by
  rw [delta_eq_sum, duel_player0]
  simp only [List.map_cons, List.map_nil, List.sum_cons, List.sum_nil, Match.opponentFor,
    Match.resultFor, if_true, duel_player1, unitRating, g_zero, e_self, MatchResult.toReal]
  norm_num

theorem phiP_phiA_one_one_four_sq : phiP (phiA 1 1) 4 ^ 2 = 4 / 3 := by
  unfold phiP phiA
  have h2 : Real.sqrt ((1 : ℝ) ^ 2 + 1 ^ 2) ^ 2 = 2 := by
    rw [Real.sq_sqrt (by norm_num)]
    norm_num
  rw [h2, div_pow, Real.sq_sqrt (by norm_num)]
  norm_num

theorem duel_postState0 (fuel : Nat) :
    postState fuel (1 / 1000000) duel.2 0 =
      some { mu := muP 0 (phiP (phiA 1 1) 4) (1 / 2), phi := phiP (phiA 1 1) 4, sigma := 1 } := by
  unfold postState
  rw [duel_v0, duel_delta0, duel_player0]
  simp only [List.length_singleton, gt_iff_lt, zero_lt_one, if_true, unitRating]
  rw [sigmaP_small_tau fuel (4 * (1 / 2)) 1 1 4 (1 / 1000000) (by norm_num) (by norm_num)
    (by norm_num) (by unfold epsilon; norm_num) (by norm_num)]
  rfl

theorem duel_postState1 (fuel : Nat) :
    ∃ r, postState fuel (1 / 1000000) duel.2 1 = some r := by
  have hne : (duel.2 1).matches_ ≠ [] := by rw [duel_player1]; simp
  have hv := v_pos duel.2 1 hne
  have hvd : (v duel.2 1 * delta duel.2 1) ^ 2 = v duel.2 1 := by
    have hg := g_pos 1
    rw [v_eq_sum, delta_eq_sum, duel_player1]
    have hif : (if (0 : PlayerRef) = 1 then (1 : PlayerRef) else 0) = 0 := by decide
    simp only [List.map_cons, List.map_nil, List.sum_cons, List.sum_nil, Match.opponentFor,
      Match.resultFor, hif, zero_ne_one, if_false, duel_player0, unitRating, e_self,
      MatchResult.toReal, MatchResult.flip]
    norm_num
    field_simp
    ring
  unfold postState
  rw [if_pos (List.length_pos.mpr hne)]
  have hsig : (duel.2 1).pre.sigma = 1 := by rw [duel_player1]
  have hphi : (duel.2 1).pre.phi = 0 := by rw [duel_player1]
  rw [hsig, hphi, sigmaP_small_tau fuel _ 1 0 (v duel.2 1) (1 / 1000000) hv (by norm_num)
    (by norm_num) (by unfold epsilon; norm_num) (by rw [hvd]; norm_num)]
  exact ⟨_, rfl⟩

theorem duel_Calculate (fuel : Nat) :
    ∃ heap1, duel.1.Calculate fuel duel.2 = some heap1 ∧
      (heap1 0).post =
        { mu := muP 0 (phiP (phiA 1 1) 4) (1 / 2), phi := phiP (phiA 1 1) 4, sigma := 1 } := by
  have hall : ∀ p, p ∈ duel.1.players → ∃ r, postState fuel duel.1.tau duel.2 p = some r := by
    intro p hp
    rw [duel_players] at hp
    rw [duel_tau]
    rcases List.mem_cons.mp hp with h0 | h1
    · subst h0
      exact ⟨_, duel_postState0 fuel⟩
    · have : p = 1 := by simpa using h1
      subst this
      exact duel_postState1 fuel
  obtain ⟨heap1, h1⟩ := Calculate_isSome fuel duel.1 duel.2 hall
  refine ⟨heap1, h1, ?_⟩
  obtain ⟨hposts, _, _⟩ := Calculate_some fuel duel.1 duel.2 heap1 h1
  obtain ⟨r, hr, hpost⟩ := hposts 0 (by rw [duel_players]; simp)
    (by rw [duel_player0]; simp)
  rw [duel_tau, duel_postState0 fuel] at hr
  rw [hpost]
  exact (Option.some.inj hr).symm

/-- C1, witness: player 0 of `duel`, who has one match, with budget 0. -/
theorem C1_post_rating_witness :
    ∃ heap1, duel.1.Calculate 0 duel.2 = some heap1 ∧
      (heap1 0).post.mu = (duel.2 0).pre.mu + (heap1 0).post.phi ^ 2 * delta duel.2 0 ∧
      (heap1 0).post.phi =
        phiP (phiA (duel.2 0).pre.phi (heap1 0).post.sigma) (v duel.2 0) :=
  (duel_Calculate 0).elim fun heap1 h =>
    ⟨heap1, h.1, C1_post_rating 0 duel.1 duel.2 heap1 0 (by rw [duel_players]; simp)
      (by rw [duel_player0]; simp) h.1⟩

/-- C1, counterexample: `tau = 1e-6`, player 0 with pre state (0, 1, 1) wins one match
against player 1 with pre state (0, 0, 1). Then `v = 4`, `Δ_raw = 1/2`, and with any
budget `Calculate` returns and writes `φ'² = 4/3` and the post rating `2/3 =
0 + (4/3)·(1/2)`, whereas `μ_P + φ'²·(v·Δ_raw)` is `8/3`. -/
theorem C1_counterexample :
    v duel.2 0 = 4 ∧ delta duel.2 0 = 1 / 2 ∧ (duel.2 0).pre.mu = 0 ∧
    ∀ fuel : Nat, ∃ heap1, duel.1.Calculate fuel duel.2 = some heap1 ∧
      (heap1 0).post.phi ^ 2 = 4 / 3 ∧
      (heap1 0).post.mu = 2 / 3 ∧
      (duel.2 0).pre.mu + (heap1 0).post.phi ^ 2 * (v duel.2 0 * delta duel.2 0) = 8 / 3 ∧
      (heap1 0).post.mu ≠
        (duel.2 0).pre.mu + (heap1 0).post.phi ^ 2 * (v duel.2 0 * delta duel.2 0) := by
  refine ⟨duel_v0, duel_delta0, by rw [duel_player0]; rfl, ?_⟩
  intro fuel
  obtain ⟨heap1, h1, hpost⟩ := duel_Calculate fuel
  have hpre : (duel.2 0).pre.mu = 0 := by rw [duel_player0]; rfl
  have hphi : (heap1 0).post.phi ^ 2 = 4 / 3 := by
    rw [hpost]
    exact phiP_phiA_one_one_four_sq
  have hmu : (heap1 0).post.mu = 2 / 3 := by
    rw [hpost]
    show muP 0 (phiP (phiA 1 1) 4) (1 / 2) = 2 / 3
    unfold muP
    rw [phiP_phiA_one_one_four_sq]
    norm_num
  have hclaim : (duel.2 0).pre.mu + (heap1 0).post.phi ^ 2 * (v duel.2 0 * delta duel.2 0) =
      8 / 3 := by
    rw [hpre, hphi, duel_v0, duel_delta0]
    norm_num
  refine ⟨heap1, h1, hphi, hmu, hclaim, ?_⟩
  rw [hmu, hclaim]
  norm_num

/-! ## The estimated variance -/

/-- C5: for a player with a non-empty match list, `v(player)` is
`1 / Σ_j g(φ_oj)² · E(μ_P, μ_oj, φ_oj) · (1 - E(μ_P, μ_oj, φ_oj))`, the sum over the
player's matches; it reads only the player's match list and pre rating and each
opponent's pre rating and pre deviation, so a heap that agrees on these gives the
same value. -/
theorem C5_v_formula (heap : Heap) (player : PlayerRef)
    (hne : (heap player).matches_ ≠ []) :
    v heap player = 1 / ((heap player).matches_.map (fun m =>
      g (heap (m.opponentFor player)).pre.phi ^ 2 *
        e (heap player).pre.mu (heap (m.opponentFor player)).pre.mu
          (heap (m.opponentFor player)).pre.phi *
        (1 - e (heap player).pre.mu (heap (m.opponentFor player)).pre.mu
          (heap (m.opponentFor player)).pre.phi))).sum ∧
    ∀ heap2 : Heap, (heap2 player).matches_ = (heap player).matches_ →
      (heap2 player).pre.mu = (heap player).pre.mu →
      (∀ m, m ∈ (heap player).matches_ →
        (heap2 (m.opponentFor player)).pre.mu = (heap (m.opponentFor player)).pre.mu ∧
        (heap2 (m.opponentFor player)).pre.phi = (heap (m.opponentFor player)).pre.phi) →
      v heap2 player = v heap player := by
  have _ := hne
  constructor
  · rw [v_eq_sum]
    congr 2
    apply List.map_congr_left
    intro m _
    rw [sq]
  · intro heap2 hm hmu hopp
    rw [v_eq_sum, v_eq_sum, hm, hmu]
    congr 2
    apply List.map_congr_left
    intro m hmem
    rw [(hopp m hmem).1, (hopp m hmem).2]

/-- C5, witness: player 0 of `duel`, whose one match is against player 1. -/
theorem C5_v_formula_witness :
    v duel.2 0 = 1 / ((duel.2 0).matches_.map (fun m =>
      g (duel.2 (m.opponentFor 0)).pre.phi ^ 2 *
        e (duel.2 0).pre.mu (duel.2 (m.opponentFor 0)).pre.mu
          (duel.2 (m.opponentFor 0)).pre.phi *
        (1 - e (duel.2 0).pre.mu (duel.2 (m.opponentFor 0)).pre.mu
          (duel.2 (m.opponentFor 0)).pre.phi))).sum ∧
    ∀ heap2 : Heap, (heap2 0).matches_ = (duel.2 0).matches_ →
      (heap2 0).pre.mu = (duel.2 0).pre.mu →
      (∀ m, m ∈ (duel.2 0).matches_ →
        (heap2 (m.opponentFor 0)).pre.mu = (duel.2 (m.opponentFor 0)).pre.mu ∧
        (heap2 (m.opponentFor 0)).pre.phi = (duel.2 (m.opponentFor 0)).pre.phi) →
      v heap2 0 = v duel.2 0 :=
  C5_v_formula duel.2 0 (by rw [duel_player0]; simp)

/-! ## The new deviation -/

theorem phiA_sq (phi sigmaP : ℝ) : phiA phi sigmaP ^ 2 = phi ^ 2 + sigmaP ^ 2 := by
  unfold phiA
  exact Real.sq_sqrt (by positivity)

theorem phiP_pos (phiS v : ℝ) (hS : phiS ≠ 0) (hv : 0 < v) : 0 < phiP phiS v := by
  unfold phiP
  have : 0 < 1 / phiS ^ 2 + 1 / v := by positivity
  exact one_div_pos.mpr (Real.sqrt_pos.mpr this)

theorem phiP_sq (phiS v : ℝ) (hS : phiS ≠ 0) (hv : 0 < v) :
    phiP phiS v ^ 2 = phiS ^ 2 * v / (v + phiS ^ 2) := by
  unfold phiP
  have hpos : 0 < 1 / phiS ^ 2 + 1 / v := by positivity
  have hS2 : 0 < phiS ^ 2 := by positivity
  rw [div_pow, Real.sq_sqrt hpos.le]
  field_simp

/-- C6, as the code has it: for `φ > 0`, `σ' > 0` and `v > 0`, the deviation written
after a played match, `φ' = phiP(phiA(φ, σ'), v)`, is positive and below the pre-update
deviation `phiA(φ, σ') = sqrt(φ² + σ'²)`; it is at most the pre-period deviation `φ`
exactly when `v · σ'² ≤ φ² · (φ² + σ'²)`. -/
theorem C6_deviation_after_match (phi sigmaP v : ℝ) (hphi : 0 < phi) (hsigma : 0 < sigmaP)
    (hv : 0 < v) :
    0 < phiP (phiA phi sigmaP) v ∧
    phiP (phiA phi sigmaP) v < phiA phi sigmaP ∧
    (phiP (phiA phi sigmaP) v ≤ phi ↔ v * sigmaP ^ 2 ≤ phi ^ 2 * (phi ^ 2 + sigmaP ^ 2)) := by
  have hS : 0 < phi ^ 2 + sigmaP ^ 2 := by positivity
  have hA : 0 < phiA phi sigmaP := by
    unfold phiA
    exact Real.sqrt_pos.mpr hS
  have hP := phiP_pos (phiA phi sigmaP) v hA.ne' hv
  have hsq := phiP_sq (phiA phi sigmaP) v hA.ne' hv
  rw [phiA_sq] at hsq
  have hden : 0 < v + (phi ^ 2 + sigmaP ^ 2) := by positivity
  refine ⟨hP, ?_, ?_⟩
  · apply lt_of_pow_lt_pow_left₀ 2 hA.le
    rw [hsq, phiA_sq, div_lt_iff₀ hden]
    nlinarith [mul_pos hS hS]
  · constructor
    · intro hle
      have h2 : phiP (phiA phi sigmaP) v ^ 2 ≤ phi ^ 2 :=
        pow_le_pow_left₀ hP.le hle 2
      rw [hsq, div_le_iff₀ hden] at h2
      nlinarith
    · intro hle
      apply le_of_pow_le_pow_left₀ (by norm_num : (2 : Nat) ≠ 0) hphi.le
      rw [hsq, div_le_iff₀ hden]
      nlinarith

/-- C6, witness: `φ = 1`, `σ' = 1`, `v = 4`. -/
theorem C6_deviation_after_match_witness :
    0 < phiP (phiA 1 1) 4 ∧
    phiP (phiA 1 1) 4 < phiA 1 1 ∧
    (phiP (phiA 1 1) 4 ≤ 1 ↔ (4 : ℝ) * 1 ^ 2 ≤ 1 ^ 2 * (1 ^ 2 + 1 ^ 2)) :=
  C6_deviation_after_match 1 1 4 (by norm_num) (by norm_num) (by norm_num)

/-- C6, counterexample: in `duel` (player 0 with pre state (0, 1, 1) wins one match,
`v = 4`) `Calculate` returns with any budget and writes for player 0 the volatility
`σ' = 1` and a deviation `φ'` with `φ'² = 4/3`, above the pre-period deviation
`φ = 1`. -/
theorem C6_counterexample :
    (duel.2 0).pre.phi = 1 ∧ v duel.2 0 = 4 ∧
    ∀ fuel : Nat, ∃ heap1, duel.1.Calculate fuel duel.2 = some heap1 ∧
      (heap1 0).post.sigma = 1 ∧
      (heap1 0).post.phi = phiP (phiA (duel.2 0).pre.phi (heap1 0).post.sigma) (v duel.2 0) ∧
      (heap1 0).post.phi ^ 2 = 4 / 3 ∧
      ¬ ((heap1 0).post.phi ≤ (duel.2 0).pre.phi) := by
  have hpre : (duel.2 0).pre.phi = 1 := by rw [duel_player0]; rfl
  refine ⟨hpre, duel_v0, ?_⟩
  intro fuel
  obtain ⟨heap1, h1, hpost⟩ := duel_Calculate fuel
  have hphi : (heap1 0).post.phi ^ 2 = 4 / 3 := by
    rw [hpost]
    exact phiP_phiA_one_one_four_sq
  refine ⟨heap1, h1, by rw [hpost], ?_, hphi, ?_⟩
  · rw [hpost, hpre, duel_v0]
  · rw [hpre]
    intro hle
    have hpos : 0 ≤ (heap1 0).post.phi := by
      rw [hpost]
      exact (phiP_pos _ _ (by unfold phiA; positivity) (by norm_num)).le
    have : (heap1 0).post.phi ^ 2 ≤ 1 ^ 2 := pow_le_pow_left₀ hpos hle 2
    rw [hphi] at this
    norm_num at this

/-! ## Players without a match: auxiliary facts -/

theorem sqrt_sq_add_sq_gt (phi sigma : ℝ) (hsigma : 0 < sigma) :
    phi < Real.sqrt (phi ^ 2 + sigma ^ 2) := by
  have h1 : |phi| < Real.sqrt (phi ^ 2 + sigma ^ 2) := by
    rw [← Real.sqrt_sq_eq_abs]
    apply Real.sqrt_lt_sqrt (by positivity)
    have : 0 < sigma ^ 2 := by positivity
    linarith
  exact lt_of_le_of_lt (le_abs_self phi) h1

theorem idle_players : idle.1.players = [0] := by
  simp [idle, RatingPeriod.AddPlayer, NewRatingPeriod]

/-! ## Construction -/

/-- C11, as the code has it: `NewRatingPeriod` does not validate `tau`. For every
`tau`, also `tau ≤ 0`, it returns a period that holds this `tau` and an empty player
list, and registration on it works as on any period: `AddPlayer` of a first player gives
the one-element list. -/
theorem C11_NewRatingPeriod_total (tau : ℝ) (player : PlayerRef) :
    NewRatingPeriod tau = { tau := tau, players := [] } ∧
    ((NewRatingPeriod tau).AddPlayer player).players = [player] ∧
    ((NewRatingPeriod tau).AddPlayer player).tau = tau := by
  refine ⟨rfl, ?_, ?_⟩
  · rw [AddPlayer_players]
    simp [NewRatingPeriod]
  · rw [AddPlayer_tau]
    rfl

/-- C11, counterexample: `NewRatingPeriod(-1)` returns a period with `tau = -1 ≤ 0` and
no player, and `AddPlayer(0)` on it registers player 0. -/
theorem C11_counterexample :
    (NewRatingPeriod (-1)).tau = -1 ∧ (NewRatingPeriod (-1)).tau ≤ 0 ∧
    (NewRatingPeriod (-1)).players = [] ∧
    ((NewRatingPeriod (-1)).AddPlayer 0).players = [0] := by
  refine ⟨rfl, ?_, rfl, ?_⟩
  · show (-1 : ℝ) ≤ 0
    norm_num
  · rw [AddPlayer_players]
    simp [NewRatingPeriod]

/-! ## Step 7 -/

/-- C14: for `φ* > 0` and `v > 0`, `phiP(φ*, v) = 1 / sqrt(1/φ*² + 1/v)` and
`0 < phiP(φ*, v) < φ*`. -/
theorem C14_phiP_shrinks (phiS v : ℝ) (hphi : 0 < phiS) (hv : 0 < v) :
    phiP phiS v = 1 / Real.sqrt (1 / phiS ^ 2 + 1 / v) ∧
    0 < phiP phiS v ∧ phiP phiS v < phiS := by
  have hP := phiP_pos phiS v hphi.ne' hv
  refine ⟨rfl, hP, ?_⟩
  apply lt_of_pow_lt_pow_left₀ 2 hphi.le
  rw [phiP_sq phiS v hphi.ne' hv, div_lt_iff₀ (by positivity)]
  have h2 : 0 < phiS ^ 2 := by positivity
  nlinarith [mul_pos h2 h2]

/-- C14, witness: `φ* = 1`, `v = 4`. -/
theorem C14_phiP_shrinks_witness :
    phiP 1 4 = 1 / Real.sqrt (1 / (1 : ℝ) ^ 2 + 1 / 4) ∧ 0 < phiP 1 4 ∧ phiP 1 4 < 1 :=
  C14_phiP_shrinks 1 4 (by norm_num) (by norm_num)

/-! ## Independence of the budget -/

theorem illinois_succ (delta phi v a tau : ℝ) (fuel : Nat) (A B fA fB r : ℝ)
    (h : illinois delta phi v a tau fuel A B fA fB = some r) :
    illinois delta phi v a tau (fuel + 1) A B fA fB = some r := by
  induction fuel generalizing A B fA fB with
  | zero =>
    unfold illinois at h
    by_cases hgt : |B - A| > epsilon
    · rw [if_pos hgt] at h
      exact Option.noConfusion h
    · rw [if_neg hgt] at h
      unfold illinois
      rw [if_neg hgt]
      exact h
  | succ fuel ih =>
    rw [illinois] at h
    rw [illinois]
    by_cases hgt : |B - A| > epsilon
    · rw [if_pos hgt] at h ⊢
      dsimp only at h ⊢
      by_cases hlt : fX (A + fA * (A - B) / (fB - fA)) delta phi v a tau * fB < 0
      · rw [if_pos hlt] at h ⊢
        exact ih _ _ _ _ h
      · rw [if_neg hlt] at h ⊢
        exact ih _ _ _ _ h
    · rw [if_neg hgt] at h ⊢
      exact h

theorem illinois_mono (delta phi v a tau : ℝ) (fuel fuel2 : Nat) (A B fA fB r : ℝ)
    (hle : fuel ≤ fuel2) (h : illinois delta phi v a tau fuel A B fA fB = some r) :
    illinois delta phi v a tau fuel2 A B fA fB = some r := by
  induction hle with
  | refl => exact h
  | step _ ih => exact illinois_succ delta phi v a tau _ A B fA fB r ih

theorem illinois_unique (delta phi v a tau : ℝ) (fuel1 fuel2 : Nat) (A B fA fB r1 r2 : ℝ)
    (h1 : illinois delta phi v a tau fuel1 A B fA fB = some r1)
    (h2 : illinois delta phi v a tau fuel2 A B fA fB = some r2) : r1 = r2 := by
  have e1 := illinois_mono delta phi v a tau fuel1 (max fuel1 fuel2) A B fA fB r1
    (le_max_left _ _) h1
  have e2 := illinois_mono delta phi v a tau fuel2 (max fuel1 fuel2) A B fA fB r2
    (le_max_right _ _) h2
  exact Option.some.inj (e1.symm.trans e2)

theorem chooseB_unique (fuel1 fuel2 : Nat) (delta phi v a tau B1 B2 : ℝ)
    (h1 : chooseB fuel1 delta phi v a tau = some B1)
    (h2 : chooseB fuel2 delta phi v a tau = some B2) : B1 = B2 := by
  unfold chooseB at h1 h2
  by_cases hgt : delta ^ 2 > phi ^ 2 + v
  · rw [if_pos hgt] at h1 h2
    exact Option.some.inj (h1.symm.trans h2)
  · rw [if_neg hgt] at h1 h2
    cases hs1 : searchK delta phi v a tau fuel1 1 with
    | none => rw [hs1] at h1; exact Option.noConfusion h1
    | some k1 =>
      cases hs2 : searchK delta phi v a tau fuel2 1 with
      | none => rw [hs2] at h2; exact Option.noConfusion h2
      | some k2 =>
        rw [hs1, Option.map_some', Option.some.injEq] at h1
        rw [hs2, Option.map_some', Option.some.injEq] at h2
        obtain ⟨n1, _, hk1, hnot1, hall1⟩ :=
          (searchK_some_iff delta phi v a tau fuel1 1 k1).mp hs1
        have hk2 := searchK_unique delta phi v a tau n1 hnot1 hall1 fuel2 k2 hs2
        rw [← h1, ← h2, hk1, hk2]

theorem sigmaP_unique (fuel1 fuel2 : Nat) (delta sigma phi v tau s1 s2 : ℝ)
    (h1 : sigmaP fuel1 delta sigma phi v tau = some s1)
    (h2 : sigmaP fuel2 delta sigma phi v tau = some s2) : s1 = s2 := by
  obtain ⟨B1, A1, hB1, hA1, hs1⟩ := sigmaP_some fuel1 delta sigma phi v tau s1 h1
  obtain ⟨B2, A2, hB2, hA2, hs2⟩ := sigmaP_some fuel2 delta sigma phi v tau s2 h2
  have hB := chooseB_unique fuel1 fuel2 delta phi v _ tau B1 B2 hB1 hB2
  subst hB
  have hA := illinois_unique delta phi v _ tau fuel1 fuel2 _ _ _ _ A1 A2 hA1 hA2
  rw [hs1, hs2, hA]

/-! ## What the post state depends on -/

theorem v_congr_local (heap1 heap2 : Heap) (player : PlayerRef)
    (hm : (heap2 player).matches_ = (heap1 player).matches_)
    (hpre : (heap2 player).pre = (heap1 player).pre)
    (hopp : ∀ m, m ∈ (heap1 player).matches_ →
      (heap2 (m.opponentFor player)).pre = (heap1 (m.opponentFor player)).pre) :
    v heap2 player = v heap1 player := by
  rw [v_eq_sum, v_eq_sum, hm, hpre]
  congr 2
  apply List.map_congr_left
  intro m hmem
  rw [hopp m hmem]

theorem delta_congr_local (heap1 heap2 : Heap) (player : PlayerRef)
    (hm : (heap2 player).matches_ = (heap1 player).matches_)
    (hpre : (heap2 player).pre = (heap1 player).pre)
    (hopp : ∀ m, m ∈ (heap1 player).matches_ →
      (heap2 (m.opponentFor player)).pre = (heap1 (m.opponentFor player)).pre) :
    delta heap2 player = delta heap1 player := by
  rw [delta_eq_sum, delta_eq_sum, hm, hpre]
  congr 1
  apply List.map_congr_left
  intro m hmem
  rw [hopp m hmem]

/-- C12: the post state that `Calculate` writes for a registered player with at least
one match depends only on `tau`, the player's pre state, its match list (opponents and
scores) and the opponents' pre states. Two runs that return and agree on these write
the same post state for the player, whatever the order and number of the registered
players, the post states held before the run, the other players, and the budgets. In
particular a second run of `Calculate` on the heap left by a first run writes the same
post state again. -/
theorem C12_post_state_determined (fuel1 fuel2 : Nat) (period1 period2 : RatingPeriod)
    (heap1 heap2 out1 out2 : Heap) (player : PlayerRef)
    (htau : period2.tau = period1.tau)
    (hmem1 : player ∈ period1.players) (hmem2 : player ∈ period2.players)
    (hne : (heap1 player).matches_ ≠ [])
    (hm : (heap2 player).matches_ = (heap1 player).matches_)
    (hpre : (heap2 player).pre = (heap1 player).pre)
    (hopp : ∀ m, m ∈ (heap1 player).matches_ →
      (heap2 (m.opponentFor player)).pre = (heap1 (m.opponentFor player)).pre)
    (h1 : period1.Calculate fuel1 heap1 = some out1)
    (h2 : period2.Calculate fuel2 heap2 = some out2) :
    (out2 player).post = (out1 player).post ∧
    ∀ (fuel3 : Nat) (out3 : Heap), period1.Calculate fuel3 out1 = some out3 →
      (out3 player).post = (out1 player).post := by
  have key : ∀ (fuelA fuelB : Nat) (periodA periodB : RatingPeriod)
      (heapA heapB outA outB : Heap), periodB.tau = periodA.tau →
      player ∈ periodA.players → player ∈ periodB.players →
      (heapA player).matches_ ≠ [] →
      (heapB player).matches_ = (heapA player).matches_ →
      (heapB player).pre = (heapA player).pre →
      (∀ m, m ∈ (heapA player).matches_ →
        (heapB (m.opponentFor player)).pre = (heapA (m.opponentFor player)).pre) →
      periodA.Calculate fuelA heapA = some outA →
      periodB.Calculate fuelB heapB = some outB →
      (outB player).post = (outA player).post := by
    intro fuelA fuelB periodA periodB heapA heapB outA outB htau hmemA hmemB hne hm hpre hopp
      hA hB
    obtain ⟨hpostsA, _, _⟩ := Calculate_some fuelA periodA heapA outA hA
    obtain ⟨hpostsB, _, _⟩ := Calculate_some fuelB periodB heapB outB hB
    have hneB : (heapB player).matches_ ≠ [] := by rw [hm]; exact hne
    obtain ⟨rA, hrA, hpostA⟩ := hpostsA player hmemA hne
    obtain ⟨rB, hrB, hpostB⟩ := hpostsB player hmemB hneB
    obtain ⟨sA, hsA, hsigA, hphiA, hmuA⟩ :=
      postState_of_matches fuelA periodA.tau heapA player rA hne hrA
    obtain ⟨sB, hsB, hsigB, hphiB, hmuB⟩ :=
      postState_of_matches fuelB periodB.tau heapB player rB hneB hrB
    have hv := v_congr_local heapA heapB player hm hpre hopp
    have hd := delta_congr_local heapA heapB player hm hpre hopp
    rw [hv, hd, hpre, htau] at hsB
    have hs : sA = sB := sigmaP_unique fuelA fuelB _ _ _ _ _ sA sB hsA hsB
    rw [hv, hpre] at hphiB
    rw [hv, hd, hpre] at hmuB
    rw [hpostA, hpostB]
    have e1 : rB.mu = rA.mu := by rw [hmuA, hmuB, hs]
    have e2 : rB.phi = rA.phi := by rw [hphiA, hphiB, hs]
    have e3 : rB.sigma = rA.sigma := by rw [hsigA, hsigB, hs]
    cases rA
    cases rB
    simp only [Rating.mk.injEq]
    exact ⟨e1, e2, e3⟩
  refine ⟨key fuel1 fuel2 period1 period2 heap1 heap2 out1 out2 htau hmem1 hmem2 hne hm hpre
    hopp h1 h2, ?_⟩
  intro fuel3 out3 h3
  obtain ⟨_, _, hsame⟩ := Calculate_some fuel1 period1 heap1 out1 h1
  exact key fuel1 fuel3 period1 period1 heap1 out1 out1 out3 rfl hmem1 hmem1 hne
    (hsame player).2 (hsame player).1 (fun m _ => (hsame (m.opponentFor player)).1) h1 h3

theorem duelAgain_sameInputs : SameInputs duelAgain.2 duel.2 :=
  fun _ => ⟨rfl, rfl⟩

theorem duelAgain_Calculate (fuel : Nat) :
    ∃ out, duelAgain.1.Calculate fuel duelAgain.2 = some out := by
  apply Calculate_isSome
  intro p hp
  have hp2 : p = 1 ∨ p = 0 := by
    have : p ∈ [1, 0] := hp
    simpa using this
  rcases hp2 with h | h
  · rw [h, postState_congr fuel duelAgain.1.tau duelAgain.2 duel.2 1 duelAgain_sameInputs
      (by rw [duel_player1]; simp)]
    exact duel_postState1 fuel
  · rw [h, postState_congr fuel duelAgain.1.tau duelAgain.2 duel.2 0 duelAgain_sameInputs
      (by rw [duel_player0]; simp)]
    exact ⟨_, duel_postState0 fuel⟩

/-- C12, witness: player 0 in `duel` run with budget 0 and in `duelAgain` (players in
the other order, other previous post states) run with budget 3. -/
theorem C12_post_state_determined_witness :
    ∃ out1 out2, duel.1.Calculate 0 duel.2 = some out1 ∧
      duelAgain.1.Calculate 3 duelAgain.2 = some out2 ∧
      (out2 0).post = (out1 0).post ∧
      ∀ (fuel3 : Nat) (out3 : Heap), duel.1.Calculate fuel3 out1 = some out3 →
        (out3 0).post = (out1 0).post :=
  (duel_Calculate 0).elim fun out1 h1 =>
    (duelAgain_Calculate 3).elim fun out2 h2 =>
      ⟨out1, out2, h1.1, h2,
        C12_post_state_determined 0 3 duel.1 duelAgain.1 duel.2 duelAgain.2 out1 out2 0
          (by rw [duel_tau]; rfl) (by rw [duel_players]; simp)
          (by show (0 : PlayerRef) ∈ [1, 0]; simp) (by rw [duel_player0]; simp) rfl rfl
          (fun _ _ => rfl) h1.1 h2⟩

/-! ## The main loop as the iteration of its body -/

theorem illinois_step_eq (delta phi v a tau : ℝ) (fuel : Nat) (A B fA fB : ℝ) :
    illinois delta phi v a tau (fuel + 1) A B fA fB =
      if |B - A| > epsilon then
        illinois delta phi v a tau fuel
          (illinoisStep delta phi v a tau (A, B, fA, fB)).1
          (illinoisStep delta phi v a tau (A, B, fA, fB)).2.1
          (illinoisStep delta phi v a tau (A, B, fA, fB)).2.2.1
          (illinoisStep delta phi v a tau (A, B, fA, fB)).2.2.2
      else some A := by
  rw [illinois]
  by_cases hgt : |B - A| > epsilon
  · rw [if_pos hgt, if_pos hgt]
    unfold illinoisStep
    dsimp only
    by_cases hlt : fX (A + fA * (A - B) / (fB - fA)) delta phi v a tau * fB < 0
    · rw [if_pos hlt, if_pos hlt]
    · rw [if_neg hlt, if_neg hlt]
  · rw [if_neg hgt, if_neg hgt]

/-! ## Slopes of `fX` -/

theorem logistic_step_local (P x y : ℝ) (hP : 0 < P) (hxy : y ≤ x) :
    Real.exp x / (P + Real.exp x) - Real.exp y / (P + Real.exp y) ≤
      Real.exp x / (P + Real.exp x) * (x - y) := by
  have hEx := Real.exp_pos x
  have hEy := Real.exp_pos y
  have hSx : 0 < P + Real.exp x := by positivity
  have hSy : 0 < P + Real.exp y := by positivity
  have hdiff : Real.exp x / (P + Real.exp x) - Real.exp y / (P + Real.exp y) =
      P * (Real.exp x - Real.exp y) / ((P + Real.exp x) * (P + Real.exp y)) := by
    field_simp
    ring
  have hexp : Real.exp x - Real.exp y ≤ Real.exp x * (x - y) := by
    have h1 : y - x + 1 ≤ Real.exp (y - x) := Real.add_one_le_exp (y - x)
    have h2 : Real.exp y = Real.exp x * Real.exp (y - x) := by
      rw [← Real.exp_add]
      congr 1
      ring
    rw [h2]
    nlinarith
  have hxy0 : 0 ≤ x - y := by linarith
  rw [hdiff, div_le_iff₀ (by positivity)]
  have e1 : Real.exp x / (P + Real.exp x) * (x - y) * ((P + Real.exp x) * (P + Real.exp y)) =
      Real.exp x * (x - y) * (P + Real.exp y) := by
    field_simp
    ring
  rw [e1]
  have h3 : P * (Real.exp x - Real.exp y) ≤ P * (Real.exp x * (x - y)) :=
    mul_le_mul_of_nonneg_left hexp hP.le
  have h4 : 0 ≤ Real.exp x * (x - y) * Real.exp y := by positivity
  nlinarith

/-- The fall of `fX` from `y` to `x ≥ y`, bounded on both sides: `fX` loses at least
`1/τ²` minus the excess of `Δ²/(2(φ²+v))` over `1/2` per unit, and at most `1/τ²` plus
`(Δ²/(2(φ²+v)) + 1/2)` times the logistic weight at `x`. -/
theorem fX_slope_bounds (x y delta phi v a tau : ℝ) (hv : 0 < v) (hxy : y ≤ x) :
    (1 / tau ^ 2 - max (delta ^ 2 / (2 * (phi ^ 2 + v)) - 1 / 2) 0) * (x - y) ≤
      fX y delta phi v a tau - fX x delta phi v a tau ∧
    fX y delta phi v a tau - fX x delta phi v a tau ≤
      (1 / tau ^ 2 + (delta ^ 2 / (2 * (phi ^ 2 + v)) + 1 / 2) *
        (Real.exp x / (phi ^ 2 + v + Real.exp x))) * (x - y) := by
  have hP : 0 < phi ^ 2 + v := by positivity
  obtain ⟨hd0, hd1⟩ := logistic_step (phi ^ 2 + v) x y hP hxy
  have hd2 := logistic_step_local (phi ^ 2 + v) x y hP hxy
  have hEx := Real.exp_pos x
  have hEy := Real.exp_pos y
  have hux0 : 0 < Real.exp x / (phi ^ 2 + v + Real.exp x) := by positivity
  have huy0 : 0 < Real.exp y / (phi ^ 2 + v + Real.exp y) := by positivity
  have hux1 : Real.exp x / (phi ^ 2 + v + Real.exp x) < 1 := by
    rw [div_lt_one (by positivity)]
    linarith
  have huy1 : Real.exp y / (phi ^ 2 + v + Real.exp y) < 1 := by
    rw [div_lt_one (by positivity)]
    linarith
  have hK : 0 ≤ delta ^ 2 / (2 * (phi ^ 2 + v)) := by positivity
  have hxy0 : 0 ≤ x - y := by linarith
  have hmax0 : 0 ≤ max (delta ^ 2 / (2 * (phi ^ 2 + v)) - 1 / 2) 0 := le_max_right _ _
  have hmax1 : delta ^ 2 / (2 * (phi ^ 2 + v)) - 1 / 2 ≤
      max (delta ^ 2 / (2 * (phi ^ 2 + v)) - 1 / 2) 0 := le_max_left _ _
  rw [fX_logistic x delta phi v a tau hv, fX_logistic y delta phi v a tau hv]
  generalize Real.exp x / (phi ^ 2 + v + Real.exp x) = ux at *
  generalize Real.exp y / (phi ^ 2 + v + Real.exp y) = uy at *
  generalize delta ^ 2 / (2 * (phi ^ 2 + v)) = K at *
  generalize max (K - 1 / 2) 0 = Kp at *
  have hrew : K * (uy * (1 - uy)) - uy / 2 - (y - a) / tau ^ 2 -
      (K * (ux * (1 - ux)) - ux / 2 - (x - a) / tau ^ 2) =
      1 / tau ^ 2 * (x - y) + (ux - uy) * (1 / 2 - K * (1 - ux - uy)) := by
    ring
  rw [hrew]
  have hlow : 1 / 2 - K ≤ 1 / 2 - K * (1 - ux - uy) := by nlinarith
  have hupp : 1 / 2 - K * (1 - ux - uy) ≤ 1 / 2 + K := by nlinarith
  constructor
  · have h1 : -(Kp * (x - y)) ≤ (ux - uy) * (1 / 2 - K * (1 - ux - uy)) := by
      by_cases hKh : K ≤ 1 / 2
      · have : 0 ≤ (ux - uy) * (1 / 2 - K * (1 - ux - uy)) :=
          mul_nonneg hd0 (by linarith)
        have : 0 ≤ Kp * (x - y) := mul_nonneg hmax0 hxy0
        linarith
      · have hKp : K - 1 / 2 ≤ Kp := hmax1
        have h2 : (ux - uy) * (1 / 2 - K) ≤ (ux - uy) * (1 / 2 - K * (1 - ux - uy)) :=
          mul_le_mul_of_nonneg_left hlow hd0
        have h3 : (ux - uy) * (K - 1 / 2) ≤ (x - y) * (K - 1 / 2) :=
          mul_le_mul_of_nonneg_right hd1 (by linarith)
        have h4 : (x - y) * (K - 1 / 2) ≤ (x - y) * Kp :=
          mul_le_mul_of_nonneg_left hKp hxy0
        have e5 : (ux - uy) * (1 / 2 - K) = -((ux - uy) * (K - 1 / 2)) := by ring
        have e6 : (x - y) * Kp = Kp * (x - y) := by ring
        linarith
    have e7 : (1 / tau ^ 2 - Kp) * (x - y) = 1 / tau ^ 2 * (x - y) - Kp * (x - y) := by ring
    rw [e7]
    linarith
  · have h1 : (ux - uy) * (1 / 2 - K * (1 - ux - uy)) ≤ (K + 1 / 2) * ux * (x - y) := by
      have h2 : (ux - uy) * (1 / 2 - K * (1 - ux - uy)) ≤ (ux - uy) * (1 / 2 + K) :=
        mul_le_mul_of_nonneg_left hupp hd0
      have h3 : (ux - uy) * (1 / 2 + K) ≤ ux * (x - y) * (1 / 2 + K) :=
        mul_le_mul_of_nonneg_right hd2 (by linarith)
      have e5 : ux * (x - y) * (1 / 2 + K) = (K + 1 / 2) * ux * (x - y) := by ring
      linarith
    have e7 : (1 / tau ^ 2 + (K + 1 / 2) * ux) * (x - y) =
        1 / tau ^ 2 * (x - y) + (K + 1 / 2) * ux * (x - y) := by ring
    rw [e7]
    linarith

/-- Around a root `r` of `fX`, every point `x ≤ hi` other than `r` has
`fX(x) = -s·(x - r)` with a slope `s` between the two bounds of `fX_slope_bounds`, the
upper one taken with the logistic weight at `hi`. -/
theorem fX_slope_at_root (r hi delta phi v a tau : ℝ) (hv : 0 < v)
    (hr : fX r delta phi v a tau = 0) (hrhi : r ≤ hi) (x : ℝ) (hx : x ≤ hi) (hxr : x ≠ r) :
    ∃ s : ℝ, 1 / tau ^ 2 - max (delta ^ 2 / (2 * (phi ^ 2 + v)) - 1 / 2) 0 ≤ s ∧
      s ≤ 1 / tau ^ 2 + (delta ^ 2 / (2 * (phi ^ 2 + v)) + 1 / 2) *
        (Real.exp hi / (phi ^ 2 + v + Real.exp hi)) ∧
      fX x delta phi v a tau = -s * (x - r) := by
  have hP : 0 < phi ^ 2 + v := by positivity
  have hK : 0 ≤ delta ^ 2 / (2 * (phi ^ 2 + v)) + 1 / 2 := by positivity
  have hmono : ∀ z : ℝ, z ≤ hi →
      Real.exp z / (phi ^ 2 + v + Real.exp z) ≤ Real.exp hi / (phi ^ 2 + v + Real.exp hi) := by
    intro z hz
    have h := (logistic_step (phi ^ 2 + v) hi z hP hz).1
    linarith
  refine ⟨-(fX x delta phi v a tau) / (x - r), ?_, ?_, ?_⟩
  · rcases lt_or_gt_of_ne hxr with hlt | hgt
    · have hb := (fX_slope_bounds r x delta phi v a tau hv hlt.le).1
      rw [hr, sub_zero] at hb
      have hneg : x - r < 0 := by linarith
      rw [le_div_iff_of_neg hneg]
      nlinarith
    · have hb := (fX_slope_bounds x r delta phi v a tau hv hgt.le).1
      rw [hr, zero_sub] at hb
      have hpos : 0 < x - r := by linarith
      rw [le_div_iff₀ hpos]
      linarith
  · rcases lt_or_gt_of_ne hxr with hlt | hgt
    · have hb := (fX_slope_bounds r x delta phi v a tau hv hlt.le).2
      rw [hr, sub_zero] at hb
      have hneg : x - r < 0 := by linarith
      have hw := hmono r hrhi
      rw [div_le_iff_of_neg hneg]
      have hrx : 0 ≤ r - x := by linarith
      have h5 : (delta ^ 2 / (2 * (phi ^ 2 + v)) + 1 / 2) *
          (Real.exp r / (phi ^ 2 + v + Real.exp r)) * (r - x) ≤
          (delta ^ 2 / (2 * (phi ^ 2 + v)) + 1 / 2) *
          (Real.exp hi / (phi ^ 2 + v + Real.exp hi)) * (r - x) :=
        mul_le_mul_of_nonneg_right (mul_le_mul_of_nonneg_left hw hK) hrx
      nlinarith
    · have hb := (fX_slope_bounds x r delta phi v a tau hv hgt.le).2
      rw [hr, zero_sub] at hb
      have hpos : 0 < x - r := by linarith
      have hw := hmono x hx
      rw [div_le_iff₀ hpos]
      have h5 : (delta ^ 2 / (2 * (phi ^ 2 + v)) + 1 / 2) *
          (Real.exp x / (phi ^ 2 + v + Real.exp x)) * (x - r) ≤
          (delta ^ 2 / (2 * (phi ^ 2 + v)) + 1 / 2) *
          (Real.exp hi / (phi ^ 2 + v + Real.exp hi)) * (x - r) :=
        mul_le_mul_of_nonneg_right (mul_le_mul_of_nonneg_left hw hK) hpos.le
      nlinarith
  · have hne : x - r ≠ 0 := sub_ne_zero.mpr hxr
    field_simp

/-! ## The loop body around a root -/

theorem secant_formula (r e α β c sA sB : ℝ) (he : e = 1 ∨ e = -1) (hα : 0 < α) (hβ : 0 < β)
    (hc : 0 < c) (hsA : 0 < sA) (hsB : 0 < sB) :
    (r + e * α) + (c * (-sA * ((r + e * α) - r))) * ((r + e * α) - (r - e * β)) /
        (-sB * ((r - e * β) - r) - c * (-sA * ((r + e * α) - r))) =
      r + e * (α * β * (sB - c * sA) / (sB * β + c * sA * α)) := by
  have hden : 0 < sB * β + c * sA * α := by positivity
  rcases he with rfl | rfl
  · have h1 : -sB * (r - 1 * β - r) - c * (-sA * (r + 1 * α - r)) = sB * β + c * sA * α := by
      ring
    rw [h1]
    field_simp
    ring
  · have h1 : -sB * (r - -1 * β - r) - c * (-sA * (r + -1 * α - r)) =
        -(sB * β + c * sA * α) := by ring
    rw [h1, div_neg]
    field_simp
    ring

/-- One execution of the loop body, in coordinates around a root `r` of `fX`: `A` at
distance `α` on one side, `B` at distance `β` on the other (`e = ±1` tells which), the
stored `fA` a multiple `c` of `fX(A)`. Either the secant point is the root itself, or
`B` moves towards the root on its own side and `c` is halved, or `A` takes the place of
`B` and the new `B` lies on the former side of `A`. -/
theorem illinoisStep_cases (delta phi v a tau r m M hi : ℝ) (hm : 0 < m) (hmM : m ≤ M)
    (hr : fX r delta phi v a tau = 0)
    (hslope : ∀ x, x ≤ hi → x ≠ r →
      ∃ s, m ≤ s ∧ s ≤ M ∧ fX x delta phi v a tau = -s * (x - r))
    (e α β c : ℝ) (he : e = 1 ∨ e = -1) (hα : 0 < α) (hβ : 0 < β) (hc0 : 0 < c) (hc1 : c ≤ 1)
    (hA : r + e * α ≤ hi) (hB : r - e * β ≤ hi) :
    ((illinoisStep delta phi v a tau (r + e * α, r - e * β,
        c * fX (r + e * α) delta phi v a tau, fX (r - e * β) delta phi v a tau)).2.2.2 = 0 ∧
      m ≤ c * M) ∨
    (∃ β1, 0 < β1 ∧ β1 * M ≤ β * (M - m) ∧ β1 * m ≤ α * (c * M - m) ∧ m < c * M ∧
      r - e * β1 ≤ hi ∧
      illinoisStep delta phi v a tau (r + e * α, r - e * β,
        c * fX (r + e * α) delta phi v a tau, fX (r - e * β) delta phi v a tau) =
      (r + e * α, r - e * β1, c / 2 * fX (r + e * α) delta phi v a tau,
        fX (r - e * β1) delta phi v a tau)) ∨
    (∃ β1, 0 < β1 ∧ β1 * M ≤ α * (M - c * m) ∧ β1 * (c * m) ≤ β * (M - c * m) ∧
      r + e * β1 ≤ hi ∧
      illinoisStep delta phi v a tau (r + e * α, r - e * β,
        c * fX (r + e * α) delta phi v a tau, fX (r - e * β) delta phi v a tau) =
      (r - e * β, r + e * β1, fX (r - e * β) delta phi v a tau,
        fX (r + e * β1) delta phi v a tau)) := by
  have he2 : e * e = 1 := by rcases he with rfl | rfl <;> norm_num
  have hene : e ≠ 0 := by rcases he with rfl | rfl <;> norm_num
  have hAr : r + e * α ≠ r := by
    intro h
    have : e * α = 0 := by linarith
    rcases mul_eq_zero.mp this with h1 | h1
    · exact hene h1
    · exact hα.ne' h1
  have hBr : r - e * β ≠ r := by
    intro h
    have : e * β = 0 := by linarith
    rcases mul_eq_zero.mp this with h1 | h1
    · exact hene h1
    · exact hβ.ne' h1
  obtain ⟨sA, hsA1, hsA2, hfA⟩ := hslope _ hA hAr
  obtain ⟨sB, hsB1, hsB2, hfB⟩ := hslope _ hB hBr
  have hsA0 : 0 < sA := lt_of_lt_of_le hm hsA1
  have hsB0 : 0 < sB := lt_of_lt_of_le hm hsB1
  have hM0 : 0 < M := lt_of_lt_of_le hm hmM
  have hden : 0 < sB * β + c * sA * α := by positivity
  have hC : (r + e * α) + (c * fX (r + e * α) delta phi v a tau) *
      ((r + e * α) - (r - e * β)) /
      (fX (r - e * β) delta phi v a tau - c * fX (r + e * α) delta phi v a tau) =
      r + e * (α * β * (sB - c * sA) / (sB * β + c * sA * α)) := by
    rw [hfA, hfB]
    exact secant_formula r e α β c sA sB he hα hβ hc0 hsA0 hsB0
  have hstep : illinoisStep delta phi v a tau (r + e * α, r - e * β,
        c * fX (r + e * α) delta phi v a tau, fX (r - e * β) delta phi v a tau) =
      if fX (r + e * (α * β * (sB - c * sA) / (sB * β + c * sA * α))) delta phi v a tau *
          fX (r - e * β) delta phi v a tau < 0 then
        (r - e * β, r + e * (α * β * (sB - c * sA) / (sB * β + c * sA * α)),
          fX (r - e * β) delta phi v a tau,
          fX (r + e * (α * β * (sB - c * sA) / (sB * β + c * sA * α))) delta phi v a tau)
      else
        (r + e * α, r + e * (α * β * (sB - c * sA) / (sB * β + c * sA * α)),
          c * fX (r + e * α) delta phi v a tau / 2,
          fX (r + e * (α * β * (sB - c * sA) / (sB * β + c * sA * α))) delta phi v a tau) := by
    unfold illinoisStep
    dsimp only
    rw [hC]
  have hγ : α * β * (sB - c * sA) / (sB * β + c * sA * α) * (sB * β + c * sA * α) =
      α * β * (sB - c * sA) := by
    field_simp
  generalize α * β * (sB - c * sA) / (sB * β + c * sA * α) = γ at hstep hγ
  rcases lt_trichotomy (sB - c * sA) 0 with hneg | hzero | hpos
  · -- the secant point falls on the side of `B`
    right; left
    have hγneg : γ < 0 := by
      by_contra hge
      have h1 : 0 ≤ γ * (sB * β + c * sA * α) := mul_nonneg (not_lt.mp hge) hden.le
      have h2 : α * β * (sB - c * sA) < 0 :=
        mul_neg_of_pos_of_neg (mul_pos hα hβ) hneg
      linarith
    have hb1 : 0 < -γ := by linarith
    have hkey : -γ * (sB * β + c * sA * α) = α * β * (c * sA - sB) := by
      have : -γ * (sB * β + c * sA * α) = -(γ * (sB * β + c * sA * α)) := by ring
      rw [this, hγ]
      ring
    have hcsA : c * sA ≤ M := by
      calc c * sA ≤ 1 * sA := mul_le_mul_of_nonneg_right hc1 hsA0.le
        _ = sA := one_mul _
        _ ≤ M := hsA2
    have hbound1 : -γ * (c * sA) ≤ β * (c * sA - sB) := by
      have h1 : -γ * (c * sA * α) ≤ -γ * (sB * β + c * sA * α) := by
        apply mul_le_mul_of_nonneg_left _ hb1.le
        have : 0 ≤ sB * β := by positivity
        linarith
      rw [hkey] at h1
      have h2 : (-γ * (c * sA)) * α ≤ (β * (c * sA - sB)) * α := by
        calc (-γ * (c * sA)) * α = -γ * (c * sA * α) := by ring
          _ ≤ α * β * (c * sA - sB) := h1
          _ = (β * (c * sA - sB)) * α := by ring
      exact le_of_mul_le_mul_right h2 hα
    have hbound2 : -γ * sB ≤ α * (c * sA - sB) := by
      have h1 : -γ * (sB * β) ≤ -γ * (sB * β + c * sA * α) := by
        apply mul_le_mul_of_nonneg_left _ hb1.le
        have : 0 ≤ c * sA * α := by positivity
        linarith
      rw [hkey] at h1
      have h2 : (-γ * sB) * β ≤ (α * (c * sA - sB)) * β := by
        calc (-γ * sB) * β = -γ * (sB * β) := by ring
          _ ≤ α * β * (c * sA - sB) := h1
          _ = (α * (c * sA - sB)) * β := by ring
      exact le_of_mul_le_mul_right h2 hβ
    have hle1 : -γ * M ≤ β * (M - m) := by
      have h1 : (-γ * M) * (c * sA) ≤ (β * (M - m)) * (c * sA) := by
        have h2 : (c * sA - sB) * M ≤ (c * sA) * (M - m) := by nlinarith
        calc (-γ * M) * (c * sA) = (-γ * (c * sA)) * M := by ring
          _ ≤ (β * (c * sA - sB)) * M := mul_le_mul_of_nonneg_right hbound1 hM0.le
          _ = β * ((c * sA - sB) * M) := by ring
          _ ≤ β * ((c * sA) * (M - m)) := mul_le_mul_of_nonneg_left h2 hβ.le
          _ = (β * (M - m)) * (c * sA) := by ring
      exact le_of_mul_le_mul_right h1 (by positivity)
    have hle2 : -γ * m ≤ α * (c * M - m) := by
      have h1 : -γ * m ≤ -γ * sB := mul_le_mul_of_nonneg_left hsB1 hb1.le
      have h2 : α * (c * sA - sB) ≤ α * (c * M - m) := by
        apply mul_le_mul_of_nonneg_left _ hα.le
        have : c * sA ≤ c * M := mul_le_mul_of_nonneg_left hsA2 hc0.le
        linarith
      linarith
    have hmc : m < c * M := by
      have : c * sA ≤ c * M := mul_le_mul_of_nonneg_left hsA2 hc0.le
      linarith
    have hγβ : -γ ≤ β := by
      have h1 : -γ * M ≤ β * M := by
        have : β * (M - m) ≤ β * M := by
          apply mul_le_mul_of_nonneg_left _ hβ.le
          linarith
        linarith
      exact le_of_mul_le_mul_right h1 hM0
    have hChi : r - e * -γ ≤ hi := by
      rcases he with rfl | rfl
      · have : r - 1 * -γ ≤ r + 1 * α := by linarith
        linarith
      · have : r - -1 * -γ ≤ r - -1 * β := by linarith
        linarith
    have hCeq : r + e * γ = r - e * -γ := by ring
    have hCr : r - e * -γ ≠ r := by
      intro h
      have : e * γ = 0 := by linarith
      rcases mul_eq_zero.mp this with h1 | h1
      · exact hene h1
      · exact hγneg.ne h1
    obtain ⟨sC, hsC1, _, hfC⟩ := hslope _ hChi hCr
    have hsC0 : 0 < sC := lt_of_lt_of_le hm hsC1
    have hprod : ¬ fX (r + e * γ) delta phi v a tau * fX (r - e * β) delta phi v a tau < 0 := by
      rw [hCeq, hfC, hfB]
      have : -sC * (r - e * -γ - r) * (-sB * (r - e * β - r)) =
          sC * sB * (e * e) * (-γ * β) := by ring
      rw [this, he2]
      have : 0 < sC * sB * 1 * (-γ * β) := by positivity
      linarith
    refine ⟨-γ, hb1, hle1, hle2, hmc, hChi, ?_⟩
    rw [hstep, if_neg hprod, hCeq]
    have : c * fX (r + e * α) delta phi v a tau / 2 = c / 2 * fX (r + e * α) delta phi v a tau := by
      ring
    rw [this]
  · -- the secant point is the root
    left
    have hγ0 : γ = 0 := by
      have h1 : γ * (sB * β + c * sA * α) = 0 := by rw [hγ, hzero]; ring
      rcases mul_eq_zero.mp h1 with h2 | h2
      · exact h2
      · exact absurd h2 hden.ne'
    refine ⟨?_, ?_⟩
    · rw [hstep, hγ0, mul_zero, add_zero, hr]
      split <;> rfl
    · have h1 : sB = c * sA := by linarith
      have h2 : c * sA ≤ c * M := mul_le_mul_of_nonneg_left hsA2 hc0.le
      linarith
  · -- the secant point falls on the side of `A`
    right; right
    have hγpos : 0 < γ := by
      by_contra hle
      have h1 : γ * (sB * β + c * sA * α) ≤ 0 :=
        mul_nonpos_of_nonpos_of_nonneg (not_lt.mp hle) hden.le
      have h2 : 0 < α * β * (sB - c * sA) := mul_pos (mul_pos hα hβ) hpos
      linarith
    have hbound1 : γ * sB ≤ α * (sB - c * sA) := by
      have h1 : γ * (sB * β) ≤ γ * (sB * β + c * sA * α) := by
        apply mul_le_mul_of_nonneg_left _ hγpos.le
        have : 0 ≤ c * sA * α := by positivity
        linarith
      rw [hγ] at h1
      have h2 : (γ * sB) * β ≤ (α * (sB - c * sA)) * β := by
        calc (γ * sB) * β = γ * (sB * β) := by ring
          _ ≤ α * β * (sB - c * sA) := h1
          _ = (α * (sB - c * sA)) * β := by ring
      exact le_of_mul_le_mul_right h2 hβ
    have hbound2 : γ * (c * sA) ≤ β * (sB - c * sA) := by
      have h1 : γ * (c * sA * α) ≤ γ * (sB * β + c * sA * α) := by
        apply mul_le_mul_of_nonneg_left _ hγpos.le
        have : 0 ≤ sB * β := by positivity
        linarith
      rw [hγ] at h1
      have h2 : (γ * (c * sA)) * α ≤ (β * (sB - c * sA)) * α := by
        calc (γ * (c * sA)) * α = γ * (c * sA * α) := by ring
          _ ≤ α * β * (sB - c * sA) := h1
          _ = (β * (sB - c * sA)) * α := by ring
      exact le_of_mul_le_mul_right h2 hα
    have hcm : c * m ≤ c * sA := mul_le_mul_of_nonneg_left hsA1 hc0.le
    have hle1 : γ * M ≤ α * (M - c * m) := by
      have h1 : (γ * M) * sB ≤ (α * (M - c * m)) * sB := by
        have h3 : c * m * sB ≤ c * sA * M := by
          calc c * m * sB ≤ c * sA * sB :=
                mul_le_mul_of_nonneg_right hcm hsB0.le
            _ ≤ c * sA * M := mul_le_mul_of_nonneg_left hsB2 (by positivity)
        have h2 : (sB - c * sA) * M ≤ sB * (M - c * m) := by
          have e1 : (sB - c * sA) * M = sB * M - c * sA * M := by ring
          have e2 : sB * (M - c * m) = sB * M - c * m * sB := by ring
          rw [e1, e2]
          linarith
        calc (γ * M) * sB = (γ * sB) * M := by ring
          _ ≤ (α * (sB - c * sA)) * M := mul_le_mul_of_nonneg_right hbound1 hM0.le
          _ = α * ((sB - c * sA) * M) := by ring
          _ ≤ α * (sB * (M - c * m)) := mul_le_mul_of_nonneg_left h2 hα.le
          _ = (α * (M - c * m)) * sB := by ring
      exact le_of_mul_le_mul_right h1 hsB0
    have hle2 : γ * (c * m) ≤ β * (M - c * m) := by
      have h1 : γ * (c * m) ≤ γ * (c * sA) := mul_le_mul_of_nonneg_left hcm hγpos.le
      have h2 : β * (sB - c * sA) ≤ β * (M - c * m) := by
        apply mul_le_mul_of_nonneg_left _ hβ.le
        linarith
      linarith
    have hγα : γ ≤ α := by
      have h1 : γ * M ≤ α * M := by
        have : α * (M - c * m) ≤ α * M := by
          apply mul_le_mul_of_nonneg_left _ hα.le
          have : 0 ≤ c * m := by positivity
          linarith
        linarith
      exact le_of_mul_le_mul_right h1 hM0
    have hChi : r + e * γ ≤ hi := by
      rcases he with rfl | rfl
      · have : r + 1 * γ ≤ r + 1 * α := by linarith
        linarith
      · have : r + -1 * γ ≤ r - -1 * β := by linarith
        linarith
    have hCr : r + e * γ ≠ r := by
      intro h
      have : e * γ = 0 := by linarith
      rcases mul_eq_zero.mp this with h1 | h1
      · exact hene h1
      · exact hγpos.ne' h1
    obtain ⟨sC, hsC1, _, hfC⟩ := hslope _ hChi hCr
    have hsC0 : 0 < sC := lt_of_lt_of_le hm hsC1
    have hprod : fX (r + e * γ) delta phi v a tau * fX (r - e * β) delta phi v a tau < 0 := by
      rw [hfC, hfB]
      have : -sC * (r + e * γ - r) * (-sB * (r - e * β - r)) =
          -(sC * sB * (e * e) * (γ * β)) := by ring
      rw [this, he2]
      have : 0 < sC * sB * 1 * (γ * β) := by positivity
      linarith
    refine ⟨γ, hγpos, hle1, hle2, hChi, ?_⟩
    rw [hstep, if_pos hprod]

/-! ## Roots of `fX` between points of opposite sign -/

theorem fX_root_strictly_between (delta phi v a tau A B : ℝ) (hv : 0 < v)
    (h : fX A delta phi v a tau * fX B delta phi v a tau < 0) :
    ∃ r : ℝ, fX r delta phi v a tau = 0 ∧ ((B < r ∧ r < A) ∨ (A < r ∧ r < B)) := by
  have hcont : ContinuousOn (fun x => fX x delta phi v a tau) (Set.uIcc A B) :=
    (fX_continuous delta phi v a tau hv).continuousOn
  have hmem : (0 : ℝ) ∈ Set.uIcc (fX A delta phi v a tau) (fX B delta phi v a tau) := by
    rw [Set.mem_uIcc]
    rcases mul_nonpos_iff.mp h.le with ⟨h1, h2⟩ | ⟨h1, h2⟩
    · exact Or.inr ⟨h2, h1⟩
    · exact Or.inl ⟨h1, h2⟩
  obtain ⟨r, hr, hfr⟩ := intermediate_value_uIcc hcont hmem
  have hfr2 : fX r delta phi v a tau = 0 := hfr
  have hrA : r ≠ A := by
    intro hEq
    rw [hEq] at hfr2
    rw [hfr2, zero_mul] at h
    exact lt_irrefl 0 h
  have hrB : r ≠ B := by
    intro hEq
    rw [hEq] at hfr2
    rw [hfr2, mul_zero] at h
    exact lt_irrefl 0 h
  refine ⟨r, hfr2, ?_⟩
  rw [Set.mem_uIcc] at hr
  rcases hr with ⟨h1, h2⟩ | ⟨h1, h2⟩
  · right
    exact ⟨lt_of_le_of_ne h1 (Ne.symm hrA), lt_of_le_of_ne h2 hrB⟩
  · left
    exact ⟨lt_of_le_of_ne h1 (Ne.symm hrB), lt_of_le_of_ne h2 hrA⟩

theorem sigmaP_of_parts (fuel : Nat) (delta sigma phi v tau B A : ℝ)
    (hB : chooseB fuel delta phi v (Real.log (sigma ^ 2)) tau = some B)
    (hA : illinois delta phi v (Real.log (sigma ^ 2)) tau fuel (Real.log (sigma ^ 2)) B
      (fX (Real.log (sigma ^ 2)) delta phi v (Real.log (sigma ^ 2)) tau)
      (fX B delta phi v (Real.log (sigma ^ 2)) tau) = some A) :
    sigmaP fuel delta sigma phi v tau = some (Real.exp (A / 2)) := by
  unfold sigmaP
  dsimp only
  rw [hB]
  dsimp only
  rw [hA]
  rfl

/-! ## Concavity of `fX` to the left of `ln(φ² + v)` -/

theorem logistic_hasDerivAt (P x : ℝ) (hP : 0 < P) :
    HasDerivAt (fun y : ℝ => Real.exp y / (P + Real.exp y))
      (Real.exp x / (P + Real.exp x) * (1 - Real.exp x / (P + Real.exp x))) x := by
  have hE := Real.exp_pos x
  have hS : P + Real.exp x ≠ 0 := by positivity
  have h := (Real.hasDerivAt_exp x).div ((hasDerivAt_const x P).add (Real.hasDerivAt_exp x)) hS
  have heq : (Real.exp x * (P + Real.exp x) - Real.exp x * (0 + Real.exp x)) /
      (P + Real.exp x) ^ 2 =
      Real.exp x / (P + Real.exp x) * (1 - Real.exp x / (P + Real.exp x)) := by
    field_simp
    ring
  rw [heq] at h
  exact h

theorem fX_hasDerivAt (x delta phi v a tau : ℝ) (hv : 0 < v) :
    HasDerivAt (fun y : ℝ => fX y delta phi v a tau)
      (Real.exp x / (phi ^ 2 + v + Real.exp x) * (1 - Real.exp x / (phi ^ 2 + v + Real.exp x)) *
        (delta ^ 2 / (2 * (phi ^ 2 + v)) * (1 - 2 * (Real.exp x / (phi ^ 2 + v + Real.exp x))) -
          1 / 2) - 1 / tau ^ 2) x := by
  have hP : 0 < phi ^ 2 + v := by positivity
  have hU := logistic_hasDerivAt (phi ^ 2 + v) x hP
  have h1 := hU.mul ((hasDerivAt_const x (1 : ℝ)).sub hU)
  have h2 := h1.const_mul (delta ^ 2 / (2 * (phi ^ 2 + v)))
  have h3 := hU.div_const 2
  have h4 := ((hasDerivAt_id x).sub_const a).div_const (tau ^ 2)
  have h5 := (h2.sub h3).sub h4
  have hfun : (fun y : ℝ => fX y delta phi v a tau) =
      (fun y : ℝ => delta ^ 2 / (2 * (phi ^ 2 + v)) *
          (Real.exp y / (phi ^ 2 + v + Real.exp y) *
            (1 - Real.exp y / (phi ^ 2 + v + Real.exp y))) -
        Real.exp y / (phi ^ 2 + v + Real.exp y) / 2 - (y - a) / tau ^ 2) := by
    funext y
    exact fX_logistic y delta phi v a tau hv
  rw [hfun]
  convert h5 using 1
  ring

theorem logistic_lt_half (P x : ℝ) (hP : 0 < P) (hx : x < Real.log P) :
    Real.exp x / (P + Real.exp x) < 1 / 2 := by
  have hE := Real.exp_pos x
  have hlt : Real.exp x < P := by
    have := Real.exp_lt_exp.mpr hx
    rwa [Real.exp_log hP] at this
  rw [div_lt_iff₀ (by positivity)]
  linarith

theorem logistic_strictMono (P x y : ℝ) (hP : 0 < P) (hxy : x < y) :
    Real.exp x / (P + Real.exp x) < Real.exp y / (P + Real.exp y) := by
  have hEx := Real.exp_pos x
  have hEy := Real.exp_pos y
  have hlt : Real.exp x < Real.exp y := Real.exp_lt_exp.mpr hxy
  rw [div_lt_div_iff₀ (by positivity) (by positivity)]
  nlinarith

theorem fX_strictConcaveOn (delta phi v a tau : ℝ) (hv : 0 < v)
    (h : delta ^ 2 ≤ phi ^ 2 + v) :
    StrictConcaveOn ℝ (Set.Iic (Real.log (phi ^ 2 + v)))
      (fun y : ℝ => fX y delta phi v a tau) := by
  have hP : 0 < phi ^ 2 + v := by positivity
  have hK0 : 0 ≤ delta ^ 2 / (2 * (phi ^ 2 + v)) := by positivity
  have hK1 : delta ^ 2 / (2 * (phi ^ 2 + v)) ≤ 1 / 2 := by
    rw [div_le_iff₀ (by positivity)]
    linarith
  apply StrictAntiOn.strictConcaveOn_of_deriv (convex_Iic _)
    (fX_continuous delta phi v a tau hv).continuousOn
  rw [interior_Iic]
  intro x hx y hy hxy
  rw [(fX_hasDerivAt x delta phi v a tau hv).deriv, (fX_hasDerivAt y delta phi v a tau hv).deriv]
  have hux := logistic_lt_half (phi ^ 2 + v) x hP hx
  have huy := logistic_lt_half (phi ^ 2 + v) y hP hy
  have hmono := logistic_strictMono (phi ^ 2 + v) x y hP hxy
  have hux0 : 0 < Real.exp x / (phi ^ 2 + v + Real.exp x) := by
    have := Real.exp_pos x
    positivity
  generalize Real.exp x / (phi ^ 2 + v + Real.exp x) = p at *
  generalize Real.exp y / (phi ^ 2 + v + Real.exp y) = q at *
  generalize delta ^ 2 / (2 * (phi ^ 2 + v)) = K at *
  have hg1 : p * (1 - p) < q * (1 - q) := by nlinarith
  have hg1p : 0 < p * (1 - p) := by nlinarith
  have hg2p : 0 < 1 / 2 - K * (1 - 2 * p) := by nlinarith
  have hg2 : 1 / 2 - K * (1 - 2 * p) ≤ 1 / 2 - K * (1 - 2 * q) := by nlinarith
  have hprod : p * (1 - p) * (1 / 2 - K * (1 - 2 * p)) <
      q * (1 - q) * (1 / 2 - K * (1 - 2 * q)) := by
    calc p * (1 - p) * (1 / 2 - K * (1 - 2 * p))
        < q * (1 - q) * (1 / 2 - K * (1 - 2 * p)) := mul_lt_mul_of_pos_right hg1 hg2p
      _ ≤ q * (1 - q) * (1 / 2 - K * (1 - 2 * q)) :=
          mul_le_mul_of_nonneg_left hg2 (by linarith)
  have e1 : q * (1 - q) * (K * (1 - 2 * q) - 1 / 2) =
      -(q * (1 - q) * (1 / 2 - K * (1 - 2 * q))) := by ring
  have e2 : p * (1 - p) * (K * (1 - 2 * p) - 1 / 2) =
      -(p * (1 - p) * (1 / 2 - K * (1 - 2 * p))) := by ring
  rw [e1, e2]
  linarith

/-- The secant point of a pair at which a strictly concave `fX` falls from a positive
to a negative value has a positive value of `fX`. -/
theorem fX_secant_pos (delta phi v a tau A B : ℝ) (hv : 0 < v)
    (h : delta ^ 2 ≤ phi ^ 2 + v) (hBA : B < A) (hA : A ≤ Real.log (phi ^ 2 + v))
    (hfA : fX A delta phi v a tau < 0) (hfB : 0 < fX B delta phi v a tau) :
    0 < fX (A + fX A delta phi v a tau * (A - B) /
      (fX B delta phi v a tau - fX A delta phi v a tau)) delta phi v a tau := by
  have hconc := fX_strictConcaveOn delta phi v a tau hv h
  have hden : 0 < fX B delta phi v a tau - fX A delta phi v a tau := by linarith
  have hwA : 0 < fX B delta phi v a tau / (fX B delta phi v a tau - fX A delta phi v a tau) :=
    div_pos hfB hden
  have hwB : 0 < -fX A delta phi v a tau / (fX B delta phi v a tau - fX A delta phi v a tau) :=
    div_pos (by linarith) hden
  have hsum : fX B delta phi v a tau / (fX B delta phi v a tau - fX A delta phi v a tau) +
      -fX A delta phi v a tau / (fX B delta phi v a tau - fX A delta phi v a tau) = 1 := by
    field_simp
    ring
  have hmemA : A ∈ Set.Iic (Real.log (phi ^ 2 + v)) := hA
  have hmemB : B ∈ Set.Iic (Real.log (phi ^ 2 + v)) := le_trans hBA.le hA
  have hc := hconc.2 hmemA hmemB (ne_of_gt hBA) hwA hwB hsum
  simp only [smul_eq_mul] at hc
  have hpt : fX B delta phi v a tau / (fX B delta phi v a tau - fX A delta phi v a tau) * A +
      -fX A delta phi v a tau / (fX B delta phi v a tau - fX A delta phi v a tau) * B =
      A + fX A delta phi v a tau * (A - B) /
        (fX B delta phi v a tau - fX A delta phi v a tau) := by
    field_simp
    ring
  have hval : fX B delta phi v a tau / (fX B delta phi v a tau - fX A delta phi v a tau) *
      fX A delta phi v a tau +
      -fX A delta phi v a tau / (fX B delta phi v a tau - fX A delta phi v a tau) *
      fX B delta phi v a tau = 0 := by
    field_simp
    ring
  rw [hpt, hval] at hc
  exact hc

/-! ## Inputs on which the main loop ends within two executions of its body -/

theorem illinoisStep_fB (delta phi v a tau A B fA fB : ℝ) :
    (illinoisStep delta phi v a tau (A, B, fA, fB)).2.2.2 =
      fX (A + fA * (A - B) / (fB - fA)) delta phi v a tau := by
  unfold illinoisStep
  dsimp only
  split <;> rfl

theorem fX_at_a_bounds (delta phi v a tau : ℝ) (hv : 0 < v) (h : delta ^ 2 ≤ phi ^ 2 + v) :
    fX a delta phi v a tau < 0 ∧
    -(Real.exp a / (phi ^ 2 + v + Real.exp a)) / 2 ≤ fX a delta phi v a tau := by
  have hE := Real.exp_pos a
  have hP : 0 < phi ^ 2 + v := by positivity
  have hu0 : 0 < Real.exp a / (phi ^ 2 + v + Real.exp a) := by positivity
  have hu1 : Real.exp a / (phi ^ 2 + v + Real.exp a) < 1 := by
    rw [div_lt_one (by positivity)]
    linarith
  have hK0 : 0 ≤ delta ^ 2 / (2 * (phi ^ 2 + v)) := by positivity
  have hK1 : delta ^ 2 / (2 * (phi ^ 2 + v)) ≤ 1 / 2 := by
    rw [div_le_iff₀ (by positivity)]
    linarith
  rw [fX_logistic a delta phi v a tau hv, sub_self, zero_div, sub_zero]
  generalize Real.exp a / (phi ^ 2 + v + Real.exp a) = u at *
  generalize delta ^ 2 / (2 * (phi ^ 2 + v)) = K at *
  constructor
  · have h1 : K * (u * (1 - u)) ≤ 1 / 2 * (u * (1 - u)) :=
      mul_le_mul_of_nonneg_right hK1 (by nlinarith)
    nlinarith
  · have h1 : 0 ≤ K * (u * (1 - u)) := mul_nonneg hK0 (by nlinarith)
    linarith

theorem two_steps_root (delta phi v a tau : ℝ) (hv : 0 < v) (htau : 0 < tau)
    (htau1 : tau ≤ 1) (hdelta : delta ^ 2 ≤ phi ^ 2 + v) :
    ∃ r : ℝ, fX r delta phi v a tau = 0 ∧ a - 1 * tau < r ∧ r < a ∧
      (∀ x, x ≤ a → x ≠ r →
        ∃ s, 1 / tau ^ 2 ≤ s ∧
          s ≤ 1 / tau ^ 2 + (delta ^ 2 / (2 * (phi ^ 2 + v)) + 1 / 2) *
            (Real.exp a / (phi ^ 2 + v + Real.exp a)) ∧
          fX x delta phi v a tau = -s * (x - r)) ∧
      a - r ≤ Real.exp a / (phi ^ 2 + v) * tau ^ 2 / 2 := by
  have hE := Real.exp_pos a
  have hP : 0 < phi ^ 2 + v := by positivity
  have ht2 : 0 < tau ^ 2 := by positivity
  have hK1 : delta ^ 2 / (2 * (phi ^ 2 + v)) ≤ 1 / 2 := by
    rw [div_le_iff₀ (by positivity)]
    linarith
  have hmax : max (delta ^ 2 / (2 * (phi ^ 2 + v)) - 1 / 2) 0 = 0 :=
    max_eq_right (by linarith)
  have huaw : Real.exp a / (phi ^ 2 + v + Real.exp a) ≤ Real.exp a / (phi ^ 2 + v) := by
    apply div_le_div_of_nonneg_left hE.le hP
    linarith
  obtain ⟨hfa_neg, hfa_low⟩ := fX_at_a_bounds delta phi v a tau hv hdelta
  have hfb : 1 / 2 ≤ fX (a - 1 * tau) delta phi v a tau := by
    have h := fX_lower (a - 1 * tau) delta phi v a tau hv
    have e1 : -(1 / 2) - (a - 1 * tau - a) / tau ^ 2 = 1 / tau - 1 / 2 := by
      field_simp
      ring
    have h2 : 1 ≤ 1 / tau := by
      rw [le_div_iff₀ htau]
      linarith
    rw [e1] at h
    linarith
  have hprod : fX a delta phi v a tau * fX (a - 1 * tau) delta phi v a tau < 0 :=
    mul_neg_of_neg_of_pos hfa_neg (by linarith)
  obtain ⟨r, hr, hpos⟩ := fX_root_strictly_between delta phi v a tau a (a - 1 * tau) hv hprod
  have hr1 : a - 1 * tau < r ∧ r < a := by
    rcases hpos with h | h
    · exact h
    · exfalso
      linarith [h.1, h.2]
  have hslope : ∀ x, x ≤ a → x ≠ r →
      ∃ s, 1 / tau ^ 2 ≤ s ∧
        s ≤ 1 / tau ^ 2 + (delta ^ 2 / (2 * (phi ^ 2 + v)) + 1 / 2) *
          (Real.exp a / (phi ^ 2 + v + Real.exp a)) ∧
        fX x delta phi v a tau = -s * (x - r) := by
    intro x hx hxr
    obtain ⟨s, hs1, hs2, hs3⟩ := fX_slope_at_root r a delta phi v a tau hv hr hr1.2.le x hx hxr
    rw [hmax, sub_zero] at hs1
    exact ⟨s, hs1, hs2, hs3⟩
  refine ⟨r, hr, hr1.1, hr1.2, hslope, ?_⟩
  obtain ⟨sA, hsA1, _, hfA⟩ := hslope a (le_refl _) (ne_of_gt hr1.2)
  have h1 : sA * (a - r) ≤ Real.exp a / (phi ^ 2 + v) / 2 := by
    have e3 : sA * (a - r) = -fX a delta phi v a tau := by rw [hfA]; ring
    rw [e3]
    linarith
  have h2 : 1 / tau ^ 2 * (a - r) ≤ sA * (a - r) :=
    mul_le_mul_of_nonneg_right hsA1 (by linarith)
  have h3 : 1 / tau ^ 2 * (a - r) ≤ Real.exp a / (phi ^ 2 + v) / 2 := le_trans h2 h1
  have h4 : a - r = tau ^ 2 * (1 / tau ^ 2 * (a - r)) := by
    field_simp
  rw [h4]
  calc tau ^ 2 * (1 / tau ^ 2 * (a - r)) ≤ tau ^ 2 * (Real.exp a / (phi ^ 2 + v) / 2) :=
        mul_le_mul_of_nonneg_left h3 ht2.le
    _ = Real.exp a / (phi ^ 2 + v) * tau ^ 2 / 2 := by ring

theorem two_steps_first (delta phi v a tau r M w : ℝ) (hv : 0 < v) (htau : 0 < tau)
    (hdelta : delta ^ 2 ≤ phi ^ 2 + v) (haP : Real.exp a ≤ phi ^ 2 + v)
    (hr : fX r delta phi v a tau = 0) (hr1 : a - 1 * tau < r) (hr2 : r < a)
    (hmM : 1 / tau ^ 2 ≤ M) (hMw : M ≤ 1 / tau ^ 2 + w)
    (hslope : ∀ x, x ≤ a → x ≠ r →
      ∃ s, 1 / tau ^ 2 ≤ s ∧ s ≤ M ∧ fX x delta phi v a tau = -s * (x - r))
    (hfa : fX a delta phi v a tau < 0) (hfb : 0 < fX (a - 1 * tau) delta phi v a tau) :
    ∃ β1 : ℝ, 0 < β1 ∧ β1 ≤ (a - r) * w * tau ^ 2 ∧ r - 1 * β1 ≤ a ∧
      illinoisStep delta phi v a tau
        (a, a - 1 * tau, fX a delta phi v a tau, fX (a - 1 * tau) delta phi v a tau) =
      (a, r - 1 * β1, 1 / 2 * fX a delta phi v a tau, fX (r - 1 * β1) delta phi v a tau) := by
  have hE := Real.exp_pos a
  have hP : 0 < phi ^ 2 + v := by positivity
  have ht2 : 0 < tau ^ 2 := by positivity
  have hm : (0 : ℝ) < 1 / tau ^ 2 := by positivity
  have e1 : r + 1 * (a - r) = a := by ring
  have e2 : r - 1 * (r - (a - 1 * tau)) = a - 1 * tau := by ring
  have hcases := illinoisStep_cases delta phi v a tau r _ M a hm hmM hr hslope 1 (a - r)
    (r - (a - 1 * tau)) 1 (Or.inl rfl) (by linarith) (by linarith) one_pos (le_refl _)
    (by rw [e1]) (by rw [e2]; linarith)
  rw [e1, e2, one_mul (fX a delta phi v a tau)] at hcases
  have hlogP : a ≤ Real.log (phi ^ 2 + v) := by
    have := Real.log_le_log hE haP
    rwa [Real.log_exp] at this
  have hsec := fX_secant_pos delta phi v a tau a (a - 1 * tau) hv hdelta (by linarith) hlogP
    hfa hfb
  have hstepfB := illinoisStep_fB delta phi v a tau a (a - 1 * tau) (fX a delta phi v a tau)
    (fX (a - 1 * tau) delta phi v a tau)
  rcases hcases with ⟨hz, _⟩ | ⟨β1, hβ1, _, hb1', _, hChi, hst⟩ | ⟨β1, hβ1, _, _, hChi, hst⟩
  · exfalso
    rw [hstepfB] at hz
    linarith only [hz, hsec]
  · refine ⟨β1, hβ1, ?_, hChi, ?_⟩
    · have h1 : β1 * (1 / tau ^ 2) ≤ (a - r) * w := by
        have h2 : (a - r) * (1 * M - 1 / tau ^ 2) ≤ (a - r) * w := by
          apply mul_le_mul_of_nonneg_left _ (by linarith)
          linarith
        exact le_trans hb1' h2
      have h3 : β1 = tau ^ 2 * (β1 * (1 / tau ^ 2)) := by
        field_simp
      rw [h3]
      calc tau ^ 2 * (β1 * (1 / tau ^ 2)) ≤ tau ^ 2 * ((a - r) * w) :=
            mul_le_mul_of_nonneg_left h1 ht2.le
        _ = (a - r) * w * tau ^ 2 := by ring
    · rw [hst]
  · exfalso
    have h1 : fX (r + 1 * β1) delta phi v a tau =
        fX (a + fX a delta phi v a tau * (a - (a - 1 * tau)) /
          (fX (a - 1 * tau) delta phi v a tau - fX a delta phi v a tau)) delta phi v a tau := by
      rw [← hstepfB, hst]
    obtain ⟨sC, hsC1, _, hfC⟩ := hslope (r + 1 * β1) hChi (by
      intro h
      linarith)
    rw [h1] at hfC
    have h2 : 0 < sC := lt_of_lt_of_le hm hsC1
    have e3 : -sC * (r + 1 * β1 - r) = -(sC * β1) := by ring
    rw [e3] at hfC
    have h4 : 0 < sC * β1 := mul_pos h2 hβ1
    linarith only [hfC, hsec, h4]

theorem two_steps_second (delta phi v a tau r M β1 : ℝ) (htau : 0 < tau)
    (hr : fX r delta phi v a tau = 0) (hr2 : r < a)
    (hmM : 1 / tau ^ 2 ≤ M) (hM2 : M < 2 * (1 / tau ^ 2))
    (hslope : ∀ x, x ≤ a → x ≠ r →
      ∃ s, 1 / tau ^ 2 ≤ s ∧ s ≤ M ∧ fX x delta phi v a tau = -s * (x - r))
    (hβ1 : 0 < β1) (hB : r - 1 * β1 ≤ a) :
    ∃ β2 : ℝ, 0 < β2 ∧ β2 ≤ 3 * β1 ∧
      illinoisStep delta phi v a tau
        (a, r - 1 * β1, 1 / 2 * fX a delta phi v a tau, fX (r - 1 * β1) delta phi v a tau) =
      (r - 1 * β1, r + 1 * β2, fX (r - 1 * β1) delta phi v a tau,
        fX (r + 1 * β2) delta phi v a tau) := by
  have ht2 : 0 < tau ^ 2 := by positivity
  have hm : (0 : ℝ) < 1 / tau ^ 2 := by positivity
  have e1 : r + 1 * (a - r) = a := by ring
  have hcases2 := illinoisStep_cases delta phi v a tau r _ M a hm hmM hr hslope 1 (a - r)
    β1 (1 / 2) (Or.inl rfl) (by linarith) hβ1 (by norm_num) (by norm_num)
    (by rw [e1]) hB
  rw [e1] at hcases2
  rcases hcases2 with ⟨_, hz⟩ | ⟨β2, _, _, _, hmc2, _, _⟩ | ⟨β2, hβ2, _, hb2', _, hst2⟩
  · exfalso
    linarith only [hz, hM2]
  · exfalso
    linarith only [hmc2, hM2]
  · refine ⟨β2, hβ2, ?_, hst2⟩
    have h1 : β1 * (M - 1 / 2 * (1 / tau ^ 2)) ≤ β1 * (3 * (1 / 2 * (1 / tau ^ 2))) := by
      apply mul_le_mul_of_nonneg_left _ hβ1.le
      linarith only [hM2]
    have h2 : β2 * (1 / 2 * (1 / tau ^ 2)) ≤ (3 * β1) * (1 / 2 * (1 / tau ^ 2)) := by
      calc β2 * (1 / 2 * (1 / tau ^ 2)) ≤ β1 * (M - 1 / 2 * (1 / tau ^ 2)) := hb2'
        _ ≤ β1 * (3 * (1 / 2 * (1 / tau ^ 2))) := h1
        _ = (3 * β1) * (1 / 2 * (1 / tau ^ 2)) := by ring
    exact le_of_mul_le_mul_right h2 (by positivity)

/-- With `τ ≤ 1`, `Δ² ≤ φ² + v`, `e^a ≤ φ² + v` and `2·(e^a/(φ² + v))²·τ⁴ ≤ ε`, the main
loop started at `(a, a - τ)` exits within two executions of its body, at an `A` no
further than `e^a/(φ² + v)·τ²` below `a`. -/
theorem illinois_two_steps (delta phi v a tau : ℝ) (hv : 0 < v) (htau : 0 < tau)
    (htau1 : tau ≤ 1) (hdelta : delta ^ 2 ≤ phi ^ 2 + v) (haP : Real.exp a ≤ phi ^ 2 + v)
    (hsmall : 2 * (Real.exp a / (phi ^ 2 + v)) ^ 2 * tau ^ 4 ≤ epsilon) :
    ∃ A : ℝ, illinois delta phi v a tau 2 a (a - 1 * tau) (fX a delta phi v a tau)
        (fX (a - 1 * tau) delta phi v a tau) = some A ∧
      a - Real.exp a / (phi ^ 2 + v) * tau ^ 2 ≤ A ∧ A ≤ a := by
  have hE := Real.exp_pos a
  have hP : 0 < phi ^ 2 + v := by positivity
  have ht2 : 0 < tau ^ 2 := by positivity
  have ht2le : tau ^ 2 ≤ 1 := by nlinarith
  have hm1 : (1 : ℝ) ≤ 1 / tau ^ 2 := by
    rw [le_div_iff₀ ht2]
    linarith
  have hK0 : 0 ≤ delta ^ 2 / (2 * (phi ^ 2 + v)) := by positivity
  have hK1 : delta ^ 2 / (2 * (phi ^ 2 + v)) ≤ 1 / 2 := by
    rw [div_le_iff₀ (by positivity)]
    linarith
  have hw0 : 0 < Real.exp a / (phi ^ 2 + v) := by positivity
  have hw1 : Real.exp a / (phi ^ 2 + v) ≤ 1 := by
    rw [div_le_one hP]
    exact haP
  have hua0 : 0 < Real.exp a / (phi ^ 2 + v + Real.exp a) := by positivity
  have hua1 : Real.exp a / (phi ^ 2 + v + Real.exp a) < 1 := by
    rw [div_lt_one (by positivity)]
    linarith
  have huaw : Real.exp a / (phi ^ 2 + v + Real.exp a) ≤ Real.exp a / (phi ^ 2 + v) := by
    apply div_le_div_of_nonneg_left hE.le hP
    linarith
  have hKu : (delta ^ 2 / (2 * (phi ^ 2 + v)) + 1 / 2) *
      (Real.exp a / (phi ^ 2 + v + Real.exp a)) ≤ Real.exp a / (phi ^ 2 + v + Real.exp a) := by
    calc (delta ^ 2 / (2 * (phi ^ 2 + v)) + 1 / 2) * (Real.exp a / (phi ^ 2 + v + Real.exp a))
        ≤ 1 * (Real.exp a / (phi ^ 2 + v + Real.exp a)) :=
          mul_le_mul_of_nonneg_right (by linarith) hua0.le
      _ = Real.exp a / (phi ^ 2 + v + Real.exp a) := one_mul _
  have hKu0 : 0 ≤ (delta ^ 2 / (2 * (phi ^ 2 + v)) + 1 / 2) *
      (Real.exp a / (phi ^ 2 + v + Real.exp a)) := by positivity
  obtain ⟨hfa_neg, _⟩ := fX_at_a_bounds delta phi v a tau hv hdelta
  have hfb : 0 < fX (a - 1 * tau) delta phi v a tau := by
    have h := fX_lower (a - 1 * tau) delta phi v a tau hv
    have e1 : -(1 / 2) - (a - 1 * tau - a) / tau ^ 2 = 1 / tau - 1 / 2 := by
      field_simp
      ring
    have h2 : 1 ≤ 1 / tau := by
      rw [le_div_iff₀ htau]
      linarith
    rw [e1] at h
    linarith
  obtain ⟨r, hr, hr1, hr2, hslope, hα0⟩ := two_steps_root delta phi v a tau hv htau htau1 hdelta
  have hwt0 : 0 ≤ Real.exp a / (phi ^ 2 + v) * tau ^ 2 := by positivity
  have hwt : Real.exp a / (phi ^ 2 + v) * tau ^ 2 ≤ 1 := by
    calc Real.exp a / (phi ^ 2 + v) * tau ^ 2 ≤ 1 * 1 :=
          mul_le_mul hw1 ht2le ht2.le (by norm_num)
      _ = 1 := one_mul _
  by_cases hgt0 : |a - 1 * tau - a| > epsilon
  swap
  · refine ⟨a, ?_, ?_, le_refl _⟩
    · apply illinois_mono delta phi v a tau 0 2 _ _ _ _ a (by norm_num)
      unfold illinois
      rw [if_neg hgt0]
    · linarith only [hwt0]
  obtain ⟨β1, hβ1, hβ1le, hB1, hst⟩ := two_steps_first delta phi v a tau r _
    (Real.exp a / (phi ^ 2 + v)) hv htau hdelta haP hr hr1 hr2
    (by linarith only [hKu0]) (by linarith only [hKu, huaw]) hslope hfa_neg hfb
  have hstep1 : illinois delta phi v a tau 2 a (a - 1 * tau) (fX a delta phi v a tau)
      (fX (a - 1 * tau) delta phi v a tau) =
      illinois delta phi v a tau 1 a (r - 1 * β1) (1 / 2 * fX a delta phi v a tau)
        (fX (r - 1 * β1) delta phi v a tau) := by
    rw [show (2 : Nat) = 1 + 1 from rfl, illinois_step_eq, if_pos hgt0, hst]
  rw [hstep1]
  have hβ1le2 : β1 ≤ (a - r) * 1 := by
    have h1 : (a - r) * (Real.exp a / (phi ^ 2 + v)) * tau ^ 2 =
        (a - r) * (Real.exp a / (phi ^ 2 + v) * tau ^ 2) := by ring
    rw [h1] at hβ1le
    exact le_trans hβ1le (mul_le_mul_of_nonneg_left hwt (by linarith only [hr2]))
  by_cases hgt1 : |r - 1 * β1 - a| > epsilon
  swap
  · refine ⟨a, ?_, ?_, le_refl _⟩
    · apply illinois_mono delta phi v a tau 0 1 _ _ _ _ a (by norm_num)
      unfold illinois
      rw [if_neg hgt1]
    · linarith only [hwt0]
  obtain ⟨β2, hβ2, hβ2le, hst2⟩ := two_steps_second delta phi v a tau r _ β1 htau hr hr2
    (by linarith only [hKu0]) (by linarith only [hKu, hua1, hm1]) hslope hβ1 hB1
  have hβ1sq : 4 * β1 ≤ epsilon := by
    have h1 : (a - r) * (Real.exp a / (phi ^ 2 + v)) * tau ^ 2 ≤
        Real.exp a / (phi ^ 2 + v) * tau ^ 2 / 2 * (Real.exp a / (phi ^ 2 + v)) * tau ^ 2 := by
      apply mul_le_mul_of_nonneg_right _ ht2.le
      exact mul_le_mul_of_nonneg_right hα0 hw0.le
    have h2 : 4 * (Real.exp a / (phi ^ 2 + v) * tau ^ 2 / 2 * (Real.exp a / (phi ^ 2 + v)) *
        tau ^ 2) = 2 * (Real.exp a / (phi ^ 2 + v)) ^ 2 * tau ^ 4 := by ring
    linarith only [h1, h2, hβ1le, hsmall]
  have hexit : ¬ |r + 1 * β2 - (r - 1 * β1)| > epsilon := by
    have e3 : r + 1 * β2 - (r - 1 * β1) = β1 + β2 := by ring
    rw [e3, abs_of_pos (by linarith only [hβ1, hβ2])]
    apply not_lt.mpr
    linarith only [hβ1sq, hβ2le]
  refine ⟨r - 1 * β1, ?_, ?_, ?_⟩
  · rw [show (1 : Nat) = 0 + 1 from rfl, illinois_step_eq, if_pos hgt1, hst2]
    unfold illinois
    rw [if_neg hexit]
  · linarith only [hα0, hβ1le2]
  · linarith only [hβ1, hr2]

/-- With `τ ≤ 1`, `Δ² ≤ φ² + v`, `σ² ≤ φ² + v` and `2·(σ²/(φ² + v))²·τ⁴ ≤ ε`, `sigmaP`
returns with every budget of at least two executions per loop, and the value is between
`σ·(1 - σ²/(φ² + v)·τ²/2)` and `σ`. -/
theorem sigmaP_two_steps (fuel : Nat) (delta sigma phi v tau : ℝ) (hfuel : 2 ≤ fuel)
    (hsigma : 0 < sigma) (hv : 0 < v) (htau : 0 < tau) (htau1 : tau ≤ 1)
    (hdelta : delta ^ 2 ≤ phi ^ 2 + v) (hsP : sigma ^ 2 ≤ phi ^ 2 + v)
    (hsmall : 2 * (sigma ^ 2 / (phi ^ 2 + v)) ^ 2 * tau ^ 4 ≤ epsilon) :
    ∃ s : ℝ, sigmaP fuel delta sigma phi v tau = some s ∧
      sigma * (1 - sigma ^ 2 / (phi ^ 2 + v) * tau ^ 2 / 2) ≤ s ∧ s ≤ sigma := by
  have hexp : Real.exp (Real.log (sigma ^ 2)) = sigma ^ 2 := Real.exp_log (by positivity)
  have hnot : ¬ fX (Real.log (sigma ^ 2) - 1 * tau) delta phi v (Real.log (sigma ^ 2)) tau < 0 :=
    not_lt.mpr (fX_step_nonneg 1 delta phi v _ tau hv htau (by linarith))
  have hs : searchK delta phi v (Real.log (sigma ^ 2)) tau fuel 1 = some 1 := by
    cases fuel with
    | zero => unfold searchK; rw [if_neg hnot]
    | succ fuel => unfold searchK; rw [if_neg hnot]
  have hB : chooseB fuel delta phi v (Real.log (sigma ^ 2)) tau =
      some (Real.log (sigma ^ 2) - 1 * tau) := by
    rw [chooseB_else fuel delta phi v _ tau hdelta, hs]
    rfl
  obtain ⟨A, hA, hlo, hhi⟩ := illinois_two_steps delta phi v (Real.log (sigma ^ 2)) tau hv htau
    htau1 hdelta (by rw [hexp]; exact hsP) (by rw [hexp]; exact hsmall)
  rw [hexp] at hlo
  have hA2 := illinois_mono delta phi v (Real.log (sigma ^ 2)) tau 2 fuel _ _ _ _ A hfuel hA
  refine ⟨Real.exp (A / 2), sigmaP_of_parts fuel delta sigma phi v tau _ A hB hA2, ?_, ?_⟩
  · have h1 : Real.exp (A / 2) =
        sigma * Real.exp ((A - Real.log (sigma ^ 2)) / 2) := by
      rw [← exp_log_sq_half sigma hsigma, ← Real.exp_add, exp_log_sq_half sigma hsigma]
      congr 1
      ring
    rw [h1]
    apply mul_le_mul_of_nonneg_left _ hsigma.le
    have h2 := Real.add_one_le_exp ((A - Real.log (sigma ^ 2)) / 2)
    linarith
  · have h1 : Real.exp (A / 2) ≤ Real.exp (Real.log (sigma ^ 2) / 2) :=
      Real.exp_le_exp.mpr (by linarith)
    rwa [exp_log_sq_half sigma hsigma] at h1

/-- The inputs of `sigmaP` for a player with a single match, opponent factor `gj ≤ 1`,
expected score `E` and outcome `sc` with `(sc - E)² ≤ E·(1 - E)`: `v ≥ 4` and
`(v·Δ_raw)² ≤ v`. -/
theorem one_match_inputs (gj E sc : ℝ) (hg : 0 < gj) (hg1 : gj ≤ 1) (hE : 0 < E)
    (hE1 : E < 1) (hsc : (sc - E) ^ 2 ≤ E * (1 - E)) :
    4 ≤ 1 / (gj * gj * E * (1 - E)) ∧
    (1 / (gj * gj * E * (1 - E)) * (gj * (sc - E))) ^ 2 ≤ 1 / (gj * gj * E * (1 - E)) := by
  have h1 : 0 < 1 - E := by linarith
  have hS : 0 < gj * gj * E * (1 - E) := by positivity
  have hE4 : E * (1 - E) ≤ 1 / 4 := by nlinarith [sq_nonneg (E - 1 / 2)]
  have hgg : gj * gj ≤ 1 := by nlinarith
  constructor
  · rw [le_div_iff₀ hS]
    have : gj * gj * E * (1 - E) = gj * gj * (E * (1 - E)) := by ring
    rw [this]
    have h2 : gj * gj * (E * (1 - E)) ≤ 1 * (1 / 4) :=
      mul_le_mul hgg hE4 (by positivity) (by norm_num)
    linarith
  · have e1 : (1 / (gj * gj * E * (1 - E)) * (gj * (sc - E))) ^ 2 =
        1 / (gj * gj * E * (1 - E)) * ((sc - E) ^ 2 / (E * (1 - E))) := by
      field_simp
      ring
    rw [e1]
    have h3 : (sc - E) ^ 2 / (E * (1 - E)) ≤ 1 := by
      rw [div_le_one (by positivity)]
      exact hsc
    calc 1 / (gj * gj * E * (1 - E)) * ((sc - E) ^ 2 / (E * (1 - E)))
        ≤ 1 / (gj * gj * E * (1 - E)) * 1 :=
          mul_le_mul_of_nonneg_left h3 (by positivity)
      _ = 1 / (gj * gj * E * (1 - E)) := mul_one _

theorem g_le_one (phiJ : ℝ) : g phiJ ≤ 1 := by
  unfold g
  rw [div_le_one (Real.sqrt_pos.mpr (by positivity))]
  rw [Real.one_le_sqrt]
  have : 0 ≤ 3 * phiJ ^ 2 / Real.pi ^ 2 := by positivity
  linarith

theorem e_le_half (mu muJ phiJ : ℝ) (h : mu ≤ muJ) : e mu muJ phiJ ≤ 1 / 2 := by
  unfold e
  have hg := g_pos phiJ
  have h1 : 1 ≤ Real.exp (-g phiJ * (mu - muJ)) := by
    apply Real.one_le_exp
    nlinarith
  rw [div_le_div_iff₀ (by linarith) (by norm_num)]
  linarith

theorem half_le_e (mu muJ phiJ : ℝ) (h : muJ ≤ mu) : 1 / 2 ≤ e mu muJ phiJ := by
  unfold e
  have hg := g_pos phiJ
  have h0 := Real.exp_pos (-g phiJ * (mu - muJ))
  have h1 : Real.exp (-g phiJ * (mu - muJ)) ≤ 1 := by
    rw [← Real.exp_zero]
    apply Real.exp_le_exp.mpr
    nlinarith
  rw [div_le_div_iff₀ (by norm_num) (by linarith)]
  linarith

/-! ## The worked example -/

theorem worked_players : worked.1.players = [0, 1, 2, 3] := by
  simp [worked, runCalls, Call.apply, RatingPeriod.AddMatch, RatingPeriod.AddPlayer,
    NewRatingPeriod]

theorem worked_tau : worked.1.tau = 1 / 2 := by
  simp [worked, runCalls, Call.apply, RatingPeriod.AddMatch, RatingPeriod.AddPlayer,
    NewRatingPeriod]

theorem worked_player0 :
    worked.2 0 =
      { pre := { mu := 0, phi := 1.1513, sigma := 0.06 },
        post := { mu := 0, phi := 1.1513, sigma := 0.06 },
        matches_ := [{ player1 := 0, player2 := 1, score := MatchResult.WIN },
          { player1 := 0, player2 := 2, score := MatchResult.LOSS },
          { player1 := 0, player2 := 3, score := MatchResult.LOSS }] } := by
  simp [worked, runCalls, Call.apply, RatingPeriod.AddMatch, Player.addMatch, workedHeap,
    Function.update]

theorem worked_player1 :
    worked.2 1 =
      { pre := { mu := -0.5756, phi := 0.1727, sigma := 0.06 },
        post := { mu := -0.5756, phi := 0.1727, sigma := 0.06 },
        matches_ := [{ player1 := 0, player2 := 1, score := MatchResult.WIN }] } := by
  simp [worked, runCalls, Call.apply, RatingPeriod.AddMatch, Player.addMatch, workedHeap,
    Function.update]

theorem worked_player2 :
    worked.2 2 =
      { pre := { mu := 0.2878, phi := 0.2398, sigma := 0.06 },
        post := { mu := 0.2878, phi := 0.2398, sigma := 0.06 },
        matches_ := [{ player1 := 0, player2 := 2, score := MatchResult.LOSS }] } := by
  simp [worked, runCalls, Call.apply, RatingPeriod.AddMatch, Player.addMatch, workedHeap,
    Function.update]

theorem worked_player3 :
    worked.2 3 =
      { pre := { mu := 1.1513, phi := 0.1727, sigma := 0.06 },
        post := { mu := 1.1513, phi := 0.1727, sigma := 0.06 },
        matches_ := [{ player1 := 0, player2 := 3, score := MatchResult.LOSS }] } := by
  simp [worked, runCalls, Call.apply, RatingPeriod.AddMatch, Player.addMatch, workedHeap,
    Function.update]

/-- A player with a single match whose outcome `sc` and expected score `E` satisfy
`(sc - E)² ≤ E·(1 - E)`, with volatility `σ`, `0 < σ`, `σ² ≤ 4` and
`2·(σ²/4)²·τ⁴ ≤ ε`, `0 < τ ≤ 1`: the loop body of `Calculate` writes a post state for
the player with every budget of at least two executions per loop. -/
theorem postState_single_match (fuel : Nat) (tau : ℝ) (heap : Heap) (player : PlayerRef)
    (m : Match) (hfuel : 2 ≤ fuel) (htau : 0 < tau) (htau1 : tau ≤ 1)
    (hm : (heap player).matches_ = [m])
    (hsigma : 0 < (heap player).pre.sigma) (hsigma4 : (heap player).pre.sigma ^ 2 ≤ 4)
    (hsmall : 2 * ((heap player).pre.sigma ^ 2 / 4) ^ 2 * tau ^ 4 ≤ epsilon)
    (hsc : ((m.resultFor player).toReal -
        e (heap player).pre.mu (heap (m.opponentFor player)).pre.mu
          (heap (m.opponentFor player)).pre.phi) ^ 2 ≤
      e (heap player).pre.mu (heap (m.opponentFor player)).pre.mu
          (heap (m.opponentFor player)).pre.phi *
        (1 - e (heap player).pre.mu (heap (m.opponentFor player)).pre.mu
          (heap (m.opponentFor player)).pre.phi)) :
    ∃ r, postState fuel tau heap player = some r := by
  have hne : (heap player).matches_ ≠ [] := by rw [hm]; simp
  have hv := v_pos heap player hne
  have hin := one_match_inputs (g (heap (m.opponentFor player)).pre.phi)
    (e (heap player).pre.mu (heap (m.opponentFor player)).pre.mu
      (heap (m.opponentFor player)).pre.phi) (m.resultFor player).toReal
    (g_pos _) (g_le_one _) (e_pos _ _ _) (e_lt_one _ _ _) hsc
  have hveq : v heap player =
      1 / (g (heap (m.opponentFor player)).pre.phi * g (heap (m.opponentFor player)).pre.phi *
        e (heap player).pre.mu (heap (m.opponentFor player)).pre.mu
          (heap (m.opponentFor player)).pre.phi *
        (1 - e (heap player).pre.mu (heap (m.opponentFor player)).pre.mu
          (heap (m.opponentFor player)).pre.phi)) := by
    rw [v_eq_sum, hm]
    simp only [List.map_cons, List.map_nil, List.sum_cons, List.sum_nil, add_zero]
  have hdeq : delta heap player =
      g (heap (m.opponentFor player)).pre.phi * ((m.resultFor player).toReal -
        e (heap player).pre.mu (heap (m.opponentFor player)).pre.mu
          (heap (m.opponentFor player)).pre.phi) := by
    rw [delta_eq_sum, hm]
    simp only [List.map_cons, List.map_nil, List.sum_cons, List.sum_nil, add_zero]
  rw [← hveq, ← hdeq] at hin
  obtain ⟨hv4, hvd⟩ := hin
  have hphi2 : 0 ≤ (heap player).pre.phi ^ 2 := sq_nonneg _
  have hs2 : 0 ≤ (heap player).pre.sigma ^ 2 := sq_nonneg _
  have hP : 0 < (heap player).pre.phi ^ 2 + v heap player := by linarith
  have hw : (heap player).pre.sigma ^ 2 / ((heap player).pre.phi ^ 2 + v heap player) ≤
      (heap player).pre.sigma ^ 2 / 4 :=
    div_le_div_of_nonneg_left hs2 (by norm_num) (by linarith)
  have hw0 : 0 ≤ (heap player).pre.sigma ^ 2 / ((heap player).pre.phi ^ 2 + v heap player) :=
    div_nonneg hs2 hP.le
  have hw2 : ((heap player).pre.sigma ^ 2 / ((heap player).pre.phi ^ 2 + v heap player)) ^ 2 ≤
      ((heap player).pre.sigma ^ 2 / 4) ^ 2 := pow_le_pow_left₀ hw0 hw 2
  have ht4 : 0 ≤ tau ^ 4 := by positivity
  have hsm : 2 * ((heap player).pre.sigma ^ 2 /
      ((heap player).pre.phi ^ 2 + v heap player)) ^ 2 * tau ^ 4 ≤ epsilon := by
    refine le_trans ?_ hsmall
    apply mul_le_mul_of_nonneg_right _ ht4
    linarith
  obtain ⟨s, hs, _, _⟩ := sigmaP_two_steps fuel (v heap player * delta heap player)
    (heap player).pre.sigma (heap player).pre.phi (v heap player) tau hfuel hsigma hv htau htau1
    (by linarith) (by linarith) hsm
  unfold postState
  rw [if_pos (List.length_pos.mpr hne), hs]
  exact ⟨_, rfl⟩

theorem worked_postState1 (fuel : Nat) (hfuel : 2 ≤ fuel) :
    ∃ r, postState fuel (1 / 2) worked.2 1 = some r := by
  apply postState_single_match fuel (1 / 2) worked.2 1
    { player1 := 0, player2 := 1, score := MatchResult.WIN } hfuel (by norm_num) (by norm_num)
    (by rw [worked_player1])
  · rw [worked_player1]; norm_num
  · rw [worked_player1]; norm_num
  · rw [worked_player1]; unfold epsilon; norm_num
  · have hif : (if (0 : PlayerRef) = 1 then (1 : PlayerRef) else 0) = 0 := by decide
    simp only [Match.opponentFor, Match.resultFor, hif, zero_ne_one, if_false,
      MatchResult.flip, MatchResult.toReal, worked_player0, worked_player1]
    have h1 := e_le_half (-0.5756) 0 1.1513 (by norm_num)
    have h0 := e_pos (-0.5756) 0 1.1513
    nlinarith

theorem worked_postState2 (fuel : Nat) (hfuel : 2 ≤ fuel) :
    ∃ r, postState fuel (1 / 2) worked.2 2 = some r := by
  apply postState_single_match fuel (1 / 2) worked.2 2
    { player1 := 0, player2 := 2, score := MatchResult.LOSS } hfuel (by norm_num) (by norm_num)
    (by rw [worked_player2])
  · rw [worked_player2]; norm_num
  · rw [worked_player2]; norm_num
  · rw [worked_player2]; unfold epsilon; norm_num
  · have hif : (if (0 : PlayerRef) = 2 then (2 : PlayerRef) else 0) = 0 := by decide
    have hne : ¬ (0 : PlayerRef) = 2 := by decide
    simp only [Match.opponentFor, Match.resultFor, hif, hne, if_false,
      MatchResult.flip, MatchResult.toReal, worked_player0, worked_player2]
    have h1 := half_le_e 0.2878 0 1.1513 (by norm_num)
    have h0 := e_lt_one 0.2878 0 1.1513
    nlinarith

theorem worked_postState3 (fuel : Nat) (hfuel : 2 ≤ fuel) :
    ∃ r, postState fuel (1 / 2) worked.2 3 = some r := by
  apply postState_single_match fuel (1 / 2) worked.2 3
    { player1 := 0, player2 := 3, score := MatchResult.LOSS } hfuel (by norm_num) (by norm_num)
    (by rw [worked_player3])
  · rw [worked_player3]; norm_num
  · rw [worked_player3]; norm_num
  · rw [worked_player3]; unfold epsilon; norm_num
  · have hif : (if (0 : PlayerRef) = 3 then (3 : PlayerRef) else 0) = 0 := by decide
    have hne : ¬ (0 : PlayerRef) = 3 := by decide
    simp only [Match.opponentFor, Match.resultFor, hif, hne, if_false,
      MatchResult.flip, MatchResult.toReal, worked_player0, worked_player3]
    have h1 := half_le_e 1.1513 0 1.1513 (by norm_num)
    have h0 := e_lt_one 1.1513 0 1.1513
    nlinarith

/-! ## The worked example: numeric bounds -/

theorem pi_sq_bounds : 9.8696 ≤ Real.pi ^ 2 ∧ Real.pi ^ 2 ≤ 9.8697 := by
  have h1 := Real.pi_gt_d6
  have h2 := Real.pi_lt_d6
  constructor
  · nlinarith
  · nlinarith

theorem g_bounds (phiJ lo hi : ℝ) (hhi : 0 ≤ hi)
    (h1 : lo ^ 2 * (9.8696 + 3 * phiJ ^ 2) ≤ 9.8696)
    (h2 : 9.8697 ≤ hi ^ 2 * (9.8697 + 3 * phiJ ^ 2)) :
    lo ≤ g phiJ ∧ g phiJ ≤ hi := by
  obtain ⟨hp1, hp2⟩ := pi_sq_bounds
  have hpi : 0 < Real.pi ^ 2 := by positivity
  have hg := g_pos phiJ
  have hphi : 0 ≤ 3 * phiJ ^ 2 := by positivity
  have hgsq : g phiJ ^ 2 * (Real.pi ^ 2 + 3 * phiJ ^ 2) = Real.pi ^ 2 := by
    unfold g
    rw [div_pow, Real.sq_sqrt (by positivity)]
    field_simp
  have hlo2 : 0 ≤ lo ^ 2 := sq_nonneg lo
  have hhi2 : 0 ≤ hi ^ 2 := sq_nonneg hi
  constructor
  · apply le_of_pow_le_pow_left₀ (by norm_num : (2 : ℕ) ≠ 0) hg.le
    have h3 : lo ^ 2 * (Real.pi ^ 2 + 3 * phiJ ^ 2) ≤ g phiJ ^ 2 * (Real.pi ^ 2 + 3 * phiJ ^ 2) := by
      rw [hgsq]
      have h4 : lo ^ 2 ≤ 1 := by
        by_contra hc
        push_neg at hc
        nlinarith
      nlinarith
    exact le_of_mul_le_mul_right h3 (by positivity)
  · apply le_of_pow_le_pow_left₀ (by norm_num : (2 : ℕ) ≠ 0) hhi
    have h3 : g phiJ ^ 2 * (Real.pi ^ 2 + 3 * phiJ ^ 2) ≤ hi ^ 2 * (Real.pi ^ 2 + 3 * phiJ ^ 2) := by
      rw [hgsq]
      have h4 : hi ^ 2 ≤ 1 ∨ 1 < hi ^ 2 := le_or_lt _ _
      rcases h4 with h4 | h4
      · nlinarith
      · nlinarith
    exact le_of_mul_le_mul_right h3 (by positivity)

theorem g_worked_13 : 0.9954 ≤ g 0.1727 ∧ g 0.1727 ≤ 0.9955 :=
  g_bounds 0.1727 0.9954 0.9955 (by norm_num) (by norm_num) (by norm_num)

theorem g_worked_2 : 0.9913 ≤ g 0.2398 ∧ g 0.2398 ≤ 0.9914 :=
  g_bounds 0.2398 0.9913 0.9914 (by norm_num) (by norm_num) (by norm_num)

theorem exp_taylor_bounds (x : ℝ) (h0 : 0 ≤ x) (h1 : x ≤ 1) :
    1 + x + x ^ 2 / 2 + x ^ 3 / 6 + x ^ 4 / 24 + x ^ 5 / 120 + x ^ 6 / 720 ≤ Real.exp x ∧
    Real.exp x ≤ 1 + x + x ^ 2 / 2 + x ^ 3 / 6 + x ^ 4 / 24 + x ^ 5 / 120 + x ^ 6 / 720 +
      x ^ 7 * 8 / 35280 := by
  constructor
  · have h := Real.sum_le_exp_of_nonneg h0 7
    simp only [Finset.sum_range_succ, Finset.sum_range_zero, Nat.factorial] at h
    norm_num at h
    linarith
  · have h := Real.exp_bound' h0 h1 (by norm_num : 0 < 7)
    simp only [Finset.sum_range_succ, Finset.sum_range_zero, Nat.factorial] at h
    norm_num at h
    linarith

theorem exp_worked_values :
    1.77339 ≤ Real.exp 0.5729 ∧ Real.exp 0.5731 ≤ 1.77376 ∧ 1.77357 ≤ Real.exp 0.5730 ∧
    1.33002 ≤ Real.exp 0.2852 ∧ Real.exp 0.2854 ≤ 1.33030 := by
  refine ⟨?_, ?_, ?_, ?_, ?_⟩
  · have h := (exp_taylor_bounds 0.5729 (by norm_num) (by norm_num)).1
    norm_num at h ⊢
    linarith
  · have h := (exp_taylor_bounds 0.5731 (by norm_num) (by norm_num)).2
    norm_num at h ⊢
    linarith
  · have h := (exp_taylor_bounds 0.5730 (by norm_num) (by norm_num)).1
    norm_num at h ⊢
    linarith
  · have h := (exp_taylor_bounds 0.2852 (by norm_num) (by norm_num)).1
    norm_num at h ⊢
    linarith
  · have h := (exp_taylor_bounds 0.2854 (by norm_num) (by norm_num)).2
    norm_num at h ⊢
    linarith

theorem e_worked_1 : 0.6394 ≤ e 0 (-0.5756) 0.1727 ∧ e 0 (-0.5756) 0.1727 ≤ 0.6395 := by
  obtain ⟨hg1, hg2⟩ := g_worked_13
  obtain ⟨hx1, hx2, _, _, _⟩ := exp_worked_values
  have hlo : 1 / 1.77376 ≤ Real.exp (-g 0.1727 * (0 - -0.5756)) := by
    have h1 : Real.exp (-0.5731) ≤ Real.exp (-g 0.1727 * (0 - -0.5756)) :=
      Real.exp_le_exp.mpr (by linarith)
    have h2 : Real.exp (-0.5731) = 1 / Real.exp 0.5731 := by
      rw [Real.exp_neg, one_div]
    rw [h2] at h1
    refine le_trans ?_ h1
    exact one_div_le_one_div_of_le (Real.exp_pos _) hx2
  have hhi : Real.exp (-g 0.1727 * (0 - -0.5756)) ≤ 1 / 1.77339 := by
    have h1 : Real.exp (-g 0.1727 * (0 - -0.5756)) ≤ Real.exp (-0.5729) :=
      Real.exp_le_exp.mpr (by linarith)
    have h2 : Real.exp (-0.5729) = 1 / Real.exp 0.5729 := by
      rw [Real.exp_neg, one_div]
    rw [h2] at h1
    refine le_trans h1 ?_
    exact one_div_le_one_div_of_le (by norm_num) hx1
  have hpos := Real.exp_pos (-g 0.1727 * (0 - -0.5756))
  unfold e
  constructor
  · rw [le_div_iff₀ (by linarith)]
    norm_num at hhi ⊢
    linarith
  · rw [div_le_iff₀ (by linarith)]
    norm_num at hlo ⊢
    linarith

theorem e_worked_2 : 0.4291 ≤ e 0 0.2878 0.2398 ∧ e 0 0.2878 0.2398 ≤ 0.4292 := by
  obtain ⟨hg1, hg2⟩ := g_worked_2
  obtain ⟨_, _, _, hx1, hx2⟩ := exp_worked_values
  have hlo : 1.33002 ≤ Real.exp (-g 0.2398 * (0 - 0.2878)) :=
    le_trans hx1 (Real.exp_le_exp.mpr (by linarith))
  have hhi : Real.exp (-g 0.2398 * (0 - 0.2878)) ≤ 1.33030 :=
    le_trans (Real.exp_le_exp.mpr (by linarith)) hx2
  unfold e
  constructor
  · rw [le_div_iff₀ (by linarith)]
    linarith
  · rw [div_le_iff₀ (by linarith)]
    linarith

theorem e_worked_3 : 0.2411 ≤ e 0 1.1513 0.1727 ∧ e 0 1.1513 0.1727 ≤ 0.2413 := by
  obtain ⟨hg1, hg2⟩ := g_worked_13
  obtain ⟨_, hx2, hx3, _, _⟩ := exp_worked_values
  have hlo : 1.77357 ^ 2 ≤ Real.exp (-g 0.1727 * (0 - 1.1513)) := by
    have h1 : Real.exp (0.5730 + 0.5730) ≤ Real.exp (-g 0.1727 * (0 - 1.1513)) :=
      Real.exp_le_exp.mpr (by linarith)
    rw [Real.exp_add] at h1
    refine le_trans ?_ h1
    rw [sq]
    exact mul_le_mul hx3 hx3 (by norm_num) (Real.exp_pos _).le
  have hhi : Real.exp (-g 0.1727 * (0 - 1.1513)) ≤ 1.77376 ^ 2 := by
    have h1 : Real.exp (-g 0.1727 * (0 - 1.1513)) ≤ Real.exp (0.5731 + 0.5731) :=
      Real.exp_le_exp.mpr (by linarith)
    rw [Real.exp_add] at h1
    refine le_trans h1 ?_
    rw [sq]
    exact mul_le_mul hx2 hx2 (Real.exp_pos _).le (by norm_num)
  have hpos := Real.exp_pos (-g 0.1727 * (0 - 1.1513))
  unfold e
  constructor
  · rw [le_div_iff₀ (by linarith)]
    norm_num at hhi ⊢
    linarith
  · rw [div_le_iff₀ (by linarith)]
    norm_num at hlo ⊢
    linarith

theorem mul_between (x y xl xh yl yh : ℝ) (hxl : 0 ≤ xl) (hyl : 0 ≤ yl)
    (hx1 : xl ≤ x) (hx2 : x ≤ xh) (hy1 : yl ≤ y) (hy2 : y ≤ yh) :
    xl * yl ≤ x * y ∧ x * y ≤ xh * yh :=
  ⟨mul_le_mul hx1 hy1 hyl (le_trans hxl hx1),
    mul_le_mul hx2 hy2 (le_trans hyl hy1) (le_trans hxl (le_trans hx1 hx2))⟩

theorem mul_one_sub_above_half (E l h : ℝ) (hl : 1 / 2 ≤ l) (h1 : l ≤ E) (h2 : E ≤ h) :
    h * (1 - h) ≤ E * (1 - E) ∧ E * (1 - E) ≤ l * (1 - l) := by
  constructor
  · nlinarith [mul_nonneg (sub_nonneg.mpr h2) (by linarith : 0 ≤ E + h - 1)]
  · nlinarith [mul_nonneg (sub_nonneg.mpr h1) (by linarith : 0 ≤ E + l - 1)]

theorem mul_one_sub_below_half (E l h : ℝ) (hh : h ≤ 1 / 2) (h1 : l ≤ E) (h2 : E ≤ h) :
    l * (1 - l) ≤ E * (1 - E) ∧ E * (1 - E) ≤ h * (1 - h) := by
  constructor
  · nlinarith [mul_nonneg (sub_nonneg.mpr h1) (by linarith : 0 ≤ 1 - E - l)]
  · nlinarith [mul_nonneg (sub_nonneg.mpr h2) (by linarith : 0 ≤ 1 - E - h)]

theorem worked_v0_eq :
    v worked.2 0 =
      1 / (g 0.1727 * g 0.1727 * e 0 (-0.5756) 0.1727 * (1 - e 0 (-0.5756) 0.1727) +
        (g 0.2398 * g 0.2398 * e 0 0.2878 0.2398 * (1 - e 0 0.2878 0.2398) +
          (g 0.1727 * g 0.1727 * e 0 1.1513 0.1727 * (1 - e 0 1.1513 0.1727) + 0))) := by
  rw [v_eq_sum, worked_player0]
  simp only [List.map_cons, List.map_nil, List.sum_cons, List.sum_nil, Match.opponentFor,
    if_true, worked_player1, worked_player2, worked_player3]

theorem worked_delta0_eq :
    delta worked.2 0 =
      g 0.1727 * (1 - e 0 (-0.5756) 0.1727) +
        (g 0.2398 * (0 - e 0 0.2878 0.2398) +
          (g 0.1727 * (0 - e 0 1.1513 0.1727) + 0)) := by
  rw [delta_eq_sum, worked_player0]
  simp only [List.map_cons, List.map_nil, List.sum_cons, List.sum_nil, Match.opponentFor,
    Match.resultFor, MatchResult.toReal, if_true, worked_player1, worked_player2,
    worked_player3]

/-- The estimated variance of player 0 of the worked example is `1/S` with
`0.6504 ≤ S ≤ 0.6508`. -/
theorem worked_v0_bounds :
    ∃ S : ℝ, v worked.2 0 = 1 / S ∧ 0.6504 ≤ S ∧ S ≤ 0.6508 := by
  obtain ⟨hg1, hg2⟩ := g_worked_13
  obtain ⟨hk1, hk2⟩ := g_worked_2
  obtain ⟨ha1, ha2⟩ := e_worked_1
  obtain ⟨hb1, hb2⟩ := e_worked_2
  obtain ⟨hc1, hc2⟩ := e_worked_3
  obtain ⟨hgg1, hgg2⟩ := mul_between (g 0.1727) (g 0.1727) 0.9954 0.9955 0.9954 0.9955
    (by norm_num) (by norm_num) hg1 hg2 hg1 hg2
  obtain ⟨hkk1, hkk2⟩ := mul_between (g 0.2398) (g 0.2398) 0.9913 0.9914 0.9913 0.9914
    (by norm_num) (by norm_num) hk1 hk2 hk1 hk2
  obtain ⟨hA1, hA2⟩ := mul_one_sub_above_half _ 0.6394 0.6395 (by norm_num) ha1 ha2
  obtain ⟨hB1, hB2⟩ := mul_one_sub_below_half _ 0.4291 0.4292 (by norm_num) hb1 hb2
  obtain ⟨hC1, hC2⟩ := mul_one_sub_below_half _ 0.2411 0.2413 (by norm_num) hc1 hc2
  obtain ⟨ht1, ht2⟩ := mul_between (g 0.1727 * g 0.1727)
    (e 0 (-0.5756) 0.1727 * (1 - e 0 (-0.5756) 0.1727)) _ _ _ _
    (by norm_num) (by norm_num) hgg1 hgg2 hA1 hA2
  obtain ⟨hu1, hu2⟩ := mul_between (g 0.2398 * g 0.2398)
    (e 0 0.2878 0.2398 * (1 - e 0 0.2878 0.2398)) _ _ _ _
    (by norm_num) (by norm_num) hkk1 hkk2 hB1 hB2
  obtain ⟨hw1, hw2⟩ := mul_between (g 0.1727 * g 0.1727)
    (e 0 1.1513 0.1727 * (1 - e 0 1.1513 0.1727)) _ _ _ _
    (by norm_num) (by norm_num) hgg1 hgg2 hC1 hC2
  refine ⟨_, worked_v0_eq, ?_, ?_⟩
  · have e1 : g 0.1727 * g 0.1727 * e 0 (-0.5756) 0.1727 * (1 - e 0 (-0.5756) 0.1727) =
        g 0.1727 * g 0.1727 * (e 0 (-0.5756) 0.1727 * (1 - e 0 (-0.5756) 0.1727)) := by ring
    have e2 : g 0.2398 * g 0.2398 * e 0 0.2878 0.2398 * (1 - e 0 0.2878 0.2398) =
        g 0.2398 * g 0.2398 * (e 0 0.2878 0.2398 * (1 - e 0 0.2878 0.2398)) := by ring
    have e3 : g 0.1727 * g 0.1727 * e 0 1.1513 0.1727 * (1 - e 0 1.1513 0.1727) =
        g 0.1727 * g 0.1727 * (e 0 1.1513 0.1727 * (1 - e 0 1.1513 0.1727)) := by ring
    rw [e1, e2, e3]
    norm_num at ht1 hu1 hw1 ⊢
    linarith
  · have e1 : g 0.1727 * g 0.1727 * e 0 (-0.5756) 0.1727 * (1 - e 0 (-0.5756) 0.1727) =
        g 0.1727 * g 0.1727 * (e 0 (-0.5756) 0.1727 * (1 - e 0 (-0.5756) 0.1727)) := by ring
    have e2 : g 0.2398 * g 0.2398 * e 0 0.2878 0.2398 * (1 - e 0 0.2878 0.2398) =
        g 0.2398 * g 0.2398 * (e 0 0.2878 0.2398 * (1 - e 0 0.2878 0.2398)) := by ring
    have e3 : g 0.1727 * g 0.1727 * e 0 1.1513 0.1727 * (1 - e 0 1.1513 0.1727) =
        g 0.1727 * g 0.1727 * (e 0 1.1513 0.1727 * (1 - e 0 1.1513 0.1727)) := by ring
    rw [e1, e2, e3]
    norm_num at ht2 hu2 hw2 ⊢
    linarith

/-- The outcome sum of player 0 of the worked example is between -0.3069 and -0.3063. -/
theorem worked_delta0_bounds :
    -0.3069 ≤ delta worked.2 0 ∧ delta worked.2 0 ≤ -0.3063 := by
  obtain ⟨hg1, hg2⟩ := g_worked_13
  obtain ⟨hk1, hk2⟩ := g_worked_2
  obtain ⟨ha1, ha2⟩ := e_worked_1
  obtain ⟨hb1, hb2⟩ := e_worked_2
  obtain ⟨hc1, hc2⟩ := e_worked_3
  obtain ⟨ht1, ht2⟩ := mul_between (g 0.1727) (1 - e 0 (-0.5756) 0.1727) 0.9954 0.9955
    (1 - 0.6395) (1 - 0.6394) (by norm_num) (by norm_num) hg1 hg2 (by linarith) (by linarith)
  obtain ⟨hu1, hu2⟩ := mul_between (g 0.2398) (e 0 0.2878 0.2398) 0.9913 0.9914
    0.4291 0.4292 (by norm_num) (by norm_num) hk1 hk2 hb1 hb2
  obtain ⟨hw1, hw2⟩ := mul_between (g 0.1727) (e 0 1.1513 0.1727) 0.9954 0.9955
    0.2411 0.2413 (by norm_num) (by norm_num) hg1 hg2 hc1 hc2
  have e2 : g 0.2398 * (0 - e 0 0.2878 0.2398) = -(g 0.2398 * e 0 0.2878 0.2398) := by ring
  have e3 : g 0.1727 * (0 - e 0 1.1513 0.1727) = -(g 0.1727 * e 0 1.1513 0.1727) := by ring
  rw [worked_delta0_eq, e2, e3]
  constructor
  · norm_num at ht1 hu2 hw2 ⊢
    linarith
  · norm_num at ht2 hu1 hw1 ⊢
    linarith

/-- The volatility step on the numbers of the worked example: with `τ = 0.5`, pre
deviation 1.1513, pre volatility 0.06, an estimated variance `vv` in [1.5365, 1.5376]
and an outcome sum `dd` in [-0.3069, -0.3063], `sigmaP` returns with every budget of at
least two executions per loop, and the new volatility is in [0.0599, 0.06]. -/
theorem worked_sigma (fuel : Nat) (vv dd : ℝ) (hfuel : 2 ≤ fuel)
    (hv1 : 1.5365 ≤ vv) (hv2 : vv ≤ 1.5376) (hd1 : -0.3069 ≤ dd) (hd2 : dd ≤ -0.3063) :
    ∃ s, sigmaP fuel (vv * dd) 0.06 1.1513 vv (1 / 2) = some s ∧ 0.0599 ≤ s ∧ s ≤ 0.06 := by
  have hv : 0 < vv := by linarith only [hv1]
  obtain ⟨_, hx2⟩ := mul_between vv (-dd) 1.5365 1.5376 0.3063
    0.3069 (by norm_num) (by norm_num) hv1 hv2 (by linarith only [hd2])
    (by linarith only [hd1])
  have hx0 : 0 ≤ vv * -dd := mul_nonneg hv.le (by linarith only [hd2])
  have hvd : (vv * dd) ^ 2 ≤ 1 := by
    have e1 : (vv * dd) ^ 2 = (vv * -dd) ^ 2 := by ring
    rw [e1]
    have h1 : (vv * -dd) ^ 2 ≤ (1.5376 * 0.3069) ^ 2 := pow_le_pow_left₀ hx0 hx2 2
    refine le_trans h1 ?_
    norm_num
  have hphi2 : (1 : ℝ) ≤ 1.1513 ^ 2 := by norm_num
  have hP2 : (2 : ℝ) ≤ 1.1513 ^ 2 + vv := by linarith only [hphi2, hv1]
  have hs2 : (0.06 : ℝ) ^ 2 = 0.0036 := by norm_num
  have hw0 : (0 : ℝ) ≤ 0.06 ^ 2 / (1.1513 ^ 2 + vv) :=
    div_nonneg (by norm_num) (by linarith only [hP2])
  have hw1 : (0.06 : ℝ) ^ 2 / (1.1513 ^ 2 + vv) ≤ 0.0018 := by
    rw [div_le_iff₀ (by linarith only [hP2]), hs2]
    linarith only [hP2]
  have hw2 : ((0.06 : ℝ) ^ 2 / (1.1513 ^ 2 + vv)) ^ 2 ≤ 0.0018 ^ 2 :=
    pow_le_pow_left₀ hw0 hw1 2
  have hsmall : 2 * ((0.06 : ℝ) ^ 2 / (1.1513 ^ 2 + vv)) ^ 2 * (1 / 2) ^ 4 ≤ epsilon := by
    unfold epsilon
    have h1 : (0.0018 : ℝ) ^ 2 ≤ 0.000004 := by norm_num
    have h2 : ((1 : ℝ) / 2) ^ 4 = 1 / 16 := by norm_num
    rw [h2]
    have h3 : (0.000001 : ℝ) = 2 * 0.000008 * (1 / 16) := by norm_num
    rw [h3]
    apply mul_le_mul_of_nonneg_right _ (by norm_num)
    linarith only [h1, hw2]
  obtain ⟨s, hs, hs1, hs3⟩ := sigmaP_two_steps fuel (vv * dd) 0.06 1.1513 vv (1 / 2) hfuel
    (by norm_num) hv (by norm_num) (by norm_num) (by linarith only [hvd, hP2])
    (by linarith only [hs2, hP2]) hsmall
  refine ⟨s, hs, ?_, hs3⟩
  refine le_trans ?_ hs1
  have h1 : (0.06 : ℝ) * (1 - 0.0018 * (1 / 2) ^ 2 / 2) ≤
      0.06 * (1 - 0.06 ^ 2 / (1.1513 ^ 2 + vv) * (1 / 2) ^ 2 / 2) := by
    apply mul_le_mul_of_nonneg_left _ (by norm_num)
    have h2 : ((1 : ℝ) / 2) ^ 2 = 1 / 4 := by norm_num
    rw [h2]
    linarith only [hw1]
  refine le_trans ?_ h1
  norm_num

/-- The deviation step on the numbers of the worked example: pre deviation 1.1513, new
volatility `s` in [0.0599, 0.06], estimated variance `vv` in [1.5365, 1.5376] give a new
deviation whose square is in [0.844², 0.845²]. -/
theorem worked_phi_sq (vv s : ℝ) (hv1 : 1.5365 ≤ vv) (hv2 : vv ≤ 1.5376)
    (hs1 : 0.0599 ≤ s) (hs2 : s ≤ 0.06) :
    0 < phiP (phiA 1.1513 s) vv ∧ 0.712336 ≤ phiP (phiA 1.1513 s) vv ^ 2 ∧
      phiP (phiA 1.1513 s) vv ^ 2 ≤ 0.714025 := by
  have hv : 0 < vv := by linarith only [hv1]
  have hs0 : 0 < s := by linarith only [hs1]
  have hQ : phiA 1.1513 s ^ 2 = 1.1513 ^ 2 + s ^ 2 := phiA_sq _ _
  have hss1 : (0.0599 : ℝ) ^ 2 ≤ s ^ 2 := pow_le_pow_left₀ (by norm_num) hs1 2
  have hss2 : s ^ 2 ≤ (0.06 : ℝ) ^ 2 := pow_le_pow_left₀ hs0.le hs2 2
  have hc1 : (1.32907 : ℝ) ≤ 1.1513 ^ 2 + 0.0599 ^ 2 := by norm_num
  have hc2 : (1.1513 : ℝ) ^ 2 + 0.06 ^ 2 ≤ 1.3291 := by norm_num
  have hQ1 : 1.32907 ≤ phiA 1.1513 s ^ 2 := by
    rw [hQ]
    linarith only [hss1, hc1]
  have hQ2 : phiA 1.1513 s ^ 2 ≤ 1.3291 := by
    rw [hQ]
    linarith only [hss2, hc2]
  have hSne : phiA 1.1513 s ≠ 0 := by
    intro h0
    rw [h0] at hQ1
    norm_num at hQ1
  have hPpos := phiP_pos (phiA 1.1513 s) vv hSne hv
  have hPsq := phiP_sq (phiA 1.1513 s) vv hSne hv
  have hden : 0 < vv + phiA 1.1513 s ^ 2 := by linarith only [hv, hQ1]
  have hprod : 0 ≤ (phiA 1.1513 s ^ 2 - 1.32907) * (vv - 1.5365) :=
    mul_nonneg (by linarith only [hQ1]) (by linarith only [hv1])
  have hprod2 : phiA 1.1513 s ^ 2 * vv ≤ 1.3291 * vv :=
    mul_le_mul_of_nonneg_right hQ2 hv.le
  refine ⟨hPpos, ?_, ?_⟩
  · rw [hPsq, le_div_iff₀ hden]
    linarith only [hprod, hQ1, hv1]
  · rw [hPsq, div_le_iff₀ hden]
    linarith only [hprod2, hQ1, hv2]

/-- The last steps of `Calculate` on the numbers of the worked example: the new
deviation is in [0.844, 0.845] and the new rating in [-0.2192, -0.2181]. -/
theorem worked_phi_mu (vv dd s : ℝ) (hv1 : 1.5365 ≤ vv) (hv2 : vv ≤ 1.5376)
    (hd1 : -0.3069 ≤ dd) (hd2 : dd ≤ -0.3063) (hs1 : 0.0599 ≤ s) (hs2 : s ≤ 0.06) :
    -0.2192 ≤ muP 0 (phiP (phiA 1.1513 s) vv) dd ∧
      muP 0 (phiP (phiA 1.1513 s) vv) dd ≤ -0.2181 ∧
      0.844 ≤ phiP (phiA 1.1513 s) vv ∧ phiP (phiA 1.1513 s) vv ≤ 0.845 := by
  obtain ⟨hPpos, hP1, hP2⟩ := worked_phi_sq vv s hv1 hv2 hs1 hs2
  have hc1 : (0.844 : ℝ) ^ 2 = 0.712336 := by norm_num
  have hc2 : (0.845 : ℝ) ^ 2 = 0.714025 := by norm_num
  have hphi1 : 0.844 ≤ phiP (phiA 1.1513 s) vv :=
    le_of_pow_le_pow_left₀ (by norm_num : (2 : ℕ) ≠ 0) hPpos.le (by rw [hc1]; exact hP1)
  have hphi2 : phiP (phiA 1.1513 s) vv ≤ 0.845 :=
    le_of_pow_le_pow_left₀ (by norm_num : (2 : ℕ) ≠ 0) (by norm_num) (by rw [hc2]; exact hP2)
  obtain ⟨hm1, hm2⟩ := mul_between (phiP (phiA 1.1513 s) vv ^ 2)
    (-dd) 0.712336 0.714025 0.3063 0.3069 (by norm_num) (by norm_num)
    hP1 hP2 (by linarith only [hd2]) (by linarith only [hd1])
  have hmu : muP 0 (phiP (phiA 1.1513 s) vv) dd = -(phiP (phiA 1.1513 s) vv ^ 2 * -dd) := by
    unfold muP
    ring
  have hc3 : (0.714025 : ℝ) * 0.3069 ≤ 0.2192 := by norm_num
  have hc4 : (0.2181 : ℝ) ≤ 0.712336 * 0.3063 := by norm_num
  refine ⟨?_, ?_, hphi1, hphi2⟩
  · rw [hmu]
    linarith only [hm2, hc3]
  · rw [hmu]
    linarith only [hm1, hc4]

/-- The post state written for player 0 of the worked example, with every budget of at
least two executions per loop: rating in [-0.2192, -0.2181], deviation in
[0.844, 0.845], volatility in [0.0599, 0.06]. -/
theorem worked_post0 (fuel : Nat) (hfuel : 2 ≤ fuel) :
    ∃ r, postState fuel (1 / 2) worked.2 0 = some r ∧
      -0.2192 ≤ r.mu ∧ r.mu ≤ -0.2181 ∧ 0.844 ≤ r.phi ∧ r.phi ≤ 0.845 ∧
      0.0599 ≤ r.sigma ∧ r.sigma ≤ 0.06 := by
  obtain ⟨S, hvS, hS1, hS2⟩ := worked_v0_bounds
  obtain ⟨hd1, hd2⟩ := worked_delta0_bounds
  have hne : (worked.2 0).matches_ ≠ [] := by rw [worked_player0]; simp
  have hmu : (worked.2 0).pre.mu = 0 := by rw [worked_player0]
  have hphi : (worked.2 0).pre.phi = 1.1513 := by rw [worked_player0]
  have hsigma : (worked.2 0).pre.sigma = 0.06 := by rw [worked_player0]
  have hSpos : (0 : ℝ) < S := by linarith
  have hv1 : 1.5365 ≤ v worked.2 0 := by
    rw [hvS, le_div_iff₀ hSpos]
    linarith
  have hv2 : v worked.2 0 ≤ 1.5376 := by
    rw [hvS, div_le_iff₀ hSpos]
    linarith
  obtain ⟨s, hs, hs1, hs2⟩ := worked_sigma fuel (v worked.2 0) (delta worked.2 0) hfuel
    hv1 hv2 hd1 hd2
  obtain ⟨hb1, hb2, hb3, hb4⟩ := worked_phi_mu (v worked.2 0) (delta worked.2 0) s hv1 hv2
    hd1 hd2 hs1 hs2
  unfold postState
  rw [if_pos (List.length_pos.mpr hne), hmu, hphi, hsigma, hs, Option.map_some']
  exact ⟨_, rfl, hb1, hb2, hb3, hb4, hs1, hs2⟩

theorem postState_unique (fuel1 fuel2 : Nat) (tau : ℝ) (heap : Heap) (player : PlayerRef)
    (r1 r2 : Rating) (h1 : postState fuel1 tau heap player = some r1)
    (h2 : postState fuel2 tau heap player = some r2) : r1 = r2 := by
  unfold postState at h1 h2
  by_cases hlen : (heap player).matches_.length > 0
  · rw [if_pos hlen] at h1 h2
    cases hs1 : sigmaP fuel1 (v heap player * delta heap player) (heap player).pre.sigma
        (heap player).pre.phi (v heap player) tau with
    | none =>
      rw [hs1] at h1
      exact Option.noConfusion h1
    | some s1 =>
      cases hs2 : sigmaP fuel2 (v heap player * delta heap player) (heap player).pre.sigma
          (heap player).pre.phi (v heap player) tau with
      | none =>
        rw [hs2] at h2
        exact Option.noConfusion h2
      | some s2 =>
        have hss := sigmaP_unique fuel1 fuel2 _ _ _ _ _ s1 s2 hs1 hs2
        rw [hs1, Option.map_some', Option.some.injEq] at h1
        rw [hs2, Option.map_some', Option.some.injEq] at h2
        rw [← h1, ← h2, hss]
  · rw [if_neg hlen] at h1 h2
    exact Option.some.inj (h1.symm.trans h2)

/-- `Calculate` on the worked example returns with every budget of at least two
executions per loop, and whenever it returns, the post state of player 0 has rating in
[-0.2192, -0.2181], deviation in [0.844, 0.845] and volatility in [0.0599, 0.06]. -/
theorem worked_Calculate :
    (∀ fuel : Nat, 2 ≤ fuel → ∃ heap1, worked.1.Calculate fuel worked.2 = some heap1) ∧
    ∀ (fuel : Nat) (heap1 : Heap), worked.1.Calculate fuel worked.2 = some heap1 →
      -0.2192 ≤ (heap1 0).post.mu ∧ (heap1 0).post.mu ≤ -0.2181 ∧
      0.844 ≤ (heap1 0).post.phi ∧ (heap1 0).post.phi ≤ 0.845 ∧
      0.0599 ≤ (heap1 0).post.sigma ∧ (heap1 0).post.sigma ≤ 0.06 := by
  constructor
  · intro fuel hfuel
    apply Calculate_isSome
    intro p hp
    rw [worked_players] at hp
    rw [worked_tau]
    have hp4 : p = 0 ∨ p = 1 ∨ p = 2 ∨ p = 3 := by simpa using hp
    rcases hp4 with h | h | h | h
    · subst h
      obtain ⟨r, hr, _⟩ := worked_post0 fuel hfuel
      exact ⟨r, hr⟩
    · subst h
      exact worked_postState1 fuel hfuel
    · subst h
      exact worked_postState2 fuel hfuel
    · subst h
      exact worked_postState3 fuel hfuel
  · intro fuel heap1 h
    obtain ⟨hposts, _, _⟩ := Calculate_some fuel worked.1 worked.2 heap1 h
    obtain ⟨r, hr, hpost⟩ := hposts 0 (by rw [worked_players]; simp)
      (by rw [worked_player0]; simp)
    rw [worked_tau] at hr
    obtain ⟨r2, hr2, hb⟩ := worked_post0 2 (le_refl 2)
    have hrr := postState_unique fuel 2 (1 / 2) worked.2 0 r r2 hr hr2
    rw [hpost, hrr]
    exact hb

/-- C13, counterexample: the worked example as the claim gives it (`τ = 0.5`, player 0
with pre state (0, 1.1513, 0.06) and the matches WIN, LOSS, LOSS against players 1, 2, 3
with rating and deviation (-0.5756, 0.1727), (0.2878, 0.2398), (1.1513, 0.1727)).
`Calculate` returns, and whenever it returns the post deviation of player 0 is at most
0.845 and the post rating at most -0.2181, so the post state is not within 1e-3 of
(-0.2069, 0.8722, 0.05999). -/
theorem C13_counterexample :
    worked.1.tau = 1 / 2 ∧
    worked.2 0 =
      { pre := { mu := 0, phi := 1.1513, sigma := 0.06 },
        post := { mu := 0, phi := 1.1513, sigma := 0.06 },
        matches_ := [{ player1 := 0, player2 := 1, score := MatchResult.WIN },
          { player1 := 0, player2 := 2, score := MatchResult.LOSS },
          { player1 := 0, player2 := 3, score := MatchResult.LOSS }] } ∧
    ((worked.2 1).pre.mu = -0.5756 ∧ (worked.2 1).pre.phi = 0.1727) ∧
    ((worked.2 2).pre.mu = 0.2878 ∧ (worked.2 2).pre.phi = 0.2398) ∧
    ((worked.2 3).pre.mu = 1.1513 ∧ (worked.2 3).pre.phi = 0.1727) ∧
    (∃ heap1, worked.1.Calculate 2 worked.2 = some heap1) ∧
    ∀ (fuel : Nat) (heap1 : Heap), worked.1.Calculate fuel worked.2 = some heap1 →
      (heap1 0).post.mu ≤ -0.2181 ∧ (heap1 0).post.phi ≤ 0.845 ∧
      ¬ (|(heap1 0).post.mu - (-0.2069)| ≤ 0.001 ∧
          |(heap1 0).post.phi - 0.8722| ≤ 0.001 ∧
          |(heap1 0).post.sigma - 0.05999| ≤ 0.001) := by
  refine ⟨worked_tau, worked_player0, ⟨by rw [worked_player1], by rw [worked_player1]⟩,
    ⟨by rw [worked_player2], by rw [worked_player2]⟩,
    ⟨by rw [worked_player3], by rw [worked_player3]⟩, worked_Calculate.1 2 (le_refl 2), ?_⟩
  intro fuel heap1 h
  obtain ⟨_, hmu, _, hphi, _, _⟩ := worked_Calculate.2 fuel heap1 h
  refine ⟨hmu, hphi, ?_⟩
  rintro ⟨_, hclaim, _⟩
  have h1 := (abs_le.mp hclaim).1
  norm_num at h1
  linarith

/-- C13, as the code has it: on the worked example (`τ = 0.5`, a player with pre state
(0, 1.1513, 0.06) and the matches WIN, LOSS, LOSS against opponents with rating and
deviation (-0.5756, 0.1727), (0.2878, 0.2398), (1.1513, 0.1727), the opponents'
volatility taken as 0.06), `Calculate` returns with every budget of at least two
executions per loop, and whenever it returns the post state of the player is within
1e-3 of (rating -0.2186, deviation 0.8442, volatility 0.05999). -/
theorem C13_worked_example :
    (∀ n : Nat, ∃ heap1, worked.1.Calculate (n + 2) worked.2 = some heap1) ∧
    ∀ (fuel : Nat) (heap1 : Heap), worked.1.Calculate fuel worked.2 = some heap1 →
      |(heap1 0).post.mu - (-0.2186)| ≤ 0.001 ∧
      |(heap1 0).post.phi - 0.8442| ≤ 0.001 ∧
      |(heap1 0).post.sigma - 0.05999| ≤ 0.001 := by
  refine ⟨fun n => worked_Calculate.1 (n + 2) (Nat.le_add_left 2 n), ?_⟩
  intro fuel heap1 h
  obtain ⟨h1, h2, h3, h4, h5, h6⟩ := worked_Calculate.2 fuel heap1 h
  refine ⟨abs_le.mpr ⟨?_, ?_⟩, abs_le.mpr ⟨?_, ?_⟩, abs_le.mpr ⟨?_, ?_⟩⟩
  · norm_num at h1 ⊢
    linarith
  · norm_num at h2 ⊢
    linarith
  · norm_num at h3 ⊢
    linarith
  · norm_num at h4 ⊢
    linarith
  · norm_num at h5 ⊢
    linarith
  · norm_num at h6 ⊢
    linarith

/-! ## Players without a match: the touched post state -/

theorem runCalls_nodup (tau : ℝ) (heap0 : Heap) (calls : List Call) :
    (runCalls tau heap0 calls).1.players.Nodup :=
  foldl_apply_nodup calls (NewRatingPeriod tau, heap0) List.nodup_nil

/-- C8, as the code has it: `Calculate` calls `Touch` on the post state. For a period
and heap reached by registration calls, a registered player with no match whose post
state holds a copy of its pre state when `Calculate` is called (volatility `σ > 0`), and
a run of `Calculate` that returns: `post.rating = pre.rating`,
`post.volatility = pre.volatility` and `post.deviation = sqrt(φ² + σ²) > pre.deviation`;
the loop body for that player returns with any budget and any `tau`, writing the touched
post state, so the variance and volatility steps are not run for that player. -/
theorem C8_inactive_player (fuel : Nat) (tau : ℝ) (heap0 : Heap) (calls : List Call)
    (period : RatingPeriod) (heap heap1 : Heap) (player : PlayerRef)
    (hreg : runCalls tau heap0 calls = (period, heap))
    (hmem : player ∈ period.players)
    (hempty : (heap player).matches_ = [])
    (hpost : (heap player).post = (heap player).pre)
    (hsigma : 0 < (heap player).pre.sigma)
    (h : period.Calculate fuel heap = some heap1) :
    (heap1 player).post.mu = (heap player).pre.mu ∧
    (heap1 player).post.sigma = (heap player).pre.sigma ∧
    (heap1 player).post.phi =
      Real.sqrt ((heap player).pre.phi ^ 2 + (heap player).pre.sigma ^ 2) ∧
    (heap player).pre.phi < (heap1 player).post.phi ∧
    ∀ (fuel2 : Nat) (tau2 : ℝ), calculatePlayer fuel2 tau2 heap player =
      some (Function.update heap player
        { heap player with post := (heap player).post.Touch }) := by
  have hnodup : period.players.Nodup := by
    have h1 := runCalls_nodup tau heap0 calls
    rw [hreg] at h1
    exact h1
  have htouch := Calculate_touch fuel period heap heap1 player hnodup hmem hempty h
  rw [hpost] at htouch
  rw [htouch]
  refine ⟨rfl, rfl, rfl, sqrt_sq_add_sq_gt _ _ hsigma, ?_⟩
  intro fuel2 tau2
  rw [calculatePlayer_eq, postState_of_no_matches fuel2 tau2 heap player hempty]
  rfl

theorem workedIdle_heap : workedIdle.2 = worked.2 := rfl

theorem workedIdle_players : workedIdle.1.players = [0, 1, 2, 3, 4] := by
  simp [workedIdle, runCalls, Call.apply, RatingPeriod.AddMatch, RatingPeriod.AddPlayer,
    NewRatingPeriod]

theorem workedIdle_tau : workedIdle.1.tau = 1 / 2 := by
  simp [workedIdle, runCalls, Call.apply, RatingPeriod.AddMatch, RatingPeriod.AddPlayer,
    NewRatingPeriod]

theorem worked_player4 :
    worked.2 4 =
      { pre := { mu := 1.1513, phi := 0.1727, sigma := 0.06 },
        post := { mu := 1.1513, phi := 0.1727, sigma := 0.06 }, matches_ := [] } := by
  simp [worked, runCalls, Call.apply, RatingPeriod.AddMatch, Player.addMatch, workedHeap,
    Function.update]

theorem workedIdle_Calculate (fuel : Nat) (hfuel : 2 ≤ fuel) :
    ∃ heap1, workedIdle.1.Calculate fuel workedIdle.2 = some heap1 := by
  apply Calculate_isSome
  intro p hp
  rw [workedIdle_players] at hp
  rw [workedIdle_tau, workedIdle_heap]
  have hp5 : p = 0 ∨ p = 1 ∨ p = 2 ∨ p = 3 ∨ p = 4 := by simpa using hp
  rcases hp5 with h | h | h | h | h
  · subst h
    obtain ⟨r, hr, _⟩ := worked_post0 fuel hfuel
    exact ⟨r, hr⟩
  · subst h
    exact worked_postState1 fuel hfuel
  · subst h
    exact worked_postState2 fuel hfuel
  · subst h
    exact worked_postState3 fuel hfuel
  · subst h
    exact ⟨_, postState_of_no_matches fuel (1 / 2) worked.2 4 (by rw [worked_player4])⟩

/-- C8, witness: player 4 of `workedIdle`, registered by `AddPlayer(4)` after the three
matches of the worked example, with pre and post state (1.1513, 0.1727, 0.06) and no
match; `Calculate` with budget 2 runs the volatility loops for players 0 to 3 and
returns. -/
theorem C8_inactive_player_witness :
    ∃ heap1, workedIdle.1.Calculate 2 workedIdle.2 = some heap1 ∧
      (heap1 4).post.mu = (workedIdle.2 4).pre.mu ∧
      (heap1 4).post.sigma = (workedIdle.2 4).pre.sigma ∧
      (heap1 4).post.phi =
        Real.sqrt ((workedIdle.2 4).pre.phi ^ 2 + (workedIdle.2 4).pre.sigma ^ 2) ∧
      (workedIdle.2 4).pre.phi < (heap1 4).post.phi ∧
      ∀ (fuel2 : Nat) (tau2 : ℝ), calculatePlayer fuel2 tau2 workedIdle.2 4 =
        some (Function.update workedIdle.2 4
          { workedIdle.2 4 with post := (workedIdle.2 4).post.Touch }) :=
  (workedIdle_Calculate 2 (le_refl 2)).elim fun heap1 h =>
    ⟨heap1, h, C8_inactive_player 2 (1 / 2) workedHeap
      [Call.addMatch 0 1 MatchResult.WIN, Call.addMatch 0 2 MatchResult.LOSS,
        Call.addMatch 0 3 MatchResult.LOSS, Call.addPlayer 4]
      workedIdle.1 workedIdle.2 heap1 4 rfl (by rw [workedIdle_players]; simp)
      (by rw [workedIdle_heap, worked_player4])
      (by rw [workedIdle_heap, worked_player4])
      (by rw [workedIdle_heap, worked_player4]; norm_num) h⟩

theorem idle_nodup : idle.1.players.Nodup := by
  rw [idle_players]
  exact List.nodup_singleton 0

/-- C8, counterexample: player 0 of `idle` is registered with pre and post state
(0, 1, 1) and no match. A first run of `Calculate` writes the deviation `sqrt 2`. On the
heap it leaves, player 0 is still registered, has no match and has the pre state
(0, 1, 1); `Calculate` returns again and writes the deviation `sqrt 3`, which is not
`sqrt(φ² + σ²) = sqrt(1² + 1²)`. -/
theorem C8_counterexample :
    0 ∈ idle.1.players ∧ (idle.2 0).matches_ = [] ∧ (idle.2 0).pre = unitRating ∧
    (idle.2 0).post = unitRating ∧
    ∃ heap1, idle.1.Calculate 0 idle.2 = some heap1 ∧
      (heap1 0).matches_ = [] ∧ (heap1 0).pre = unitRating ∧
      (heap1 0).post.phi = Real.sqrt 2 ∧
      (∃ heap2, idle.1.Calculate 0 heap1 = some heap2) ∧
      ∀ (fuel : Nat) (heap2 : Heap), idle.1.Calculate fuel heap1 = some heap2 →
        (heap2 0).post.phi = Real.sqrt 3 ∧
        (heap2 0).post.phi ≠
          Real.sqrt ((heap1 0).pre.phi ^ 2 + (heap1 0).pre.sigma ^ 2) := by
  have hmem : (0 : PlayerRef) ∈ idle.1.players := by rw [idle_players]; simp
  refine ⟨hmem, rfl, rfl, rfl, ?_⟩
  have hall : ∀ (heap : Heap), (heap 0).matches_ = [] →
      ∃ heap1, idle.1.Calculate 0 heap = some heap1 := by
    intro heap hempty
    apply Calculate_isSome
    intro p hp
    rw [idle_players] at hp
    have hp0 : p = 0 := by simpa using hp
    subst hp0
    exact ⟨_, postState_of_no_matches 0 idle.1.tau heap 0 hempty⟩
  obtain ⟨heap1, h1⟩ := hall idle.2 rfl
  obtain ⟨_, _, hsame⟩ := Calculate_some 0 idle.1 idle.2 heap1 h1
  have hm1 : (heap1 0).matches_ = [] := (hsame 0).2
  have hpre1 : (heap1 0).pre = unitRating := (hsame 0).1
  have ht1 := Calculate_touch 0 idle.1 idle.2 heap1 0 idle_nodup hmem rfl h1
  have hpost1 : (heap1 0).post = { mu := 0, phi := Real.sqrt 2, sigma := 1 } := by
    rw [ht1]
    show Rating.Touch unitRating = _
    unfold Rating.Touch unitRating
    norm_num
  refine ⟨heap1, h1, hm1, hpre1, by rw [hpost1], hall heap1 hm1, ?_⟩
  intro fuel heap2 h2
  have ht2 := Calculate_touch fuel idle.1 heap1 heap2 0 idle_nodup hmem hm1 h2
  have hphi2 : (heap2 0).post.phi = Real.sqrt 3 := by
    rw [ht2, hpost1]
    unfold Rating.Touch
    show Real.sqrt (Real.sqrt 2 ^ 2 + 1 ^ 2) = Real.sqrt 3
    rw [Real.sq_sqrt (by norm_num)]
    norm_num
  refine ⟨hphi2, ?_⟩
  rw [hphi2, hpre1]
  show Real.sqrt 3 ≠ Real.sqrt ((1 : ℝ) ^ 2 + 1 ^ 2)
  intro hEq
  have h3 : Real.sqrt ((1 : ℝ) ^ 2 + 1 ^ 2) < Real.sqrt 3 :=
    Real.sqrt_lt_sqrt (by norm_num) (by norm_num)
  rw [hEq] at h3
  exact lt_irrefl _ h3

end Glicko
